import Mathlib

/-!
The encrypted archive engine of filetool.

A shallow embedding of `encrypt.go`, `decrypt.go` and `cleanup.go`.

Modelling decisions, shared by every definition below.

* A byte is a natural number (below 256 for real data); XOR is `Nat.xor`.
* Go strings are Lean strings, so file names are Unicode text.
* The source directory is a tree `Node`; the children of a directory are listed
  in the order `readDirNames` returns them (sorted by name), which is the order
  `filepath.Walk` visits them.  Symbolic links and unreadable directories are
  outside the model.
* A zip container is the sequence of its entries (`zip.File`), in central
  directory order.  Every entry uses the Store method, so its payload is the raw
  bytes written to it.  `zip.OpenReader` on a file written by `zip.Writer` gives
  back the entries that were written, in order.
* The working directory of a decrypt run is a map `FS` from component paths to
  nodes and is taken as the root of the modelled file system.  A path that
  climbs with `..` lies outside the model and the modelled OS call rejects it.
* AES, SHA-256, the JSON codec, the random source, the clock and `filepath.Abs`
  are collaborators from the Go standard library; they are fields of `Env`.
* The progress bar only draws on the terminal and is left out; the lines printed
  to standard output by the decrypt loop are kept as `Report` values.
* Writes to an open output file, reads of `crypto/rand` and
  `zip.Writer.CreateHeader` do not fail.
-/

namespace Filetool

abbrev Byte := Nat
abbrev Bytes := List Byte
abbrev Time := Int

/-- Go `error` values, one constructor per place where the program or the
standard library creates one. -/
inductive Error where
  /-- An error returned by a call into package `os` or `zip` (`op` names the call). -/
  | os (op : String) (msg : String)
  /-- The `aes.KeySizeError` returned by `aes.NewCipher`. -/
  | keySize (n : Nat)
  /-- Go `errors.New("no index file found")`. -/
  | noIndexFile
  /-- The error returned by `json.Decoder.Decode`. -/
  | json (msg : String)
  /-- Go `errors.New("file not found in archive")`. -/
  | fileNotFound
  /-- Go `errors.New("failed to read IV: likely corrupted file or wrong password")`. -/
  | readIV
  /-- Go `errors.New("decryption failed: likely wrong password")`. -/
  | decryptionFailed
  /-- Go `fmt.Errorf("failed to create index: %v", err)`. -/
  | createIndex (inner : Error)
  /-- Go `fmt.Errorf("failed to encrypt %s: %v", relPath, err)`. -/
  | encryptFailed (relPath : String) (inner : Error)
  deriving DecidableEq, Repr

deriving instance DecidableEq for Except

/-- Metadata for each encrypted file (`FileIndexEntry` in encrypt.go). -/
structure FileIndexEntry where
  RelativePath : String
  OriginalSize : Int
  ModTime : Time
  ZipName : String
  deriving DecidableEq, Repr

/-- Metadata about all files in the archive (`ArchiveIndex` in encrypt.go). -/
structure ArchiveIndex where
  Files : List FileIndexEntry
  CreatedAt : Time
  Version : String
  deriving DecidableEq, Repr

/-- One entry of a zip container as `zip.Reader` presents it: the header name,
the header field `UncompressedSize64`, the outcome of `Open` (`openErr`), the
bytes the opened reader yields (`data`) and the error that ends the stream in
place of `io.EOF`, when there is one (`readErr`). -/
structure ZipFile where
  Name : String
  UncompressedSize64 : Nat
  openErr : Option Error
  data : Bytes
  readErr : Option Error
  deriving DecidableEq, Repr

/-- The entries of a container, in order (`reader.File`, and the state of a `zip.Writer`). -/
abbrev ZipArchive := List ZipFile

/-- Collaborators from the standard library. -/
structure Env where
  /-- AES block encryption: key, 16-byte block, result. -/
  aesEncrypt : Bytes → Bytes → Bytes
  /-- The SHA-256 compression of a byte string. -/
  sha256 : Bytes → Bytes
  /-- Go `json.Encoder.Encode` on an `ArchiveIndex`. -/
  jsonEncode : ArchiveIndex → Bytes
  /-- Go `json.Decoder.Decode` into an `ArchiveIndex`. -/
  jsonDecode : Bytes → Except String ArchiveIndex
  /-- The byte stream of `crypto/rand.Reader`. -/
  rand : Nat → Byte
  /-- The value of `time.Now()` when the index is created. -/
  now : Time
  /-- Go `filepath.Abs` for the working directory of the process. -/
  abs : String → String

/-! ## Bytes, strings and paths -/

/-- The bytes of a Go string (`[]byte(s)`): its UTF-8 encoding. -/
def stringBytes (s : String) : Bytes :=
  s.data.flatMap (fun c => (String.utf8EncodeChar c).map (fun b => b.toNat))

/-- Force a byte string into an array of `n` bytes. -/
def fitBytes (n : Nat) (b : Bytes) : Bytes :=
  (b ++ List.replicate n 0).take n

/-- Go `sha256.Sum256(data)`: a `[32]byte` value. -/
def Sum256 (env : Env) (data : Bytes) : Bytes :=
  fitBytes 32 (env.sha256 data)

/-- The conversion `int64(x)` of a `uint64`. -/
def int64OfUint64 (n : Nat) : Int :=
  if n % 2 ^ 64 < 2 ^ 63 then ((n % 2 ^ 64 : Nat) : Int) else ((n % 2 ^ 64 : Nat) : Int) - 2 ^ 64

/-- Go `strings.HasSuffix`. -/
def HasSuffix (s suffix : String) : Bool :=
  suffix.data.isSuffixOf s.data

/-- Go `strings.TrimSuffix`. -/
def TrimSuffix (s suffix : String) : String :=
  if HasSuffix s suffix then ⟨s.data.take (s.data.length - suffix.data.length)⟩ else s

/-- Cut a path at every slash; the result is never empty. -/
def splitSlash : List Char → List (List Char)
  | [] => [[]]
  | c :: cs =>
    if c = '/' then [] :: splitSlash cs
    else
      match splitSlash cs with
      | [] => [[c]]
      | h :: t => (c :: h) :: t

/-- The elements of a path as written, empty ones included. -/
def rawElems (p : String) : List String :=
  (splitSlash p.data).map String.mk

/-- Drop the elements that name no step (`""` and `"."`); `none` when an element is `".."`. -/
def cleanElems (elems : List String) : Option (List String) :=
  if elems.contains ".." then none
  else some (elems.filter (fun e => e ≠ "" ∧ e ≠ "."))

/-- The directory that `filepath.Dir(p)` names, as a component path. -/
def dirElems (p : String) : Option (List String) :=
  cleanElems (rawElems p).dropLast

/-- The component path that `p` names when it is used as a file name; `none` when
the last element is empty, `"."` or `".."` (the path then names a directory) or
when the path climbs with `".."`. -/
def fileElems (p : String) : Option (List String) :=
  match (rawElems p).getLast? with
  | none => none
  | some last =>
    if last = "" ∨ last = "." ∨ last = ".." then none
    else
      match dirElems p with
      | none => none
      | some d => some (d ++ [last])

/-- Join path components with forward slashes. -/
def joinSlash : List String → String
  | [] => ""
  | [c] => c
  | c :: d :: rest => c ++ "/" ++ joinSlash (d :: rest)

/-- Go `filepath.ToSlash(filepath.Rel(srcDir, path))` for the file at component path
`rel` below `srcDir`; `Rel` answers `"."` for `srcDir` itself. -/
def relSlash (rel : List String) : String :=
  if rel = [] then "." else joinSlash rel

/-- A name that a directory entry can carry: not empty, not `"."` or `".."`, no slash. -/
def validName (s : String) : Bool :=
  s ≠ "" && s ≠ "." && s ≠ ".." && !s.data.contains '/'

/-! ## The source tree and `filepath.Walk` -/

/-- A node of the source tree: a regular file with its bytes, or a directory
with its entries.  Symbolic links and special files, which `filepath.Walk`
reports like files with the size that `Lstat` gives, are not part of the
model. -/
inductive Node where
  | file (content : Bytes) (modTime : Time)
  | dir (children : List (String × Node))
  deriving Repr

/-- What the walk callback reads from `os.FileInfo`. -/
structure FileInfo where
  IsDir : Bool
  Size : Int
  ModTime : Time

/-- The recursive `walk` of package `filepath`: call `fn` on the node, then
descend into a directory, child after child; the first error ends the walk. -/
def walk {σ : Type} (fn : List String → FileInfo → σ → Except Error σ) :
    List String → Node → σ → Except Error σ
  | path, .file content modTime, s => fn path ⟨false, content.length, modTime⟩ s
  | path, .dir children, s =>
    match fn path ⟨true, 0, 0⟩ s with
    | .error e => .error e
    | .ok s1 => walkChildren path children s1
where
  /-- The loop over the names of one directory. -/
  walkChildren (path : List String) : List (String × Node) → σ → Except Error σ
    | [], s => .ok s
    | (name, child) :: rest, s =>
      match walk fn (path ++ [name]) child s with
      | .error e => .error e
      | .ok s1 => walkChildren path rest s1

/-- The node at a component path. -/
def Node.lookup : Node → List String → Option Node
  | n, [] => some n
  | .file _ _, _ :: _ => none
  | .dir children, c :: rest =>
    match children.lookup c with
    | none => none
    | some child => child.lookup rest

/-- Put `child` under `name` in a sorted directory listing, replacing an entry of that name. -/
def putChild (name : String) (child : Node) : List (String × Node) → List (String × Node)
  | [] => [(name, child)]
  | (n, c) :: rest =>
    if n = name then (name, child) :: rest
    else if name < n then (name, child) :: (n, c) :: rest
    else (n, c) :: putChild name child rest

/-- Go `os.Create` below the source directory: the file at `path` is created empty,
or truncated; `none` when the parent is missing or the path names a directory. -/
def Node.create (now : Time) : Node → List String → Option Node
  | _, [] => none
  | .file _ _, _ :: _ => none
  | .dir children, [c] =>
    match children.lookup c with
    | some (.dir _) => none
    | _ => some (.dir (putChild c (.file [] now) children))
  | .dir children, c :: d :: rest =>
    match children.lookup c with
    | none => none
    | some child =>
      match child.create now (d :: rest) with
      | none => none
      | some child1 => some (.dir (putChild c child1 children))

/-- A directory tree as a file system presents it: every entry carries a proper
name and no two entries of one directory share a name. -/
def Node.wellFormed : Node → Bool
  | .file _ _ => true
  | .dir children => wellFormedChildren children
where
  /-- The entries of one directory. -/
  wellFormedChildren : List (String × Node) → Bool
    | [] => true
    | (name, child) :: rest =>
      validName name && !(rest.map Prod.fst).contains name && child.wellFormed
        && wellFormedChildren rest

/-- A regular file of the source tree: its component path below the root, its
bytes and its modification time. -/
structure SourceFile where
  path : List String
  content : Bytes
  modTime : Time
  deriving DecidableEq, Repr

/-- The regular files of the tree below `path`, in walk order; directories
contribute nothing of their own.  This is the reference enumeration that the
claims speak of, stated without the callback machinery of `walk`. -/
def regularFilesAt : List String → Node → List SourceFile
  | path, .file content modTime => [⟨path, content, modTime⟩]
  | path, .dir children => regularFilesIn path children
where
  /-- The regular files below the entries of one directory. -/
  regularFilesIn (path : List String) : List (String × Node) → List SourceFile
    | [] => []
    | (name, child) :: rest => regularFilesAt (path ++ [name]) child ++ regularFilesIn path rest

/-- The regular files of a source tree. -/
def regularFiles (root : Node) : List SourceFile :=
  regularFilesAt [] root

/-- The index entry that the claims prescribe for a regular file: the slash
separated relative path, the byte length, the modification time and the
relative path followed by `.enc`. -/
def expectedEntry (f : SourceFile) : FileIndexEntry :=
  ⟨relSlash f.path, f.content.length, f.modTime, relSlash f.path ++ ".enc"⟩

/-! ## AES in cipher feedback mode (`crypto/aes`, `crypto/cipher`) -/

/-- Go `aes.BlockSize`. -/
def BlockSize : Nat := 16

/-- Go `aes.NewCipher(key)`: the block function for a key of 16, 24 or 32 bytes,
`KeySizeError` otherwise. -/
def NewCipher (env : Env) (key : Bytes) : Except Error (Bytes → Bytes) :=
  if key.length = 16 ∨ key.length = 24 ∨ key.length = 32 then
    .ok (fun block => fitBytes BlockSize (env.aesEncrypt key block))
  else .error (.keySize key.length)

/-- The `cfb` stream of package `cipher`: the block function `b`, the feedback
register `next`, the current keystream block `out`, the number `outUsed` of its
bytes already consumed, and the direction. -/
structure cfb where
  b : Bytes → Bytes
  next : Bytes
  out : Bytes
  outUsed : Nat
  decrypt : Bool

/-- Two streams that differ in direction only. -/
def cfb.mirror (e d : cfb) : Prop :=
  e.b = d.b ∧ e.next = d.next ∧ e.out = d.out ∧ e.outUsed = d.outUsed ∧
    e.decrypt = false ∧ d.decrypt = true

/-- Go `newCFB(block, iv, decrypt)` for an IV of `BlockSize` bytes. -/
def newCFB (block : Bytes → Bytes) (iv : Bytes) (decrypt : Bool) : cfb :=
  ⟨block, fitBytes BlockSize iv, List.replicate BlockSize 0, BlockSize, decrypt⟩

/-- Go `cipher.NewCFBEncrypter`. -/
def NewCFBEncrypter (block : Bytes → Bytes) (iv : Bytes) : cfb :=
  newCFB block iv false

/-- Go `cipher.NewCFBDecrypter`. -/
def NewCFBDecrypter (block : Bytes → Bytes) (iv : Bytes) : cfb :=
  newCFB block iv true

/-- One byte of `XORKeyStream`: refill the keystream block when it is used up,
XOR the source byte with the next keystream byte, and store the ciphertext byte
(the output when encrypting, the input when decrypting) in the feedback register. -/
def cfb.stepByte (x : cfb) (s : Byte) : cfb × Byte :=
  let x1 : cfb :=
    if x.outUsed = x.out.length then ⟨x.b, x.next, x.b x.next, 0, x.decrypt⟩ else x
  let d := s ^^^ x1.out.getD x1.outUsed 0
  let fb := if x1.decrypt then s else d
  (⟨x1.b, x1.next.set x1.outUsed fb, x1.out, x1.outUsed + 1, x1.decrypt⟩, d)

/-- Go `XORKeyStream(dst, src)`: the stream after `src` and the bytes written to `dst`. -/
def cfb.XORKeyStream (x : cfb) : Bytes → cfb × Bytes
  | [] => (x, [])
  | s :: rest =>
    let r := x.stepByte s
    let t := cfb.XORKeyStream r.1 rest
    (t.1, r.2 :: t.2)

/-- The buffer size of `io.Copy`. -/
def copyBufferSize : Nat := 32 * 1024

/-- Push a sequence of chunks through a stream, one `XORKeyStream` call per chunk
(`StreamWriter.Write`, `StreamReader.Read`); the result is everything written. -/
def streamChunks (x : cfb) : List Bytes → Bytes
  | [] => []
  | chunk :: rest =>
    let r := x.XORKeyStream chunk
    r.2 ++ streamChunks r.1 rest

/-- The chunks that the read loop of `io.Copy` takes from a source: at most
`copyBufferSize` bytes each, until the source is used up (`fuel` bounds the
number of reads). -/
def readChunks : Nat → Bytes → List Bytes
  | 0, _ => []
  | fuel + 1, src =>
    if src = [] then []
    else src.take copyBufferSize :: readChunks fuel (src.drop copyBufferSize)

/-- Go `io.Copy` through a cipher stream: the source is read chunk by chunk and each
chunk goes through the stream. -/
def ioCopyStream (x : cfb) (src : Bytes) : Bytes :=
  streamChunks x (readChunks src.length src)

/-- The 16 bytes that `io.ReadFull(rand.Reader, iv)` delivers at position `pos` of the random stream. -/
def randomIV (env : Env) (pos : Nat) : Bytes :=
  (List.range BlockSize).map (fun i => env.rand (pos + i))

/-! ## Building a container (encrypt.go) -/

/-- The closure passed to `filepath.Walk` in `CreateEncryptedArchiveWithIndex`.
Its state is `(fileEntries, totalSize)`; `path` is the component path below `srcDir`. -/
def collectEntry (path : List String) (info : FileInfo)
    (st : List FileIndexEntry × Int) : Except Error (List FileIndexEntry × Int) :=
  if info.IsDir then .ok st
  else
    let relPath := relSlash path
    let zipName := relPath ++ ".enc"
    .ok (st.1 ++ [⟨relPath, info.Size, info.ModTime, zipName⟩], st.2 + info.Size)

/-- Go `filepath.Walk(srcDir, fn)`: `Lstat` fails on a missing root and the callback
hands that error back. -/
def Walk {σ : Type} (srcDir : Option Node)
    (fn : List String → FileInfo → σ → Except Error σ) (s : σ) : Except Error σ :=
  match srcDir with
  | none => .error (.os "lstat" "no such file or directory")
  | some root => walk fn [] root s

/-- Go `addIndexToArchive`: a stored entry `index.json` holding the JSON of the index. -/
def addIndexToArchive (env : Env) (zipWriter : ZipArchive) (index : ArchiveIndex) :
    Option Error × ZipArchive :=
  let body := env.jsonEncode index
  (none, zipWriter ++ [⟨"index.json", body.length, none, body, none⟩])

/-- The component path below `srcDir` that `filepath.Join(srcDir, filepath.FromSlash(p))`
names (`Join` cleans the result); `none` when it climbs out with `".."`. -/
def joinElems (p : String) : Option (List String) :=
  cleanElems (rawElems p)

/-- Go `encryptFileToWriter`: `writer` holds the bytes written to the destination so
far and `pos` is the position in the random stream.  `inputPath` is the
component path of the input below the source directory `src`. -/
def encryptFileToWriter (env : Env) (src : Node) (inputPath : Option (List String))
    (writer : Bytes) (key : Bytes) (pos : Nat) : Option Error × Bytes × Nat :=
  match inputPath.bind src.lookup with
  | none => (some (.os "open" "no such file or directory"), writer, pos)
  | some inputFile =>
    match NewCipher env key with
    | .error e => (some e, writer, pos)
    | .ok block =>
      let iv := randomIV env pos
      let writer1 := writer ++ iv
      let stream := NewCFBEncrypter block iv
      match inputFile with
      | .dir _ => (some (.os "read" "is a directory"), writer1, pos + BlockSize)
      | .file content _ => (none, writer1 ++ ioCopyStream stream content, pos + BlockSize)

/-- Go `addEncryptedFileToArchive`: a stored entry `zipName` whose payload is what
`encryptFileToWriter` writes. -/
def addEncryptedFileToArchive (env : Env) (src : Node) (zipWriter : ZipArchive)
    (sourcePath : Option (List String)) (zipName : String) (key : Bytes) (pos : Nat) :
    Option Error × ZipArchive × Nat :=
  let r := encryptFileToWriter env src sourcePath [] key pos
  (r.1, zipWriter ++ [⟨zipName, r.2.1.length, none, r.2.1, none⟩], r.2.2)

/-- The loop `for _, entry := range fileEntries` of `CreateEncryptedArchiveWithIndex`. -/
def encryptEntries (env : Env) (src : Node) (key : Bytes) :
    List FileIndexEntry → ZipArchive → Nat → Option Error × ZipArchive
  | [], zipWriter, _ => (none, zipWriter)
  | entry :: rest, zipWriter, pos =>
    let sourcePath := joinElems entry.RelativePath
    let r := addEncryptedFileToArchive env src zipWriter sourcePath entry.ZipName key pos
    match r.1 with
    | some e => (some (.encryptFailed entry.RelativePath e), r.2.1)
    | none => encryptEntries env src key rest r.2.1 r.2.2

/-- Where `archivePath` lies. -/
inductive ArchiveLoc where
  /-- Outside the source directory, at a place where `os.Create` succeeds. -/
  | outside
  /-- At a place where `os.Create` fails with the given error. -/
  | failing (e : Error)
  /-- Inside the source directory, at this component path below it. -/
  | inside (path : List String)

/-- The outcome of a build: the returned error, the container left at
`archivePath` (`none` when the file was not created) and the source directory
after the run. -/
structure BuildResult where
  err : Option Error
  archive : Option ZipArchive
  src : Option Node

/-- Go `os.Create(archivePath)`: the source directory afterwards, or the error. A
file created inside the source directory is empty while the build runs, as long
as the buffered zip writer has flushed nothing, that is for a container of
fewer than 4096 bytes.  A larger build reads the file it is writing, which the
`inside` case does not follow. -/
def createArchiveFile (env : Env) (srcDir : Option Node) : ArchiveLoc → Except Error (Option Node)
  | .outside => .ok srcDir
  | .failing e => .error e
  | .inside path =>
    match srcDir with
    | none => .error (.os "open" "no such file or directory")
    | some root =>
      match root.create env.now path with
      | none => .error (.os "open" "cannot create")
      | some root1 => .ok (some root1)

/-- Go `CreateEncryptedArchiveWithIndex(srcDir, archivePath, key)`. -/
def CreateEncryptedArchiveWithIndex (env : Env) (srcDir : Option Node)
    (archivePath : ArchiveLoc) (key : Bytes) : BuildResult :=
  match createArchiveFile env srcDir archivePath with
  | .error e => ⟨some e, none, srcDir⟩
  | .ok src1 =>
    let zipWriter : ZipArchive := []
    match Walk src1 collectEntry ([], 0) with
    | .error e => ⟨some e, some zipWriter, src1⟩
    | .ok (fileEntries, _) =>
      let index : ArchiveIndex := ⟨fileEntries, env.now, "1.0"⟩
      match addIndexToArchive env zipWriter index with
      | (some e, zipWriter1) => ⟨some (.createIndex e), some zipWriter1, src1⟩
      | (none, zipWriter1) =>
        match src1 with
        | none => ⟨none, some zipWriter1, src1⟩
        | some root =>
          let r := encryptEntries env root key fileEntries zipWriter1 0
          ⟨r.1, some r.2, src1⟩

/-- Go `RunEncrypt(src, dst)` with the password that `ReadPassword` returned. -/
def RunEncrypt (env : Env) (src : Option Node) (dst : ArchiveLoc) (password : String) : BuildResult :=
  let key := Sum256 env (stringBytes password)
  CreateEncryptedArchiveWithIndex env src dst key

/-! ## The working directory of a decrypt run -/

/-- A node of the working directory. -/
inductive FNode where
  | file (content : Bytes)
  | dir
  deriving DecidableEq, Repr

/-- The working directory: what lies at each component path.  The root `[]` is
the directory itself and always exists. -/
abbrev FS := List String → Option FNode

/-- The file system with `n` at `p`. -/
def FS.put (fs : FS) (p : List String) (n : FNode) : FS :=
  fun q => if q = p then some n else fs q

/-- An empty working directory. -/
def emptyFS : FS := fun _ => none

/-- Go `os.MkdirAll` below the existing directory `pre`: every missing directory
along `rest` is created; a regular file on the way is an error. -/
def mkdirFrom (fs : FS) (pre : List String) : List String → Option Error × FS
  | [] => (none, fs)
  | c :: rest =>
    match fs (pre ++ [c]) with
    | some (.file _) => (some (.os "mkdir" "not a directory"), fs)
    | some .dir => mkdirFrom fs (pre ++ [c]) rest
    | none => mkdirFrom (fs.put (pre ++ [c]) .dir) (pre ++ [c]) rest

/-- Go `os.MkdirAll(dir, 0755)`. -/
def osMkdirAll (fs : FS) (dir : Option (List String)) : Option Error × FS :=
  match dir with
  | none => (some (.os "mkdir" "no such file or directory"), fs)
  | some d => mkdirFrom fs [] d

/-- Go `os.Create(path)`: the parent must be a directory and the path must not name
one; the file is created empty or truncated. -/
def osCreate (fs : FS) (path : Option (List String)) : Except Error FS :=
  match path with
  | none => .error (.os "open" "is a directory")
  | some p =>
    if p.dropLast ≠ [] ∧ fs p.dropLast ≠ some .dir then
      .error (.os "open" "no such file or directory")
    else if p = [] ∨ fs p = some .dir then .error (.os "open" "is a directory")
    else .ok (fs.put p (.file []))

/-! ## Listing and decrypting (decrypt.go, cleanup.go) -/

/-- Go `zip.OpenReader(archivePath)`; `archive` is the container stored at the path,
`none` when the file is missing or is no zip archive. -/
def zipOpenReader (archive : Option ZipArchive) : Except Error ZipArchive :=
  match archive with
  | none => .error (.os "zip.OpenReader" "cannot open archive")
  | some reader => .ok reader

/-- Go `ListEncryptedFilesFromIndex(archivePath)`. -/
def ListEncryptedFilesFromIndex (env : Env) (archive : Option ZipArchive) :
    Except Error (List FileIndexEntry) :=
  match zipOpenReader archive with
  | .error e => .error e
  | .ok reader =>
    match reader.find? (fun f => f.Name = "index.json") with
    | none => .error .noIndexFile
    | some indexFile =>
      match indexFile.openErr with
      | some e => .error e
      | none =>
        match env.jsonDecode indexFile.data with
        | .error msg => .error (.json msg)
        | .ok index => .ok index.Files

/-- Go `ListEncryptedFilesFallback(archivePath)`. -/
def ListEncryptedFilesFallback (archive : Option ZipArchive) :
    Except Error (List FileIndexEntry) :=
  match zipOpenReader archive with
  | .error e => .error e
  | .ok reader =>
    .ok (reader.filterMap (fun f =>
      if HasSuffix f.Name ".enc" then
        let originalName := TrimSuffix f.Name ".enc"
        some ⟨originalName, int64OfUint64 f.UncompressedSize64, 0, f.Name⟩
      else none))

/-- Go `decryptFromReaderWithKey`: the reader yields `data` and then ends with
`io.EOF` or with `readErr`; the result is the error and the bytes written to the writer. -/
def decryptFromReaderWithKey (env : Env) (data : Bytes) (readErr : Option Error)
    (key : Bytes) : Option Error × Bytes :=
  match NewCipher env key with
  | .error e => (some e, [])
  | .ok block =>
    if data.length < BlockSize then (some .readIV, [])
    else
      let iv := data.take BlockSize
      let stream := NewCFBDecrypter block iv
      let written := ioCopyStream stream (data.drop BlockSize)
      match readErr with
      | some _ => (some .decryptionFailed, written)
      | none => (none, written)

/-- Go `decryptFromReader`: derive the key from the password, then decrypt. -/
def decryptFromReader (env : Env) (data : Bytes) (readErr : Option Error)
    (password : String) : Option Error × Bytes :=
  let key := Sum256 env (stringBytes password)
  decryptFromReaderWithKey env data readErr key

/-- Go `decryptSingleFileFromReader`: the error and the working directory afterwards. -/
def decryptSingleFileFromReader (env : Env) (reader : ZipArchive) (fileInfo : FileIndexEntry)
    (outputPath : String) (key : Bytes) (fs : FS) : Option Error × FS :=
  match reader.find? (fun f => f.Name = fileInfo.ZipName) with
  | none => (some .fileNotFound, fs)
  | some targetFile =>
    match targetFile.openErr with
    | some e => (some e, fs)
    | none =>
      match osMkdirAll fs (dirElems outputPath) with
      | (some e, fs1) => (some e, fs1)
      | (none, fs1) =>
        match osCreate fs1 (fileElems outputPath) with
        | .error e => (some e, fs1)
        | .ok fs2 =>
          let r := decryptFromReaderWithKey env targetFile.data targetFile.readErr key
          (r.1, fs2.put ((fileElems outputPath).getD []) (.file r.2))

/-- A line printed by the decrypt loop. -/
inductive Report where
  /-- The line `Failed to decrypt <relative path>: <error>`. -/
  | failed (relPath : String) (err : Error)
  /-- The line `Decrypted: <output path>`. -/
  | decrypted (outputPath : String)
  deriving DecidableEq, Repr

/-- The process state a decrypt run works on: the working directory, the global
`decryptedFiles` of cleanup.go and the lines printed so far. -/
structure DecState where
  fs : FS
  decryptedFiles : List String
  stdout : List Report

/-- Go `RegisterTempFile(path)`. -/
def RegisterTempFile (decryptedFiles : List String) (path : String) : List String :=
  decryptedFiles ++ [path]

/-- The body of the loop `for _, file := range selectedFiles`. -/
def decryptStep (env : Env) (reader : ZipArchive) (key : Bytes) (st : DecState)
    (file : FileIndexEntry) : DecState :=
  let outputPath := file.RelativePath
  match decryptSingleFileFromReader env reader file outputPath key st.fs with
  | (some err, fs1) => ⟨fs1, st.decryptedFiles, st.stdout ++ [.failed file.RelativePath err]⟩
  | (none, fs1) =>
    let absPath := env.abs outputPath
    ⟨fs1, RegisterTempFile st.decryptedFiles absPath, st.stdout ++ [.decrypted outputPath]⟩

/-- Go `DecryptSelectedFilesFromArchive(archivePath, files, selectedMap, key)`. -/
def DecryptSelectedFilesFromArchive (env : Env) (archive : Option ZipArchive)
    (files : List FileIndexEntry) (selectedMap : String → Bool) (key : Bytes)
    (st : DecState) : Option Error × DecState :=
  match zipOpenReader archive with
  | .error e => (some e, st)
  | .ok reader =>
    let selectedFiles := files.filter (fun file => selectedMap file.RelativePath)
    (none, selectedFiles.foldl (decryptStep env reader key) st)

/-- Neither path is an initial segment of the other. -/
def apart (f g : SourceFile) : Prop :=
  ¬ f.path <+: g.path ∧ ¬ g.path <+: f.path

/-! ## Reference descriptions used by the theorems -/

/-- A key length that AES accepts. -/
def validKey (key : Bytes) : Prop :=
  key.length = 16 ∨ key.length = 24 ∨ key.length = 32

instance (key : Bytes) : Decidable (validKey key) := by
  unfold validKey
  infer_instance

/-- The AES block function under `key`, with its 16-byte output buffer. -/
def aesBlock (env : Env) (key : Bytes) : Bytes → Bytes :=
  fun block => fitBytes BlockSize (env.aesEncrypt key block)

/-- CFB ciphertext of `plain` under a block function and an IV. -/
def cfbEncrypt (block : Bytes → Bytes) (iv plain : Bytes) : Bytes :=
  ((NewCFBEncrypter block iv).XORKeyStream plain).2

/-- The payload that the container format prescribes for a plaintext: the IV
drawn at position `pos` of the random stream, then the CFB ciphertext. -/
def expectedPayload (env : Env) (key : Bytes) (pos : Nat) (content : Bytes) : Bytes :=
  randomIV env pos ++ cfbEncrypt (aesBlock env key) (randomIV env pos) content

/-- The stored entry that the container format prescribes for a regular file. -/
def expectedZipEntry (env : Env) (key : Bytes) (pos : Nat) (f : SourceFile) : ZipFile :=
  ⟨relSlash f.path ++ ".enc", (expectedPayload env key pos f.content).length, none,
    expectedPayload env key pos f.content, none⟩

/-- The `.enc` entries for a list of files; each file draws the next 16 random bytes. -/
def expectedZipEntries (env : Env) (key : Bytes) : Nat → List SourceFile → ZipArchive
  | _, [] => []
  | pos, f :: rest => expectedZipEntry env key pos f :: expectedZipEntries env key (pos + BlockSize) rest

/-- The index that a build stores for a source tree. -/
def expectedIndex (env : Env) (root : Node) : ArchiveIndex :=
  ⟨(regularFiles root).map expectedEntry, env.now, "1.0"⟩

/-- The `index.json` entry that a build stores for a source tree. -/
def expectedIndexEntry (env : Env) (root : Node) : ZipFile :=
  ⟨"index.json", (env.jsonEncode (expectedIndex env root)).length, none,
    env.jsonEncode (expectedIndex env root), none⟩

/-- The working directory lets a file be created at `p`: no regular file stands
where the path needs a directory, and no directory stands at `p` itself. -/
def FS.admits (fs : FS) (p : List String) : Prop :=
  (∀ q, q <+: p → q ≠ p → ∀ c, fs q ≠ some (.file c)) ∧ fs p ≠ some .dir

/-- What happens to the entry of a file in a decrypt run: `none` when the
container has no entry of its name, else the result of the stream decryption
(the error, and the bytes written to the output file). -/
abbrev Outcome := Option (Option Error × Bytes)

/-- The line the decrypt loop prints for a file with the given outcome. -/
def reportOf (f : SourceFile) : Outcome → Report
  | none => .failed (relSlash f.path) .fileNotFound
  | some (some e, _) => .failed (relSlash f.path) e
  | some (none, _) => .decrypted (relSlash f.path)

/-- The outcome is a success. -/
def succeeded : Outcome → Bool
  | some (none, _) => true
  | _ => false

/-- The outcome of looking up and decrypting the entry `zipName` of a container. -/
def outcomeIn (env : Env) (reader : ZipArchive) (key : Bytes) (zipName : String) : Outcome :=
  match reader.find? (fun z => z.Name = zipName) with
  | none => none
  | some e => some (decryptFromReaderWithKey env e.data e.readErr key)

/-- The container that a build writes for a source tree: the index entry, then
the `.enc` entries of its regular files. -/
def builtArchive (env : Env) (root : Node) (key : Bytes) : ZipArchive :=
  expectedIndexEntry env root :: expectedZipEntries env key 0 (regularFiles root)

/-- The report is a failure line. -/
def Report.isFailure : Report → Bool
  | .failed _ _ => true
  | .decrypted _ => false

/-! ## A worked example

A small environment: a toy block function, a toy digest, and a length-prefixed
codec standing in for the JSON encoding of the index. -/

/-- Encode a string: its length, then its code points. -/
def sampleEncodeString (s : String) : Bytes :=
  s.data.length :: s.data.map Char.toNat

/-- Encode an integer: a sign flag, then the magnitude. -/
def sampleEncodeInt (i : Int) : Bytes :=
  [if i < 0 then 1 else 0, i.natAbs]

/-- Encode one index entry. -/
def sampleEncodeEntry (e : FileIndexEntry) : Bytes :=
  sampleEncodeString e.RelativePath ++ sampleEncodeInt e.OriginalSize
    ++ sampleEncodeInt e.ModTime ++ sampleEncodeString e.ZipName

/-- Encode an index: the number of entries, the entries, the time, the version. -/
def sampleEncode (index : ArchiveIndex) : Bytes :=
  index.Files.length :: index.Files.flatMap sampleEncodeEntry
    ++ sampleEncodeInt index.CreatedAt ++ sampleEncodeString index.Version

/-- Decode a string and return the rest of the input. -/
def sampleDecodeString : Bytes → Option (String × Bytes)
  | [] => none
  | n :: rest =>
    if rest.length < n then none
    else some (String.mk ((rest.take n).map Char.ofNat), rest.drop n)

/-- Decode an integer and return the rest of the input. -/
def sampleDecodeInt : Bytes → Option (Int × Bytes)
  | sign :: magnitude :: rest =>
    if sign = 0 then some ((magnitude : Int), rest)
    else if sign = 1 then some (-(magnitude : Int), rest)
    else none
  | _ => none

/-- Decode one index entry and return the rest of the input. -/
def sampleDecodeEntry (input : Bytes) : Option (FileIndexEntry × Bytes) :=
  match sampleDecodeString input with
  | none => none
  | some (relPath, r1) =>
    match sampleDecodeInt r1 with
    | none => none
    | some (size, r2) =>
      match sampleDecodeInt r2 with
      | none => none
      | some (modTime, r3) =>
        match sampleDecodeString r3 with
        | none => none
        | some (zipName, r4) => some (⟨relPath, size, modTime, zipName⟩, r4)

/-- Decode `n` index entries and return the rest of the input. -/
def sampleDecodeEntries : Nat → Bytes → Option (List FileIndexEntry × Bytes)
  | 0, input => some ([], input)
  | n + 1, input =>
    match sampleDecodeEntry input with
    | none => none
    | some (e, r1) =>
      match sampleDecodeEntries n r1 with
      | none => none
      | some (es, r2) => some (e :: es, r2)

/-- Decode an index. -/
def sampleDecode : Bytes → Except String ArchiveIndex
  | [] => .error "unexpected end of JSON input"
  | n :: rest =>
    match sampleDecodeEntries n rest with
    | none => .error "unexpected end of JSON input"
    | some (files, r1) =>
      match sampleDecodeInt r1 with
      | none => .error "unexpected end of JSON input"
      | some (createdAt, r2) =>
        match sampleDecodeString r2 with
        | none => .error "unexpected end of JSON input"
        | some (version, r3) =>
          if r3 = [] then .ok ⟨files, createdAt, version⟩
          else .error "invalid character after top-level value"

/-- The example environment. -/
def sampleEnv : Env where
  aesEncrypt := fun key block => (block.map (fun x => (x * 7 + key.length + 3) % 256)).reverse
  sha256 := fun data => (List.range 32).map (fun i => (data.sum + i * data.length) % 256)
  jsonEncode := sampleEncode
  jsonDecode := sampleDecode
  rand := fun i => (i * 37 + 11) % 256
  now := 1000
  abs := fun p => "/work/" ++ p

/-- The entries of the example source directory: files of 0, 1, 2, 5 and 17 bytes,
one directory level and an empty directory. -/
def sampleChildren : List (String × Node) :=
  [("a.txt", .file [104, 105] 5),
   ("empty", .file [] 6),
   ("one", .file [7] 7),
   ("sub", .dir [("b.txt", .file [119, 111, 114, 108, 100] 8),
     ("long", .file [1, 2, 3, 4, 5, 6, 7, 8, 9, 10, 11, 12, 13, 14, 15, 16, 17] 9),
     ("void", .dir [])])]

/-- The example source directory. -/
def sampleTree : Node := .dir sampleChildren

/-- The state of a fresh process in an empty working directory. -/
def freshState : DecState := ⟨emptyFS, [], []⟩

/-- Bytewise XOR of two byte strings, as long as the shorter one. -/
def xorBytes (a b : Bytes) : Bytes :=
  List.zipWith (fun x y => x ^^^ y) a b

/-- Cipher feedback mode as the textbooks define it, with full-block feedback:
each ciphertext block is the plaintext block XOR the encryption of the previous
ciphertext block (the IV for the first), and the last block may be short.
`fuel` bounds the number of blocks. -/
def cfbReference (E : Bytes → Bytes) : Nat → Bytes → Bytes → Bytes
  | 0, _, _ => []
  | fuel + 1, prev, plain =>
    if plain = [] then []
    else
      xorBytes (plain.take BlockSize) (E prev)
        ++ cfbReference E fuel (xorBytes (plain.take BlockSize) (E prev)) (plain.drop BlockSize)

/-! ## Display of file sizes and the interactive run (decrypt.go) -/

/-- The character of a decimal digit. -/
def digitChar : Nat → Char
  | 0 => '0'
  | 1 => '1'
  | 2 => '2'
  | 3 => '3'
  | 4 => '4'
  | 5 => '5'
  | 6 => '6'
  | 7 => '7'
  | 8 => '8'
  | _ => '9'

/-- The decimal digits of a number, most significant first (`fuel` bounds their count). -/
def decimalDigits : Nat → Nat → List Char
  | 0, _ => []
  | fuel + 1, n =>
    if n < 10 then [digitChar n]
    else decimalDigits fuel (n / 10) ++ [digitChar (n % 10)]

/-- The decimal numeral of a natural number. -/
def decimal (n : Nat) : String :=
  String.mk (decimalDigits (n + 1) n)

/-- The verb `%d` on an integer. -/
def formatInt (i : Int) : String :=
  if i < 0 then "-" ++ decimal i.natAbs else decimal i.natAbs

/-- The conversion `int64(x)` of an integer product: wrap into the 64-bit range. -/
def wrapInt64 (i : Int) : Int :=
  (i + 2 ^ 63) % 2 ^ 64 - 2 ^ 63

/-- The number of low bits that the conversion to `float64` drops from a
natural number: what exceeds 53 significant bits. -/
def excessBits : Nat → Nat → Nat
  | 0, _ => 0
  | fuel + 1, n => if n < 2 ^ 53 then 0 else 1 + excessBits fuel (n / 2)

/-- The value of `float64(n)` for a natural number: `n` rounded to 53 significant
bits, ties to even. -/
def float64OfNat (n : Nat) : Nat :=
  let shift := excessBits 64 n
  let q := n / 2 ^ shift
  let r := n % 2 ^ shift
  let q1 := if 2 * r > 2 ^ shift ∨ (2 * r = 2 ^ shift ∧ q % 2 = 1) then q + 1 else q
  q1 * 2 ^ shift

/-- The verb `%.1f` on the quotient `num / den` of two floats, for a power of two
`den` (the division is then exact): the quotient rounded to one decimal, ties to even. -/
def formatTenths (num den : Nat) : String :=
  let q := 10 * num / den
  let r := 10 * num % den
  let tenths := if 2 * r > den ∨ (2 * r = den ∧ q % 2 = 1) then q + 1 else q
  decimal (tenths / 10) ++ "." ++ decimal (tenths % 10)

/-- The loop `for n := size / unit; n >= unit; n /= unit` of `formatFileSize`,
started at `n` with the current `div` and `exp`; `none` when the fuel runs out. -/
def unitLoop : Nat → Int → Int → Nat → Option (Int × Nat)
  | 0, _, _, _ => none
  | fuel + 1, n, div, exp =>
    if n ≥ 1024 then unitLoop fuel (Int.tdiv n 1024) (wrapInt64 (div * 1024)) (exp + 1)
    else some (div, exp)

/-- The byte `"KMGTPE"[exp]`; `none` when the index is out of range, where Go panics. -/
def unitChar (exp : Nat) : Option Char :=
  "KMGTPE".data.get? exp

/-- Go `formatFileSize(size)`; `none` when the function does not return. -/
def formatFileSize (size : Int) : Option String :=
  if size < 1024 then some (formatInt size ++ " B")
  else
    match unitLoop 64 (Int.tdiv size 1024) 1024 0 with
    | none => none
    | some (div, exp) =>
      match unitChar exp with
      | none => none
      | some c =>
        some (formatTenths (float64OfNat size.toNat) (float64OfNat div.toNat)
          ++ " " ++ String.singleton c ++ "B")

/-- Go `strings.LastIndex(s, sub)` on character lists; `none` stands for `-1`. -/
def lastIndex (sub : List Char) : List Char → Option Nat
  | [] => if sub = [] then some 0 else none
  | c :: cs =>
    match lastIndex sub cs with
    | some i => some (i + 1)
    | none => if sub.isPrefixOf (c :: cs) then some 0 else none

/-- The key that `RunDecryptInteractive` derives from a chosen option: the
option cut at its last `" ("`, the whole option when there is none. -/
def selectionKey (sel : String) : String :=
  match lastIndex " (".data sel.data with
  | some idx => String.mk (sel.data.take idx)
  | none => sel

/-- The display option of an index entry: `fmt.Sprintf("%s (%s)", path, sizeStr)`. -/
def displayOption (relativePath sizeStr : String) : String :=
  relativePath ++ " (" ++ sizeStr ++ ")"

/-- The display options of `RunDecryptInteractive`; `none` when `formatFileSize`
does not return for some entry. -/
def displayOptions : List FileIndexEntry → Option (List String)
  | [] => some []
  | file :: rest =>
    match formatFileSize file.OriginalSize with
    | none => none
    | some sizeStr =>
      match displayOptions rest with
      | none => none
      | some options => some (displayOption file.RelativePath sizeStr :: options)

/-- The map `selectedMap` of `RunDecryptInteractive`: its keys are the cut options. -/
def selectedMapOf (selected : List String) : String → Bool :=
  fun p => selected.any (fun sel => selectionKey sel = p)

/-- The listing step of `RunDecryptInteractive`: the index, and the fallback
scan when reading the index fails. -/
def listArchive (env : Env) (encFile : Option ZipArchive) : Except Error (List FileIndexEntry) :=
  match ListEncryptedFilesFromIndex env encFile with
  | .ok files => .ok files
  | .error _ => ListEncryptedFilesFallback encFile

/-- Go `RunDecryptInteractive(encFile)` with the password that `ReadPassword`
returned and the answer `prompt` of `MultiSelectPrompt` to the options shown.
The result is the process state afterwards. -/
def RunDecryptInteractive (env : Env) (encFile : Option ZipArchive) (password : String)
    (prompt : List String → List String) (st : DecState) : DecState :=
  let key := Sum256 env (stringBytes password)
  match listArchive env encFile with
  | .error _ => st
  | .ok files =>
    if files.length = 0 then st
    else
      match displayOptions files with
      | none => st
      | some options =>
        let selected := prompt options
        if selected.length = 0 then st
        else
          let selectedMap := selectedMapOf selected
          (DecryptSelectedFilesFromArchive env encFile files selectedMap key st).2

/-- The destination directory of a backup: what lies at each component path
below it, and what `os.Stat` reports besides: the modification time of an entry
and the size of a directory.  The root `[]` is the directory itself; it exists,
or `os.MkdirAll` creates it. -/
structure DstDir where
  fs : FS
  modTime : List String → Time
  dirSize : List String → Int

/-- The recursive walk of `filepath.WalkDir` over a tree that can be read: call
`fn` on the entry, then descend into a directory, child after child; the first
error ends the walk and leaves the state as it is.  The callback reads
`d.IsDir()` only. -/
def walkDir {σ : Type} (fn : List String → Bool → σ → Option Error × σ) :
    List String → Node → σ → Option Error × σ
  | path, .file _ _, s => fn path false s
  | path, .dir children, s =>
    match fn path true s with
    | (some e, s1) => (some e, s1)
    | (none, s1) => walkDirChildren path children s1
where
  /-- The loop over the names of one directory. -/
  walkDirChildren (path : List String) : List (String × Node) → σ → Option Error × σ
    | [], s => (none, s)
    | (name, child) :: rest, s =>
      match walkDir fn (path ++ [name]) child s with
      | (some e, s1) => (some e, s1)
      | (none, s1) => walkDirChildren path rest s1

/-- What `os.Stat` reports for a node of the source tree. -/
def Node.stat : Node → FileInfo
  | .file content modTime => ⟨false, content.length, modTime⟩
  | .dir _ => ⟨true, 0, 0⟩

/-- Go `os.Stat(targetPath)` in the destination: an error (`none`) when the
parent is no directory or nothing lies at the path. -/
def osStat (d : DstDir) (p : List String) : Option FileInfo :=
  match p with
  | [] => some ⟨true, d.dirSize [], d.modTime []⟩
  | _ :: _ =>
    if p.dropLast ≠ [] ∧ d.fs p.dropLast ≠ some .dir then none
    else
      match d.fs p with
      | none => none
      | some (.file content) => some ⟨false, content.length, d.modTime p⟩
      | some .dir => some ⟨true, d.dirSize p, d.modTime p⟩

/-- The callback of the copy pass of `RunBackup`, at the entry with relative
path `path`.  A directory is made with `os.MkdirAll`.  A file is left alone when
the destination has an entry of the same size that the source is not newer
than; else it is created or truncated and written with the source bytes.  The
errors of `os.Open` and `os.Create` are dropped, and `io.Copy` then fails on the
missing file. -/
def copyEntry (env : Env) (src : Node) (path : List String) (isDir : Bool) (d : DstDir) :
    Option Error × DstDir :=
  if isDir then
    ((osMkdirAll d.fs (some path)).1, { d with fs := (osMkdirAll d.fs (some path)).2 })
  else
    match src.lookup path with
    | none => (some (.os "stat" "no such file or directory"), d)
    | some node =>
      let srcInfo := node.stat
      let upToDate : Bool :=
        match osStat d path with
        | some dstInfo =>
          !decide (srcInfo.ModTime > dstInfo.ModTime) && decide (srcInfo.Size = dstInfo.Size)
        | none => false
      if upToDate then (none, d)
      else
        match osCreate d.fs (some path) with
        | .error _ => (some (.os "write" "invalid argument"), d)
        | .ok fs1 =>
          let modTime1 := fun q => if q = path then env.now else d.modTime q
          match node with
          | .file content _ => (none, ⟨fs1.put path (.file content), modTime1, d.dirSize⟩)
          | .dir _ => (some (.os "read" "is a directory"), ⟨fs1, modTime1, d.dirSize⟩)

/-- Whether `os.Stat` of `src/p` fails with a not-exist error: some directory on
the way lacks the next component.  A regular file on the way is a different
error. -/
def srcMissing : Node → List String → Bool
  | _, [] => false
  | .file _ _, _ :: _ => false
  | .dir children, c :: rest =>
    match children.lookup c with
    | none => true
    | some child => srcMissing child rest

/-- The cleanup pass of `RunBackup`: every entry of the destination whose path
does not exist in the source is removed with all below it. -/
def cleanupPass (src : Node) (d : DstDir) : DstDir :=
  { d with fs := fun q => if srcMissing src q then none else d.fs q }

/-- Go `RunBackup(src, dst)` for a source that can be read and a destination
outside it, as the destination it leaves behind.  The first pass only counts
files for the progress bar; the error of the copy pass is dropped. -/
def RunBackup (env : Env) (src : Node) (dst : DstDir) : DstDir :=
  cleanupPass src (walkDir (copyEntry env src) [] src dst).2

/-- The directories of the tree below `path`, the one at `path` included, in walk order. -/
def directoriesAt : List String → Node → List (List String)
  | _, .file _ _ => []
  | path, .dir children => path :: directoriesIn path children
where
  /-- The directories below the entries of one directory. -/
  directoriesIn (path : List String) : List (String × Node) → List (List String)
    | [] => []
    | (name, child) :: rest => directoriesAt (path ++ [name]) child ++ directoriesIn path rest

/-- The directories of a source tree, by relative path. -/
def directories (root : Node) : List (List String) :=
  directoriesAt [] root

/-- The destination takes the source file `f` on a backup: no directory lies at
its path, and a file that lies there differs in size, or is older than the
source file, or holds its bytes already. -/
def DstDir.accepts (d : DstDir) (f : SourceFile) : Prop :=
  match d.fs f.path with
  | none => True
  | some .dir => False
  | some (.file content) =>
    content.length ≠ f.content.length ∨ d.modTime f.path < f.modTime ∨ content = f.content

instance (d : DstDir) (f : SourceFile) : Decidable (d.accepts f) := by
  unfold DstDir.accepts
  split <;> infer_instance

/-- An empty destination directory. -/
def emptyDst : DstDir := ⟨emptyFS, fun _ => 0, fun _ => 4096⟩

/-- A destination that holds `a` with two bytes written at time 9. -/
def staleDst : DstDir :=
  ⟨emptyFS.put ["a"] (.file [122, 122]), fun _ => 9, fun _ => 4096⟩

/-- A source directory that holds `a` with two other bytes, last modified at time 5. -/
def staleSrc : Node := .dir [("a", .file [120, 121] 5)]

/-- A destination that holds a directory `a`. -/
def blockedDst : DstDir :=
  ⟨emptyFS.put ["a"] .dir, fun _ => 0, fun _ => 4096⟩

/-- A source directory with the files `a` and `b`. -/
def twoFiles : Node := .dir [("a", .file [120, 121] 5), ("b", .file [1] 5)]

/-- The example source directory after an edit at time 2000: `a.txt` has two new
bytes, `empty`, `one`, `sub/long` and `sub/void` are gone, `new` and `sub/deep/c`
have come. -/
def editedChildren : List (String × Node) :=
  [("a.txt", .file [104, 111] 2000),
   ("new", .file [1] 2001),
   ("sub", .dir [("b.txt", .file [119, 111, 114, 108, 100] 8),
     ("deep", .dir [("c", .file [] 2002)])])]

/-- UTF-8 as RFC 3629 lays it out, by arithmetic on the code point: one byte
below U+0080, two below U+0800, three below U+10000, four from there on.  This
is the reference that `stringBytes` is compared with. -/
def utf8Reference (n : Nat) : Bytes :=
  if n < 0x80 then [n]
  else if n < 0x800 then [0xC0 + n / 64, 0x80 + n % 64]
  else if n < 0x10000 then [0xE0 + n / 4096, 0x80 + n / 64 % 64, 0x80 + n % 64]
  else [0xF0 + n / 262144, 0x80 + n / 4096 % 64, 0x80 + n / 64 % 64, 0x80 + n % 64]

/-! ## File names that are not valid UTF-8

A Go string is a byte string, and a file name may hold bytes that are not valid
UTF-8.  The strings of this model are text; such a byte `b` is written as the
private-use character U+EF00 + `b`. -/

/-- The character that stands for the byte `b` of a name where `b` is not part of
a valid UTF-8 sequence. -/
def rawByte (b : Nat) : Char := Char.ofNat (0xEF00 + b)

/-- The character stands for a byte that is not valid UTF-8. -/
def isRawByte (c : Char) : Bool :=
  decide (0xEF80 ≤ c.toNat) && decide (c.toNat ≤ 0xEFFF)

/-- What `encoding/json` writes for a Go string: every byte that is not valid
UTF-8 is replaced by U+FFFD, the rest is kept. -/
def coerceUTF8 (s : String) : String :=
  String.mk (s.data.map (fun c => if isRawByte c then Char.ofNat 0xFFFD else c))

/-- The example codec with the string coercion of `encoding/json`. -/
def coercingEncode (index : ArchiveIndex) : Bytes :=
  sampleEncode ⟨index.Files.map (fun e =>
    ⟨coerceUTF8 e.RelativePath, e.OriginalSize, e.ModTime, coerceUTF8 e.ZipName⟩),
    index.CreatedAt, coerceUTF8 index.Version⟩

/-- The example environment with the string coercion of `encoding/json`. -/
def coercingEnv : Env :=
  { sampleEnv with jsonEncode := coercingEncode }

/-- The file name `"\xff.txt"`: the byte 0xFF, which no UTF-8 sequence holds,
then `.txt`. -/
def rawName : String := String.mk (rawByte 0xFF :: ".txt".data)

/-- A source directory with the files `b.txt` and `"\xff.txt"`. -/
def rawTree : Node := .dir [("b.txt", .file [119] 6), (rawName, .file [104, 105] 5)]

/-- The name that the index holds for `rawName`: U+FFFD, then `.txt`. -/
def coercedName : String := String.mk (Char.ofNat 0xFFFD :: ".txt".data)

/-! ## The cipher stream -/

theorem fitBytes_length (n : Nat) (b : Bytes) : (fitBytes n b).length = n := by
  simp [fitBytes]

theorem fitBytes_of_length {n : Nat} {b : Bytes} (h : b.length = n) : fitBytes n b = b := by
  simp [fitBytes, List.take_append_of_le_length, h]

theorem randomIV_length (env : Env) (pos : Nat) : (randomIV env pos).length = BlockSize := by
  simp [randomIV]

theorem XORKeyStream_length (x : cfb) (src : Bytes) : (x.XORKeyStream src).2.length = src.length := by
  induction src generalizing x with
  | nil => rfl
  | cons s rest ih => simp [cfb.XORKeyStream, ih]

theorem XORKeyStream_append (x : cfb) (a b : Bytes) :
    x.XORKeyStream (a ++ b) =
      (((x.XORKeyStream a).1.XORKeyStream b).1,
        (x.XORKeyStream a).2 ++ ((x.XORKeyStream a).1.XORKeyStream b).2) := by
  induction a generalizing x with
  | nil => simp [cfb.XORKeyStream]
  | cons s rest ih => simp [cfb.XORKeyStream, ih]

theorem streamChunks_eq (x : cfb) (chunks : List Bytes) :
    streamChunks x chunks = (x.XORKeyStream chunks.flatten).2 := by
  induction chunks generalizing x with
  | nil => simp [streamChunks, cfb.XORKeyStream]
  | cons c rest ih => simp [streamChunks, XORKeyStream_append, ih]

theorem readChunks_flatten (fuel : Nat) (src : Bytes) (h : src.length ≤ fuel) :
    (readChunks fuel src).flatten = src := by
  induction fuel generalizing src with
  | zero =>
    have : src = [] := List.length_eq_zero.mp (Nat.le_zero.mp h)
    simp [readChunks, this]
  | succ n ih =>
    unfold readChunks
    split
    · next h0 => simp [h0]
    · next h0 =>
      have hpos : 0 < src.length := List.length_pos.mpr h0
      have hlen : (src.drop copyBufferSize).length ≤ n := by
        simp [List.length_drop, copyBufferSize]; omega
      simp [ih _ hlen]

theorem ioCopyStream_eq (x : cfb) (src : Bytes) : ioCopyStream x src = (x.XORKeyStream src).2 := by
  simp [ioCopyStream, streamChunks_eq, readChunks_flatten]

theorem stepByte_mirror (e d : cfb) (h : cfb.mirror e d) (s : Byte) :
    (d.stepByte (e.stepByte s).2).2 = s ∧ cfb.mirror (e.stepByte s).1 (d.stepByte (e.stepByte s).2).1 := by
  obtain ⟨hb, hn, ho, hu, he, hd⟩ := h
  cases e with
  | mk eb en eo eu edec =>
  cases d with
  | mk db dn dout du ddec =>
  simp only at hb hn ho hu he hd
  subst hb hn ho hu he hd
  simp only [cfb.stepByte, cfb.mirror]
  split <;> simp [Nat.xor_assoc]

theorem XORKeyStream_mirror (e d : cfb) (h : cfb.mirror e d) (src : Bytes) :
    (d.XORKeyStream (e.XORKeyStream src).2).2 = src := by
  induction src generalizing e d with
  | nil => rfl
  | cons s rest ih =>
    have hs := stepByte_mirror e d h s
    simp [cfb.XORKeyStream, hs.1, ih _ _ hs.2]

theorem cfb_roundtrip (block : Bytes → Bytes) (iv src : Bytes) :
    ((NewCFBDecrypter block iv).XORKeyStream ((NewCFBEncrypter block iv).XORKeyStream src).2).2 = src :=
  XORKeyStream_mirror (NewCFBEncrypter block iv) (NewCFBDecrypter block iv)
    ⟨rfl, rfl, rfl, rfl, rfl, rfl⟩ src
/-- Inside a keystream block: the bytes come out XORed with the rest of the
block and take their place in the feedback register. -/
theorem XORKeyStream_within (E : Bytes → Bytes) (out : Bytes) (hout : out.length = BlockSize) :
    ∀ (s done tail : Bytes), (done ++ tail).length = BlockSize →
      done.length + s.length ≤ BlockSize →
      cfb.XORKeyStream ⟨E, done ++ tail, out, done.length, false⟩ s
        = (⟨E, (done ++ xorBytes s (out.drop done.length)) ++ tail.drop s.length, out,
            done.length + s.length, false⟩, xorBytes s (out.drop done.length)) := by
  intro s
  induction s with
  | nil => intro done tail _ _; simp [cfb.XORKeyStream, xorBytes]
  | cons a rest ih =>
    intro done tail hlen hle
    simp only [List.length_cons] at hle
    have hu : done.length < BlockSize := by omega
    have hne : ¬ done.length = out.length := by omega
    cases tail with
    | nil => simp at hlen; omega
    | cons t tail1 =>
      have hdrop : out.drop done.length
          = out.getD done.length 0 :: out.drop (done.length + 1) := by
        have hlt : done.length < out.length := by omega
        rw [List.getD_eq_getElem _ _ hlt]
        exact List.drop_eq_getElem_cons hlt
      have hset : (done ++ t :: tail1).set done.length (a ^^^ out.getD done.length 0)
          = (done ++ [a ^^^ out.getD done.length 0]) ++ tail1 := by
        rw [List.set_append_right _ _ (Nat.le_refl _)]
        simp
      have ih1 := ih (done ++ [a ^^^ out.getD done.length 0]) tail1
        (by simp at hlen ⊢; omega) (by simp; omega)
      simp only [List.length_append, List.length_singleton] at ih1
      simp only [cfb.XORKeyStream, cfb.stepByte, hne, if_false, hset, Bool.false_eq_true]
      rw [ih1, hdrop]
      simp [xorBytes, Nat.add_assoc, Nat.add_comm 1]

/-- At a block boundary the stream first encrypts the feedback register. -/
theorem XORKeyStream_block (E : Bytes → Bytes) (hE : ∀ x, (E x).length = BlockSize)
    (prev out : Bytes) (hprev : prev.length = BlockSize) (hout : out.length = BlockSize)
    (s : Bytes) (hs : s ≠ []) (hle : s.length ≤ BlockSize) :
    cfb.XORKeyStream ⟨E, prev, out, BlockSize, false⟩ s
      = (⟨E, xorBytes s (E prev) ++ prev.drop s.length, E prev, s.length, false⟩,
          xorBytes s (E prev)) := by
  have hrefill : cfb.XORKeyStream ⟨E, prev, out, BlockSize, false⟩ s
      = cfb.XORKeyStream ⟨E, prev, E prev, 0, false⟩ s := by
    cases s with
    | nil => exact absurd rfl hs
    | cons a rest =>
      have h0 : ¬ (0 = (E prev).length) := by rw [hE]; decide
      simp [cfb.XORKeyStream, cfb.stepByte, hout, h0]
  rw [hrefill]
  have := XORKeyStream_within E (E prev) (hE prev) s [] prev (by simpa using hprev)
    (by simpa using hle)
  simpa using this

theorem xorBytes_length_full (a b : Bytes) (ha : a.length = BlockSize)
    (hb : b.length = BlockSize) : (xorBytes a b).length = BlockSize := by
  simp [xorBytes, ha, hb]

/-- The stream of `crypto/cipher`, started at a block boundary, computes
textbook CFB. -/
theorem XORKeyStream_reference (E : Bytes → Bytes) (hE : ∀ x, (E x).length = BlockSize) :
    ∀ (fuel : Nat) (plain prev out : Bytes), plain.length ≤ fuel →
      prev.length = BlockSize → out.length = BlockSize →
      (cfb.XORKeyStream ⟨E, prev, out, BlockSize, false⟩ plain).2
        = cfbReference E fuel prev plain := by
  intro fuel
  induction fuel with
  | zero =>
    intro plain prev out hlen _ _
    have : plain = [] := List.length_eq_zero.mp (Nat.le_zero.mp hlen)
    subst this
    rfl
  | succ n ih =>
    intro plain prev out hlen hprev hout
    by_cases hp : plain = []
    · subst hp; rfl
    · have hsplit : plain = plain.take BlockSize ++ plain.drop BlockSize :=
        (List.take_append_drop _ _).symm
      have hpos : 0 < plain.length := List.length_pos.mpr hp
      have htake_ne : plain.take BlockSize ≠ [] := by
        intro e
        have := congrArg List.length e
        rw [List.length_take, List.length_nil] at this
        unfold BlockSize at this
        omega
      have htake_le : (plain.take BlockSize).length ≤ BlockSize := by simp
      have hblock := XORKeyStream_block E hE prev out hprev hout (plain.take BlockSize)
        htake_ne htake_le
      simp only [cfbReference, hp, if_false]
      conv_lhs => rw [hsplit]
      rw [XORKeyStream_append, hblock]
      simp only
      congr 1
      by_cases hfull : BlockSize ≤ plain.length
      · have hk : (plain.take BlockSize).length = BlockSize := by simp [hfull]
        have hc := xorBytes_length_full (plain.take BlockSize) (E prev) hk (hE prev)
        have hd : prev.drop (plain.take BlockSize).length = [] := by
          rw [hk]; exact List.drop_of_length_le (by omega)
        rw [hd, List.append_nil, hk]
        exact ih (plain.drop BlockSize) _ (E prev)
          (by simp [BlockSize] at hfull ⊢; omega) hc (hE prev)
      · have hdrop : plain.drop BlockSize = [] := List.drop_of_length_le (by omega)
        rw [hdrop]
        cases n <;> simp [cfb.XORKeyStream, cfbReference]

/-- The encrypter of `crypto/cipher` computes textbook CFB. -/
theorem cfbEncrypt_eq_reference (E : Bytes → Bytes) (hE : ∀ x, (E x).length = BlockSize)
    (iv plain : Bytes) (hiv : iv.length = BlockSize) :
    cfbEncrypt E iv plain = cfbReference E plain.length iv plain := by
  simp only [cfbEncrypt, NewCFBEncrypter, newCFB, fitBytes_of_length hiv]
  exact XORKeyStream_reference E hE plain.length plain iv _ (Nat.le_refl _) hiv (by simp)


/-! ## Path strings -/

theorem splitSlash_of_not_mem (l : List Char) (h : '/' ∉ l) : splitSlash l = [l] := by
  induction l with
  | nil => rfl
  | cons c cs ih =>
    simp only [List.mem_cons, not_or] at h
    have hc : c ≠ '/' := fun e => h.1 e.symm
    simp [splitSlash, hc, ih h.2]

theorem splitSlash_append (a b : List Char) (h : '/' ∉ a) :
    splitSlash (a ++ '/' :: b) = a :: splitSlash b := by
  induction a with
  | nil => simp [splitSlash]
  | cons c cs ih =>
    simp only [List.mem_cons, not_or] at h
    have hc : c ≠ '/' := fun e => h.1 e.symm
    simp [splitSlash, hc, ih h.2]

theorem validName_noSlash {s : String} (h : validName s = true) : '/' ∉ s.data := by
  simp [validName] at h
  exact h.2

theorem rawElems_joinSlash (comps : List String) (hne : comps ≠ [])
    (hv : ∀ c ∈ comps, validName c = true) : rawElems (joinSlash comps) = comps := by
  induction comps with
  | nil => exact absurd rfl hne
  | cons c rest ih =>
    cases rest with
    | nil =>
      simp [joinSlash, rawElems, splitSlash_of_not_mem _ (validName_noSlash (hv c (by simp)))]
    | cons d rest =>
      have ih1 := ih (by simp) (fun x hx => hv x (List.mem_cons_of_mem _ hx))
      have hc := validName_noSlash (hv c (by simp))
      simp only [rawElems] at ih1 ⊢
      simp only [joinSlash, String.data_append]
      rw [List.append_assoc, List.singleton_append, splitSlash_append _ _ hc]
      simp [ih1]

theorem cleanElems_valid (comps : List String) (hv : ∀ c ∈ comps, validName c = true) :
    cleanElems comps = some comps := by
  have h1 : ¬ (".." ∈ comps) := by
    intro hm
    have := hv _ hm
    simp [validName] at this
  have h2 : ∀ a ∈ comps, ¬a = "" ∧ ¬a = "." := by
    intro a ha
    have := hv a ha
    simp [validName] at this
    exact ⟨this.1.1.1, this.1.1.2⟩
  simp [cleanElems]
  exact ⟨h1, h2⟩

theorem joinElems_relSlash (comps : List String) (hv : ∀ c ∈ comps, validName c = true) :
    joinElems (relSlash comps) = some comps := by
  by_cases hne : comps = []
  · subst hne; decide
  · simp [joinElems, relSlash, hne, rawElems_joinSlash comps hne hv, cleanElems_valid comps hv]

theorem dirElems_relSlash (comps : List String) (hne : comps ≠ [])
    (hv : ∀ c ∈ comps, validName c = true) : dirElems (relSlash comps) = some comps.dropLast := by
  simp only [dirElems, relSlash, hne, if_false, rawElems_joinSlash comps hne hv]
  exact cleanElems_valid _ (fun c hc => hv c (List.dropLast_subset _ hc))

theorem fileElems_relSlash (comps : List String) (hne : comps ≠ [])
    (hv : ∀ c ∈ comps, validName c = true) : fileElems (relSlash comps) = some comps := by
  have hd := dirElems_relSlash comps hne hv
  have hl : comps.getLast? = some (comps.getLast hne) := List.getLast?_eq_getLast _ hne
  have hvl := hv _ (List.getLast_mem hne)
  simp only [validName, Bool.and_eq_true, decide_eq_true_eq] at hvl
  have hr : rawElems (relSlash comps) = comps := by
    simp [relSlash, hne, rawElems_joinSlash comps hne hv]
  simp only [fileElems, hr, hl, hd]
  simp [hvl.1.1.1, hvl.1.1.2, hvl.1.2, List.dropLast_append_getLast]

/-! ## The source tree -/

theorem lookup_isSome_mem_keys {β : Type} (cs : List (String × β)) (m : String) (b : β)
    (h : cs.lookup m = some b) : m ∈ cs.map Prod.fst := by
  induction cs with
  | nil => simp [List.lookup] at h
  | cons hd rest ih =>
    obtain ⟨k, v⟩ := hd
    by_cases hk : m = k
    · simp [hk]
    · have : (m == k) = false := by simpa using hk
      simp only [List.lookup, this] at h
      simp [ih h]

/-- Every regular file below a directory entry list sits under one of the entries. -/
theorem regularFilesAt_path :
    ∀ (n : Node) (path : List String), n.wellFormed = true → ∀ f ∈ regularFilesAt path n,
      ∃ s, f.path = path ++ s ∧ (∀ c ∈ s, validName c = true) ∧
        n.lookup s = some (.file f.content f.modTime)
  | .file content modTime, path, _, f, hf => by
    simp [regularFilesAt] at hf
    subst hf
    exact ⟨[], by simp [Node.lookup]⟩
  | .dir children, path, hwf, f, hf => by
    simp only [regularFilesAt] at hf
    simp only [Node.wellFormed] at hwf
    obtain ⟨name, child, s, hmem, hp, hv, hl⟩ := go children path hwf f hf
    exact ⟨name :: s, hp, hv, by simp [Node.lookup, hmem, hl]⟩
where
  go : ∀ (cs : List (String × Node)) (path : List String),
      Node.wellFormed.wellFormedChildren cs = true → ∀ f ∈ regularFilesAt.regularFilesIn path cs,
      ∃ name child s, cs.lookup name = some child ∧ f.path = path ++ name :: s ∧
        (∀ c ∈ name :: s, validName c = true) ∧ child.lookup s = some (.file f.content f.modTime)
  | [], path, _, f, hf => by simp [regularFilesAt.regularFilesIn] at hf
  | (name, child) :: rest, path, hwf, f, hf => by
    simp only [Node.wellFormed.wellFormedChildren, Bool.and_eq_true] at hwf
    obtain ⟨⟨⟨hname, hfresh⟩, hchild⟩, hrest⟩ := hwf
    simp only [regularFilesAt.regularFilesIn, List.mem_append] at hf
    rcases hf with hf | hf
    · obtain ⟨s, hp, hv, hl⟩ := regularFilesAt_path child (path ++ [name]) hchild f hf
      refine ⟨name, child, s, by simp [List.lookup], by simp [hp], ?_, hl⟩
      intro c hc
      rcases List.mem_cons.mp hc with h | h
      · exact h ▸ hname
      · exact hv c h
    · obtain ⟨m, ch, s, hm, hp, hv, hl⟩ := go rest path hrest f hf
      refine ⟨m, ch, s, ?_, hp, hv, hl⟩
      have hmk := lookup_isSome_mem_keys rest m ch hm
      have hne : m ≠ name := by
        intro e
        subst e
        simp at hfresh
        simp at hmk
        obtain ⟨x, hx⟩ := hmk
        exact hfresh x hx
      have : (m == name) = false := by simpa using hne
      simp [List.lookup, this, hm]

theorem not_prefix_of_ne_head (path s t : List String) (n m : String) (h : n ≠ m) :
    ¬ (path ++ n :: s) <+: (path ++ m :: t) := by
  intro hp
  rw [List.prefix_append_right_inj] at hp
  rw [List.cons_prefix_cons] at hp
  exact h hp.1

/-- The file paths of a well formed tree are pairwise apart. -/
theorem regularFilesAt_apart :
    ∀ (n : Node) (path : List String), n.wellFormed = true →
      (regularFilesAt path n).Pairwise apart
  | .file content modTime, path, _ => by simp [regularFilesAt]
  | .dir children, path, hwf => by
    simp only [regularFilesAt]
    simp only [Node.wellFormed] at hwf
    exact go children path hwf
where
  go : ∀ (cs : List (String × Node)) (path : List String),
      Node.wellFormed.wellFormedChildren cs = true →
      (regularFilesAt.regularFilesIn path cs).Pairwise apart
  | [], path, _ => by simp [regularFilesAt.regularFilesIn]
  | (name, child) :: rest, path, hwf => by
    have hwf0 := hwf
    simp only [Node.wellFormed.wellFormedChildren, Bool.and_eq_true] at hwf
    obtain ⟨⟨⟨hname, hfresh⟩, hchild⟩, hrest⟩ := hwf
    simp only [regularFilesAt.regularFilesIn]
    rw [List.pairwise_append]
    refine ⟨regularFilesAt_apart child (path ++ [name]) hchild, go rest path hrest, ?_⟩
    intro f hf g hg
    obtain ⟨s, hp, _, _⟩ := regularFilesAt_path child (path ++ [name]) hchild f hf
    obtain ⟨m, ch, t, hm, hq, _, _⟩ := regularFilesAt_path.go rest path hrest g hg
    have hmk := lookup_isSome_mem_keys rest m ch hm
    have hne : name ≠ m := by
      intro e
      subst e
      simp at hfresh
      simp at hmk
      obtain ⟨x, hx⟩ := hmk
      exact hfresh x hx
    rw [List.append_assoc, List.singleton_append] at hp
    unfold apart
    rw [hp, hq]
    exact ⟨not_prefix_of_ne_head _ _ _ _ _ hne, not_prefix_of_ne_head _ _ _ _ _ (Ne.symm hne)⟩

mutual
/-- The walk with the collecting callback appends one entry per regular file. -/
theorem walk_collect (n : Node) (path : List String) (st : List FileIndexEntry × Int) :
    ∃ total, walk collectEntry path n st
      = .ok (st.1 ++ (regularFilesAt path n).map expectedEntry, total) := by
  cases n with
  | file content modTime =>
    exact ⟨st.2 + content.length,
      by simp [walk, collectEntry, regularFilesAt, expectedEntry]⟩
  | dir children =>
    obtain ⟨total, h⟩ := walkChildren_collect children path st
    exact ⟨total, by simpa [walk, collectEntry, regularFilesAt] using h⟩
/-- The loop over one directory appends the entries of every child in turn. -/
theorem walkChildren_collect (cs : List (String × Node)) (path : List String)
    (st : List FileIndexEntry × Int) :
    ∃ total, walk.walkChildren collectEntry path cs st
      = .ok (st.1 ++ (regularFilesAt.regularFilesIn path cs).map expectedEntry, total) := by
  cases cs with
  | nil => exact ⟨st.2, by simp [walk.walkChildren, regularFilesAt.regularFilesIn]⟩
  | cons hd rest =>
    obtain ⟨name, child⟩ := hd
    obtain ⟨t1, h1⟩ := walk_collect child (path ++ [name]) st
    obtain ⟨t2, h2⟩ := walkChildren_collect rest path
      (st.1 ++ (regularFilesAt (path ++ [name]) child).map expectedEntry, t1)
    exact ⟨t2, by simp [walk.walkChildren, regularFilesAt.regularFilesIn, h1, h2]⟩
end
/-- Every regular file that a lookup finds is enumerated. -/
theorem mem_regularFilesAt_of_lookup :
    ∀ (n : Node) (path s : List String) (content : Bytes) (modTime : Time),
      n.lookup s = some (.file content modTime) →
      (⟨path ++ s, content, modTime⟩ : SourceFile) ∈ regularFilesAt path n
  | .file c t, path, [], content, modTime, h => by
    simp only [Node.lookup, Option.some.injEq, Node.file.injEq] at h
    simp [regularFilesAt, h.1, h.2]
  | .file c t, path, _ :: _, content, modTime, h => by simp [Node.lookup] at h
  | .dir children, path, [], content, modTime, h => by simp [Node.lookup] at h
  | .dir children, path, a :: rest, content, modTime, h => by
    simp only [Node.lookup] at h
    cases hc : children.lookup a with
    | none => simp [hc] at h
    | some child =>
      simp only [hc] at h
      simp only [regularFilesAt]
      exact go children path a child rest content modTime hc h
where
  go : ∀ (cs : List (String × Node)) (path : List String) (a : String) (child : Node)
      (rest : List String) (content : Bytes) (modTime : Time),
      cs.lookup a = some child → child.lookup rest = some (.file content modTime) →
      (⟨path ++ a :: rest, content, modTime⟩ : SourceFile) ∈ regularFilesAt.regularFilesIn path cs
  | [], _, _, _, _, _, _, hc, _ => by simp [List.lookup] at hc
  | (name, ch) :: more, path, a, child, rest, content, modTime, hc, h => by
    simp only [regularFilesAt.regularFilesIn, List.mem_append]
    by_cases ha : a = name
    · subst ha
      simp only [List.lookup, beq_self_eq_true, Option.some.injEq] at hc
      subst hc
      left
      have := mem_regularFilesAt_of_lookup ch (path ++ [a]) rest content modTime h
      simpa using this
    · have : (a == name) = false := by simpa using ha
      simp only [List.lookup, this] at hc
      right
      exact go more path a child rest content modTime hc h

/-- In a well formed tree the enumeration holds exactly the regular files:
a record is listed if and only if the tree has that file at that path, and no
record is listed twice. -/
theorem mem_regularFiles_iff (root : Node) (hwf : root.wellFormed = true) (f : SourceFile) :
    f ∈ regularFiles root ↔ root.lookup f.path = some (.file f.content f.modTime) := by
  constructor
  · intro hf
    obtain ⟨s, hp, _, hl⟩ := regularFilesAt_path root [] hwf f hf
    simp only [List.nil_append] at hp
    rw [hp]; exact hl
  · intro h
    have := mem_regularFilesAt_of_lookup root [] f.path f.content f.modTime h
    simpa [regularFiles] using this


/-! ## Building a container -/

theorem NewCipher_ok (env : Env) (key : Bytes) (h : validKey key) :
    NewCipher env key = .ok (aesBlock env key) := by
  unfold validKey at h
  simp [NewCipher, h]
  rfl

theorem validKey_Sum256 (env : Env) (data : Bytes) : validKey (Sum256 env data) := by
  simp [validKey, Sum256, fitBytes_length]

theorem encryptFileToWriter_ok (env : Env) (src : Node) (inputPath : Option (List String))
    (writer key : Bytes) (pos : Nat) (content : Bytes) (modTime : Time) (hk : validKey key)
    (hin : inputPath.bind src.lookup = some (.file content modTime)) :
    encryptFileToWriter env src inputPath writer key pos
      = (none, writer ++ expectedPayload env key pos content, pos + BlockSize) := by
  simp [encryptFileToWriter, hin, NewCipher_ok env key hk, expectedPayload, cfbEncrypt,
    ioCopyStream_eq]

theorem encryptEntries_ok (env : Env) (root : Node) (key : Bytes) (hwf : root.wellFormed = true)
    (hk : validKey key) (files : List SourceFile) (hmem : ∀ f ∈ files, f ∈ regularFiles root)
    (zipWriter : ZipArchive) (pos : Nat) :
    encryptEntries env root key (files.map expectedEntry) zipWriter pos
      = (none, zipWriter ++ expectedZipEntries env key pos files) := by
  induction files generalizing zipWriter pos with
  | nil => simp [encryptEntries, expectedZipEntries]
  | cons f rest ih =>
    obtain ⟨s, hp, hv, hl⟩ := regularFilesAt_path root [] hwf f (hmem f (by simp))
    simp only [List.nil_append] at hp
    have hj : joinElems (relSlash f.path) = some f.path := by
      rw [hp]; exact joinElems_relSlash s hv
    have hin : (joinElems (relSlash f.path)).bind root.lookup
        = some (.file f.content f.modTime) := by
      rw [hj, hp]; simpa using hl
    have hw := encryptFileToWriter_ok env root _ [] key pos f.content f.modTime hk hin
    have ih1 := ih (fun g hg => hmem g (List.mem_cons_of_mem _ hg))
    simp only [List.map_cons, encryptEntries, addEncryptedFileToArchive, expectedEntry] at hw ⊢
    simp only [hw, List.nil_append]
    simp only [expectedEntry] at ih1
    rw [ih1]
    simp [expectedZipEntries, expectedZipEntry]

theorem build_outside (env : Env) (root : Node) (key : Bytes) (hwf : root.wellFormed = true)
    (hk : validKey key) :
    CreateEncryptedArchiveWithIndex env (some root) .outside key
      = ⟨none, some (expectedIndexEntry env root
          :: expectedZipEntries env key 0 (regularFiles root)), some root⟩ := by
  obtain ⟨total, hwalk⟩ := walk_collect root [] ([], 0)
  have henc := encryptEntries_ok env root key hwf hk (regularFiles root) (fun f hf => hf)
    [expectedIndexEntry env root] 0
  simp only [regularFiles] at henc ⊢
  simp only [List.nil_append] at hwalk
  simp [CreateEncryptedArchiveWithIndex, createArchiveFile, Walk, hwalk, addIndexToArchive,
    expectedIndexEntry, expectedIndex, regularFiles] at henc ⊢
  simp [henc]


/-! ## Decrypting one entry -/

theorem expectedPayload_length (env : Env) (key : Bytes) (pos : Nat) (content : Bytes) :
    (expectedPayload env key pos content).length = BlockSize + content.length := by
  simp [expectedPayload, cfbEncrypt, randomIV_length, XORKeyStream_length]

theorem decrypt_expectedPayload (env : Env) (key : Bytes) (pos : Nat) (content : Bytes)
    (hk : validKey key) :
    decryptFromReaderWithKey env (expectedPayload env key pos content) none key
      = (none, content) := by
  have hlen := expectedPayload_length env key pos content
  have hiv := randomIV_length env pos
  have htake : (expectedPayload env key pos content).take BlockSize = randomIV env pos := by
    simp [expectedPayload, List.take_append_of_le_length, hiv]
  have hdrop : (expectedPayload env key pos content).drop BlockSize
      = cfbEncrypt (aesBlock env key) (randomIV env pos) content := by
    simp [expectedPayload, List.drop_append_of_le_length, hiv]
  have hnl : ¬ (expectedPayload env key pos content).length < BlockSize := by omega
  simp only [decryptFromReaderWithKey, NewCipher_ok env key hk, hnl, if_false, htake, hdrop,
    ioCopyStream_eq, cfbEncrypt]
  rw [cfb_roundtrip]

theorem mkdirFrom_spec (rest : List String) : ∀ (fs : FS) (pre : List String),
    (∀ r, r ≠ [] → r <+: rest → ∀ c, fs (pre ++ r) ≠ some (.file c)) →
    (mkdirFrom fs pre rest).1 = none ∧
    (∀ r, r ≠ [] → r <+: rest → (mkdirFrom fs pre rest).2 (pre ++ r) = some .dir) ∧
    (∀ q, (∀ r, r ≠ [] → r <+: rest → q ≠ pre ++ r) → (mkdirFrom fs pre rest).2 q = fs q) := by
  induction rest with
  | nil =>
    intro fs pre _
    refine ⟨rfl, ?_, fun q _ => rfl⟩
    intro r hr hp
    exact absurd (List.prefix_nil.mp hp) hr
  | cons c rest ih =>
    intro fs pre H
    have hlenne : ∀ r : List String, r ≠ [] → pre ++ [c] ≠ pre ++ [c] ++ r := by
      intro r hr e
      have := congrArg List.length e
      simp at this
      exact hr this
    -- the state after the first component
    have key : ∀ fs1 : FS, fs1 (pre ++ [c]) = some .dir →
        (∀ q, q ≠ pre ++ [c] → fs1 q = fs q) →
        (mkdirFrom fs1 (pre ++ [c]) rest).1 = none ∧
        (∀ r, r ≠ [] → r <+: c :: rest →
          (mkdirFrom fs1 (pre ++ [c]) rest).2 (pre ++ r) = some .dir) ∧
        (∀ q, (∀ r, r ≠ [] → r <+: c :: rest → q ≠ pre ++ r) →
          (mkdirFrom fs1 (pre ++ [c]) rest).2 q = fs q) := by
      intro fs1 hdir hsame
      have H1 : ∀ r, r ≠ [] → r <+: rest → ∀ b, fs1 (pre ++ [c] ++ r) ≠ some (.file b) := by
        intro r hr hp b
        rw [hsame _ (Ne.symm (hlenne r hr))]
        have := H (c :: r) (by simp) (by simpa using hp) b
        simpa using this
      obtain ⟨h1, h2, h3⟩ := ih fs1 (pre ++ [c]) H1
      refine ⟨h1, ?_, ?_⟩
      · intro r hr hp
        cases r with
        | nil => exact absurd rfl hr
        | cons a r1 =>
          rw [List.cons_prefix_cons] at hp
          obtain ⟨ha, hp1⟩ := hp
          subst ha
          by_cases hr1 : r1 = []
          · subst hr1
            rw [h3 _ (fun r hr _ => hlenne r hr)]
            exact hdir
          · have := h2 r1 hr1 hp1
            simpa using this
      · intro q hq
        have hq1 : q ≠ pre ++ [c] := hq [c] (by simp) (by simp)
        rw [h3 q ?_]
        · exact hsame q hq1
        · intro r hr hp
          have := hq (c :: r) (by simp) (by simpa using hp)
          simpa using this
    unfold mkdirFrom
    cases hfc : fs (pre ++ [c]) with
    | none =>
      simp only
      exact key (fs.put (pre ++ [c]) .dir) (by simp [FS.put])
        (fun q hq => by simp [FS.put, hq])
    | some node =>
      cases node with
      | file b => exact absurd hfc (H [c] (by simp) (by simp) b)
      | dir =>
        simp only
        exact key fs hfc (fun _ _ => rfl)


theorem prefix_dropLast_of_ne {p q : List String} (hp : q <+: p) (hne : q ≠ p) :
    q <+: p.dropLast := by
  obtain ⟨t, ht⟩ := hp
  subst ht
  cases t using List.reverseRecOn with
  | nil => simp at hne
  | append_singleton t a =>
    rw [← List.append_assoc, List.dropLast_concat]
    exact List.prefix_append _ _

/-- One found entry: the output file is created and holds whatever the stream
decryption wrote; directories on the way exist; nothing else changes. -/
theorem decryptSingle_found (env : Env) (reader : ZipArchive) (fileInfo : FileIndexEntry)
    (outputPath : String) (key : Bytes) (fs : FS) (e : ZipFile) (p : List String)
    (hfind : reader.find? (fun f => f.Name = fileInfo.ZipName) = some e)
    (hopen : e.openErr = none)
    (hdir : dirElems outputPath = some p.dropLast) (hfile : fileElems outputPath = some p)
    (hne : p ≠ []) (hadm : fs.admits p) :
    ∃ fs1, decryptSingleFileFromReader env reader fileInfo outputPath key fs
        = ((decryptFromReaderWithKey env e.data e.readErr key).1, fs1) ∧
      fs1 p = some (.file (decryptFromReaderWithKey env e.data e.readErr key).2) ∧
      (∀ q, q <+: p → q ≠ p → q ≠ [] → fs1 q = some .dir) ∧
      (∀ q, (q = [] ∨ ¬ q <+: p) → fs1 q = fs q) := by
  obtain ⟨hfiles, hnotdir⟩ := hadm
  have H : ∀ r, r ≠ [] → r <+: p.dropLast → ∀ c, fs ([] ++ r) ≠ some (.file c) := by
    intro r _ hr c
    have hrp : r <+: p := hr.trans (List.dropLast_prefix p)
    have hrne : r ≠ p := by
      intro e1
      have h1 := hr.length_le
      rw [e1, List.length_dropLast] at h1
      have : 0 < p.length := List.length_pos.mpr hne
      omega
    simpa using hfiles r hrp hrne c
  obtain ⟨m1, m2, m3⟩ := mkdirFrom_spec p.dropLast fs [] H
  have hlt : ∀ r, r <+: p.dropLast → r ≠ p := by
    intro r hr e1
    have h1 := hr.length_le
    rw [e1, List.length_dropLast] at h1
    have : 0 < p.length := List.length_pos.mpr hne
    omega
  have hp_same : (mkdirFrom fs [] p.dropLast).2 p = fs p :=
    m3 p (fun r _ hr => by simpa using (hlt r hr).symm)
  have hparent : ¬ (p.dropLast ≠ [] ∧ (mkdirFrom fs [] p.dropLast).2 p.dropLast ≠ some .dir) := by
    rintro ⟨h1, h2⟩
    exact h2 (by simpa using m2 p.dropLast h1 (List.prefix_refl _))
  have hnd : ¬ (p = [] ∨ (mkdirFrom fs [] p.dropLast).2 p = some .dir) := by
    rintro (h | h)
    · exact hne h
    · rw [hp_same] at h; exact hnotdir h
  refine ⟨(((mkdirFrom fs [] p.dropLast).2.put p (.file [])).put p
    (.file (decryptFromReaderWithKey env e.data e.readErr key).2)), ?_, ?_, ?_, ?_⟩
  · simp only [decryptSingleFileFromReader, hfind, hopen, hdir, hfile, osMkdirAll]
    rcases hmk : mkdirFrom fs [] p.dropLast with ⟨err, fsm⟩
    rw [hmk] at m1 hparent hnd
    simp only at m1 hparent hnd
    subst m1
    simp [osCreate, hparent, hnd]
  · simp [FS.put]
  · intro q hq hqp hq0
    have := m2 q hq0 (prefix_dropLast_of_ne hq hqp)
    simp only [List.nil_append] at this
    simp [FS.put, hqp, this]
  · intro q hq
    have hqp : q ≠ p := by
      rcases hq with h | h
      · rw [h]; exact Ne.symm hne
      · intro e1; exact h (e1 ▸ List.prefix_refl _)
    have : (mkdirFrom fs [] p.dropLast).2 q = fs q := by
      apply m3
      intro r hr0 hr e1
      simp only [List.nil_append] at e1
      rcases hq with h | h
      · exact hr0 (e1 ▸ h)
      · exact h (e1 ▸ hr.trans (List.dropLast_prefix p))
    simp [FS.put, hqp, this]


/-! ## The decrypt loop -/

theorem admits_after (fs fs1 : FS) (p g : List String)
    (hpg : ¬ p <+: g) (hgp : ¬ g <+: p)
    (hdirs : ∀ q, q <+: p → q ≠ p → q ≠ [] → fs1 q = some .dir)
    (hframe : ∀ q, (q = [] ∨ ¬ q <+: p) → fs1 q = fs q)
    (hadm : fs.admits g) : fs1.admits g := by
  obtain ⟨h1, h2⟩ := hadm
  refine ⟨?_, ?_⟩
  · intro q hq hqg c
    by_cases hq0 : q = []
    · rw [hframe q (Or.inl hq0)]; exact h1 q hq hqg c
    · by_cases hqp : q <+: p
      · by_cases hqe : q = p
        · exact absurd (hqe ▸ hq) hpg
        · rw [hdirs q hqp hqe hq0]; simp
      · rw [hframe q (Or.inr hqp)]; exact h1 q hq hqg c
  · rw [hframe g (Or.inr hgp)]; exact h2

theorem decryptStep_of (env : Env) (reader : ZipArchive) (key : Bytes) (st : DecState)
    (file : FileIndexEntry) (err : Option Error) (fs1 : FS)
    (h : decryptSingleFileFromReader env reader file file.RelativePath key st.fs = (err, fs1)) :
    decryptStep env reader key st file =
      match err with
      | some e => ⟨fs1, st.decryptedFiles, st.stdout ++ [.failed file.RelativePath e]⟩
      | none => ⟨fs1, st.decryptedFiles ++ [env.abs file.RelativePath],
          st.stdout ++ [.decrypted file.RelativePath]⟩ := by
  cases err <;> simp [decryptStep, h, RegisterTempFile]

/-- The decrypt loop over the entries of a list of files whose paths are
pairwise apart, against any container. -/
theorem decrypt_fold (env : Env) (reader : ZipArchive) (key : Bytes) :
    ∀ (L : List SourceFile) (st : DecState),
      L.Pairwise apart →
      (∀ f ∈ L, f.path ≠ [] ∧ ∀ c ∈ f.path, validName c = true) →
      (∀ f ∈ L, st.fs.admits f.path) →
      (∀ f ∈ L, ∀ e, reader.find? (fun z => z.Name = (expectedEntry f).ZipName) = some e →
        e.openErr = none) →
      (∀ f ∈ L, ∀ r, outcomeIn env reader key (expectedEntry f).ZipName = some r →
          ((L.map expectedEntry).foldl (decryptStep env reader key) st).fs f.path
            = some (.file r.2)) ∧
      (∀ q, (q = [] ∨ ∀ f ∈ L, outcomeIn env reader key (expectedEntry f).ZipName ≠ none →
            ¬ q <+: f.path) →
          ((L.map expectedEntry).foldl (decryptStep env reader key) st).fs q = st.fs q) ∧
      (∀ q, q ≠ [] → (∃ f ∈ L, outcomeIn env reader key (expectedEntry f).ZipName ≠ none ∧
            q <+: f.path ∧ q ≠ f.path) →
          ((L.map expectedEntry).foldl (decryptStep env reader key) st).fs q = some .dir) ∧
      ((L.map expectedEntry).foldl (decryptStep env reader key) st).decryptedFiles
        = st.decryptedFiles ++ (L.filter (fun f =>
            succeeded (outcomeIn env reader key (expectedEntry f).ZipName))).map
              (fun f => env.abs (relSlash f.path)) ∧
      ((L.map expectedEntry).foldl (decryptStep env reader key) st).stdout
        = st.stdout ++ L.map (fun f =>
            reportOf f (outcomeIn env reader key (expectedEntry f).ZipName)) := by
  intro L
  induction L with
  | nil => intro st _ _ _ _; simp
  | cons f rest ih =>
    intro st hpw hval hadm hopen
    rw [List.pairwise_cons] at hpw
    obtain ⟨hf_apart, hpw_rest⟩ := hpw
    obtain ⟨hf0, hfv⟩ := hval f (by simp)
    have hval_rest : ∀ g ∈ rest, g.path ≠ [] ∧ ∀ c ∈ g.path, validName c = true :=
      fun g hg => hval g (List.mem_cons_of_mem _ hg)
    have hopen_rest : ∀ g ∈ rest, ∀ e,
        reader.find? (fun z => z.Name = (expectedEntry g).ZipName) = some e → e.openErr = none :=
      fun g hg => hopen g (List.mem_cons_of_mem _ hg)
    simp only [List.map_cons, List.foldl_cons]
    -- the state after the first entry
    have hstep : ∃ st1 : DecState,
        decryptStep env reader key st (expectedEntry f) = st1 ∧
        (∀ r, outcomeIn env reader key (expectedEntry f).ZipName = some r →
          st1.fs f.path = some (.file r.2)) ∧
        (∀ g ∈ rest, st1.fs.admits g.path) ∧
        (∀ q, (q = [] ∨ (outcomeIn env reader key (expectedEntry f).ZipName ≠ none →
            ¬ q <+: f.path)) → st1.fs q = st.fs q) ∧
        (outcomeIn env reader key (expectedEntry f).ZipName ≠ none →
          ∀ q, q <+: f.path → q ≠ f.path → q ≠ [] → st1.fs q = some .dir) ∧
        st1.decryptedFiles = st.decryptedFiles ++
          (if succeeded (outcomeIn env reader key (expectedEntry f).ZipName)
            then [env.abs (relSlash f.path)] else []) ∧
        st1.stdout = st.stdout ++
          [reportOf f (outcomeIn env reader key (expectedEntry f).ZipName)] := by
      cases hfind : reader.find? (fun z => z.Name = (expectedEntry f).ZipName) with
      | none =>
        have ho : outcomeIn env reader key (expectedEntry f).ZipName = none := by
          simp [outcomeIn, hfind]
        have hres1 : decryptSingleFileFromReader env reader (expectedEntry f)
            (expectedEntry f).RelativePath key st.fs = (some .fileNotFound, st.fs) := by
          simp [decryptSingleFileFromReader, hfind]
        refine ⟨_, decryptStep_of env reader key st _ _ _ hres1, ?_, ?_, ?_, ?_, ?_, ?_⟩
        · intro r hr; rw [ho] at hr; cases hr
        · intro g hg; exact hadm g (List.mem_cons_of_mem _ hg)
        · intro q _; rfl
        · intro hne; exact absurd ho hne
        · rw [ho]; simp [succeeded]
        · rw [ho]; rfl
      | some e =>
        have ho : outcomeIn env reader key (expectedEntry f).ZipName
            = some (decryptFromReaderWithKey env e.data e.readErr key) := by
          simp [outcomeIn, hfind]
        obtain ⟨fs1, hres, hfile, hdirs, hframe⟩ :=
          decryptSingle_found env reader (expectedEntry f) (relSlash f.path) key st.fs e f.path
            hfind (hopen f (by simp) e hfind) (dirElems_relSlash f.path hf0 hfv)
            (fileElems_relSlash f.path hf0 hfv) hf0 (hadm f (by simp))
        have hadm1 : ∀ g ∈ rest, fs1.admits g.path := fun g hg =>
          admits_after st.fs fs1 f.path g.path (hf_apart g hg).1
            (hf_apart g hg).2 hdirs hframe (hadm g (List.mem_cons_of_mem _ hg))
        have hres1 : decryptSingleFileFromReader env reader (expectedEntry f)
            (expectedEntry f).RelativePath key st.fs
            = ((decryptFromReaderWithKey env e.data e.readErr key).1, fs1) := hres
        have hframe1 : ∀ q, (q = [] ∨ (outcomeIn env reader key (expectedEntry f).ZipName ≠ none →
            ¬ q <+: f.path)) → fs1 q = st.fs q := by
          intro q hq
          apply hframe
          rcases hq with h | h
          · exact Or.inl h
          · exact Or.inr (h (by simp [ho]))
        rcases hd : decryptFromReaderWithKey env e.data e.readErr key with ⟨err, written⟩
        rw [hd] at hres1 hfile ho
        cases err with
        | some er =>
          refine ⟨_, decryptStep_of env reader key st _ _ _ hres1, ?_, hadm1, hframe1,
            fun _ => hdirs, ?_, ?_⟩
          · intro r hr
            rw [ho] at hr
            cases hr
            exact hfile
          · rw [ho]; simp [succeeded]
          · rw [ho]; rfl
        | none =>
          refine ⟨_, decryptStep_of env reader key st _ _ _ hres1, ?_, hadm1, hframe1,
            fun _ => hdirs, ?_, ?_⟩
          · intro r hr
            rw [ho] at hr
            cases hr
            exact hfile
          · rw [ho]; simp [succeeded, expectedEntry]
          · rw [ho]; rfl
    obtain ⟨st1, hst1, hfile1, hadm1, hframe1, hdirs1, hreg1, hout1⟩ := hstep
    rw [hst1]
    obtain ⟨i1, i2, i5, i3, i4⟩ := ih st1 hpw_rest hval_rest hadm1 hopen_rest
    refine ⟨?_, ?_, ?_, ?_, ?_⟩
    · intro g hg r hr
      rcases List.mem_cons.mp hg with h | h
      · subst h
        rw [i2 g.path (Or.inr (fun h hh _ => (hf_apart h hh).1))]
        exact hfile1 r hr
      · exact i1 g h r hr
    · intro q hq
      rw [i2 q ?_, hframe1 q ?_]
      · rcases hq with h | h
        · exact Or.inl h
        · exact Or.inr (h f (by simp))
      · rcases hq with h | h
        · exact Or.inl h
        · exact Or.inr (fun g hg => h g (List.mem_cons_of_mem _ hg))
    · intro q hq0 hex
      obtain ⟨f1, hf1, hfound1, hpre1, hne1⟩ := hex
      by_cases hlater : ∃ g ∈ rest, outcomeIn env reader key (expectedEntry g).ZipName ≠ none ∧
          q <+: g.path
      · obtain ⟨g, hg, hgfound, hgpre⟩ := hlater
        have hqg : q ≠ g.path := by
          intro e1
          rcases List.mem_cons.mp hf1 with h | h
          · subst h
            exact (hf_apart g hg).2 (e1 ▸ hpre1)
          · by_cases hfg : f1 = g
            · exact hne1 (hfg ▸ e1)
            · have := hpw_rest.forall (fun _ _ hab => ⟨hab.2, hab.1⟩) h hg hfg
              exact this.2 (e1 ▸ hpre1)
        exact i5 q hq0 ⟨g, hg, hgfound, hgpre, hqg⟩
      · have hnone : ∀ g ∈ rest, outcomeIn env reader key (expectedEntry g).ZipName ≠ none →
            ¬ q <+: g.path := fun g hg hgf hgp => hlater ⟨g, hg, hgf, hgp⟩
        rw [i2 q (Or.inr hnone)]
        rcases List.mem_cons.mp hf1 with h | h
        · subst h
          exact hdirs1 hfound1 q hpre1 hne1 hq0
        · exact absurd hpre1 (hnone f1 h hfound1)
    · rw [i3, hreg1]
      by_cases hs : succeeded (outcomeIn env reader key (expectedEntry f).ZipName) = true
      · simp [List.filter_cons, hs]
      · simp [List.filter_cons, hs]
    · rw [i4, hout1]
      simp


/-! ## The built container -/

theorem relSlash_injective {p q : List String} (hp : ∀ c ∈ p, validName c = true)
    (hq : ∀ c ∈ q, validName c = true) (h : relSlash p = relSlash q) : p = q := by
  have h1 := joinElems_relSlash p hp
  have h2 := joinElems_relSlash q hq
  rw [h, h2] at h1
  exact (Option.some.inj h1).symm

theorem append_right_cancel_string {a b s : String} (h : a ++ s = b ++ s) : a = b := by
  have := congrArg String.data h
  simp only [String.data_append] at this
  exact String.ext (List.append_cancel_right this)

theorem index_json_ne_enc (x : String) : x ++ ".enc" ≠ "index.json" := by
  intro h
  have h1 := congrArg String.data h
  simp only [String.data_append] at h1
  have h2 : x.data ++ ['.', 'e', 'n', 'c']
      = ['i', 'n', 'd', 'e', 'x', '.'] ++ ['j', 's', 'o', 'n'] := h1
  have := (List.append_inj' h2 rfl).2
  exact absurd this (by decide)

theorem zipName_injective {f g : SourceFile} (hf : ∀ c ∈ f.path, validName c = true)
    (hg : ∀ c ∈ g.path, validName c = true)
    (h : (expectedEntry f).ZipName = (expectedEntry g).ZipName) : f.path = g.path :=
  relSlash_injective hf hg (append_right_cancel_string h)

theorem apart_ne_path {f g : SourceFile} (h : apart f g) : f.path ≠ g.path := by
  intro e
  exact h.1 (e ▸ List.prefix_refl _)

/-- In the entries written for files with distinct paths, the entry of a file is
found under its name. -/
theorem find_expectedZipEntries (env : Env) (key : Bytes) :
    ∀ (L : List SourceFile) (pos : Nat), L.Pairwise apart →
      (∀ f ∈ L, ∀ c ∈ f.path, validName c = true) →
      ∀ f ∈ L, ∃ pos1, (expectedZipEntries env key pos L).find?
        (fun z => z.Name = (expectedEntry f).ZipName) = some (expectedZipEntry env key pos1 f) := by
  intro L
  induction L with
  | nil => intro _ _ _ f hf; cases hf
  | cons g rest ih =>
    intro pos hpw hval f hf
    rw [List.pairwise_cons] at hpw
    by_cases hname : (expectedEntry g).ZipName = (expectedEntry f).ZipName
    · have hpath := zipName_injective (hval g (by simp)) (hval f hf) hname
      have hfg : f = g := by
        rcases List.mem_cons.mp hf with h | h
        · exact h
        · exact absurd hpath (apart_ne_path (hpw.1 f h))
      subst hfg
      exact ⟨pos, by simp [expectedZipEntries, expectedZipEntry, expectedEntry]⟩
    · have hfr : f ∈ rest := by
        rcases List.mem_cons.mp hf with h | h
        · exact absurd (h ▸ rfl) hname
        · exact h
      obtain ⟨pos1, h1⟩ := ih (pos + BlockSize) hpw.2
        (fun x hx => hval x (List.mem_cons_of_mem _ hx)) f hfr
      refine ⟨pos1, ?_⟩
      have : ¬ (expectedZipEntry env key pos g).Name = (expectedEntry f).ZipName := hname
      simp only [expectedZipEntries, List.find?_cons, this, decide_False]
      exact h1

theorem find_filter_ne (reader : ZipArchive) (n m : String) :
    (reader.filter (fun z => z.Name ≠ n)).find? (fun z => z.Name = m)
      = if m = n then none else reader.find? (fun z => z.Name = m) := by
  induction reader with
  | nil => simp
  | cons z rest ih =>
    by_cases hzn : z.Name = n
    · have hf : (z :: rest).filter (fun z => z.Name ≠ n) = rest.filter (fun z => z.Name ≠ n) := by
        simp [List.filter_cons, hzn]
      rw [hf, ih]
      by_cases hmn : m = n
      · simp only [hmn, if_true]
      · have : ¬ z.Name = m := fun e => hmn (e ▸ hzn)
        simp only [hmn, if_false, List.find?_cons, this, decide_False]
    · have hf : (z :: rest).filter (fun z => z.Name ≠ n)
          = z :: rest.filter (fun z => z.Name ≠ n) := by
        simp [List.filter_cons, hzn]
      rw [hf]
      by_cases hzm : z.Name = m
      · have : ¬ m = n := fun e => hzn (hzm.trans e)
        simp only [List.find?_cons, hzm, decide_True, this, if_false]
      · simp only [List.find?_cons, hzm, decide_False, ih]

theorem regularFiles_valid (root : Node) (hwf : root.wellFormed = true) :
    ∀ f ∈ regularFiles root, ∀ c ∈ f.path, validName c = true := by
  intro f hf
  obtain ⟨s, hp, hv, _⟩ := regularFilesAt_path root [] hwf f hf
  simp only [List.nil_append] at hp
  rw [hp]; exact hv

theorem regularFiles_dir_ne_nil (children : List (String × Node))
    (hwf : (Node.dir children).wellFormed = true) :
    ∀ f ∈ regularFiles (.dir children), f.path ≠ [] := by
  intro f hf
  simp only [regularFiles, regularFilesAt] at hf
  simp only [Node.wellFormed] at hwf
  obtain ⟨name, child, s, _, hp, _, _⟩ := regularFilesAt_path.go children [] hwf f hf
  simp [hp]

theorem find_builtArchive (env : Env) (root : Node) (key : Bytes) (hwf : root.wellFormed = true)
    (f : SourceFile) (hf : f ∈ regularFiles root) :
    ∃ pos, (builtArchive env root key).find? (fun z => z.Name = (expectedEntry f).ZipName)
      = some (expectedZipEntry env key pos f) := by
  obtain ⟨pos, h⟩ := find_expectedZipEntries env key (regularFiles root) 0
    (regularFilesAt_apart root [] hwf) (regularFiles_valid root hwf) f hf
  refine ⟨pos, ?_⟩
  have : ¬ (expectedIndexEntry env root).Name = (expectedEntry f).ZipName :=
    fun e => index_json_ne_enc _ e.symm
  simp only [builtArchive, List.find?_cons, this, decide_False]
  exact h

theorem outcome_builtArchive (env : Env) (root : Node) (key : Bytes)
    (hwf : root.wellFormed = true) (hk : validKey key) (f : SourceFile)
    (hf : f ∈ regularFiles root) :
    outcomeIn env (builtArchive env root key) key (expectedEntry f).ZipName
      = some (none, f.content) := by
  obtain ⟨pos, h⟩ := find_builtArchive env root key hwf f hf
  simp [outcomeIn, h, expectedZipEntry, decrypt_expectedPayload env key pos f.content hk]


/-! ## The copy pass of a backup -/

theorem lookup_of_mem_wellFormed : ∀ (cs : List (String × Node)) (name : String) (child : Node),
    Node.wellFormed.wellFormedChildren cs = true → (name, child) ∈ cs →
    cs.lookup name = some child
  | [], _, _, _, h => by simp at h
  | (k, v) :: rest, name, child, hwf, h => by
    simp only [Node.wellFormed.wellFormedChildren, Bool.and_eq_true] at hwf
    obtain ⟨⟨⟨_, hfresh⟩, _⟩, hrest⟩ := hwf
    rcases List.mem_cons.mp h with h0 | h0
    · simp only [Prod.mk.injEq] at h0
      obtain ⟨h1, h2⟩ := h0
      subst h1; subst h2
      simp [List.lookup]
    · have hne : name ≠ k := by
        intro e
        subst e
        simp at hfresh
        exact hfresh child h0
      have : (name == k) = false := by simpa using hne
      simp only [List.lookup, this]
      exact lookup_of_mem_wellFormed rest name child hrest h0

/-- Every directory of the enumeration lies at or below the path it starts from,
and the tree has a directory there. -/
theorem directoriesAt_path :
    ∀ (n : Node) (path : List String), n.wellFormed = true → ∀ p ∈ directoriesAt path n,
      ∃ s, p = path ++ s ∧ ∃ cs, n.lookup s = some (.dir cs)
  | .file content modTime, path, _, p, hp => by simp [directoriesAt] at hp
  | .dir children, path, hwf, p, hp => by
    simp only [directoriesAt, List.mem_cons] at hp
    simp only [Node.wellFormed] at hwf
    rcases hp with hp | hp
    · exact ⟨[], by simp [hp], children, by simp [Node.lookup]⟩
    · obtain ⟨name, child, s, hmem, hq, cs, hl⟩ := go children path hwf p hp
      exact ⟨name :: s, hq, cs, by simp [Node.lookup, hmem, hl]⟩
where
  go : ∀ (cs : List (String × Node)) (path : List String),
      Node.wellFormed.wellFormedChildren cs = true →
      ∀ p ∈ directoriesAt.directoriesIn path cs,
      ∃ name child s, cs.lookup name = some child ∧ p = path ++ name :: s ∧
        ∃ cs1, child.lookup s = some (.dir cs1)
  | [], path, _, p, hp => by simp [directoriesAt.directoriesIn] at hp
  | (name, child) :: rest, path, hwf, p, hp => by
    simp only [Node.wellFormed.wellFormedChildren, Bool.and_eq_true] at hwf
    obtain ⟨⟨⟨_, hfresh⟩, hchild⟩, hrest⟩ := hwf
    simp only [directoriesAt.directoriesIn, List.mem_append] at hp
    rcases hp with hp | hp
    · obtain ⟨s, hq, cs1, hl⟩ := directoriesAt_path child (path ++ [name]) hchild p hp
      exact ⟨name, child, s, by simp [List.lookup], by simp [hq], cs1, hl⟩
    · obtain ⟨m, ch, s, hm, hq, h⟩ := go rest path hrest p hp
      refine ⟨m, ch, s, ?_, hq, h⟩
      have hmk := lookup_isSome_mem_keys rest m ch hm
      have hne : m ≠ name := by
        intro e
        subst e
        simp at hfresh
        simp at hmk
        obtain ⟨x, hx⟩ := hmk
        exact hfresh x hx
      have : (m == name) = false := by simpa using hne
      simp [List.lookup, this, hm]

theorem srcMissing_of_lookup : ∀ (n : Node) (p : List String) (m : Node),
    n.lookup p = some m → srcMissing n p = false
  | _, [], _, _ => by simp [srcMissing]
  | .file _ _, _ :: _, _, h => by simp [Node.lookup] at h
  | .dir children, c :: rest, m, h => by
    simp only [Node.lookup] at h
    cases hc : children.lookup c with
    | none => simp [hc] at h
    | some child =>
      simp only [hc] at h
      simp only [srcMissing, hc]
      exact srcMissing_of_lookup child rest m h

theorem accepts_congr (d d1 : DstDir) (f : SourceFile) (hfs : d1.fs f.path = d.fs f.path)
    (hmt : d1.modTime f.path = d.modTime f.path) (h : d.accepts f) : d1.accepts f := by
  unfold DstDir.accepts at h ⊢
  rw [hfs, hmt]
  exact h

/-- The copy callback at a directory whose ancestors are directories of the
destination: the directory is there afterwards and nothing else changes. -/
theorem copyEntry_dir (env : Env) (src : Node) (path : List String) (d : DstDir)
    (hanc : ∀ q, q <+: path → q ≠ path → q ≠ [] → d.fs q = some .dir)
    (hself : path ≠ [] → d.fs path = none ∨ d.fs path = some .dir) :
    (copyEntry env src path true d).1 = none ∧
    (∀ q, q ≠ path → (copyEntry env src path true d).2.fs q = d.fs q) ∧
    (copyEntry env src path true d).2.modTime = d.modTime ∧
    (path ≠ [] → (copyEntry env src path true d).2.fs path = some .dir) := by
  have hpre : ∀ r, r ≠ [] → r <+: path → ∀ c, d.fs ([] ++ r) ≠ some (.file c) := by
    intro r hr hp c
    rw [List.nil_append]
    by_cases hrp : r = path
    · subst hrp
      rcases hself hr with h | h <;> simp [h]
    · rw [hanc r hp hrp hr]; simp
  obtain ⟨h1, h2, h3⟩ := mkdirFrom_spec path d.fs [] hpre
  simp only [copyEntry, if_true, osMkdirAll]
  refine ⟨h1, ?_, trivial, ?_⟩
  · intro q hq
    by_cases hqp : q ≠ [] ∧ q <+: path
    · have := h2 q hqp.1 hqp.2
      rw [List.nil_append] at this
      rw [this, hanc q hqp.2 hq hqp.1]
    · apply h3
      intro r hr hp e
      rw [List.nil_append] at e
      exact hqp ⟨e ▸ hr, e ▸ hp⟩
  · intro hne
    have := h2 path hne (List.prefix_refl _)
    simpa using this

/-- The copy callback at a regular file whose parent is a directory of the
destination that takes the file: the file holds the source bytes afterwards and
nothing else changes. -/
theorem copyEntry_file (env : Env) (src : Node) (path : List String) (c : Bytes) (m : Time)
    (d : DstDir) (hl : src.lookup path = some (.file c m)) (hne : path ≠ [])
    (hpar : path.dropLast ≠ [] → d.fs path.dropLast = some .dir)
    (hacc : d.accepts ⟨path, c, m⟩) :
    (copyEntry env src path false d).1 = none ∧
    (∀ q, q ≠ path → (copyEntry env src path false d).2.fs q = d.fs q ∧
      (copyEntry env src path false d).2.modTime q = d.modTime q) ∧
    (copyEntry env src path false d).2.fs path = some (.file c) := by
  have hparent : ¬ (path.dropLast ≠ [] ∧ d.fs path.dropLast ≠ some .dir) := by
    rintro ⟨h1, h2⟩
    exact h2 (hpar h1)
  unfold DstDir.accepts at hacc
  simp only at hacc
  cases path with
  | nil => exact absurd rfl hne
  | cons a t =>
    cases hfs : d.fs (a :: t) with
    | none =>
      simp [copyEntry, hl, Node.stat, osStat, hparent, hfs, osCreate, FS.put]
      intro q hq
      simp [hq]
    | some node =>
      cases node with
      | dir => simp [hfs] at hacc
      | file c1 =>
        simp only [hfs] at hacc
        simp only [copyEntry, hl, Node.stat, osStat, hparent, hfs, if_false, Bool.false_eq_true]
        split
        · rename_i hup
          have hc : c1 = c := by
            simp only [Bool.and_eq_true, Bool.not_eq_true', decide_eq_false_iff_not,
              decide_eq_true_eq, gt_iff_lt, not_lt] at hup
            rcases hacc with h | h | h
            · exact absurd (by exact_mod_cast hup.2.symm) h
            · exact absurd h (not_lt.mpr hup.1)
            · exact h
          simp [hfs, hc]
        · simp [osCreate, hparent, hfs, FS.put]
          intro q hq
          simp [hq]

theorem prefix_concat_cases (q path : List String) (name : String)
    (h : q <+: path ++ [name]) : q = path ++ [name] ∨ q <+: path := by
  rcases List.prefix_concat_iff.mp h with h | h
  · exact Or.inl h
  · exact Or.inr h

theorem concat_not_initial (path : List String) (name : String) (q : List String)
    (h : q <+: path) : ¬ (path ++ [name]) <+: q := by
  intro h1
  have l1 := h.length_le
  have l2 := h1.length_le
  simp at l2
  omega

mutual
/-- The copy pass over a subtree of the source, into a destination whose
ancestors of `path` are directories, that has no regular file where the subtree
has a directory, and that takes every file of the subtree: the pass ends
without error, leaves everything outside `path` as it was, and afterwards every
file of the subtree holds the source bytes and every directory is there. -/
theorem copy_walk (env : Env) (root : Node) (n : Node) (path : List String) (d : DstDir)
    (hwf : n.wellFormed = true)
    (hsub : ∀ s, root.lookup (path ++ s) = n.lookup s)
    (hne : ∀ c m, n = .file c m → path ≠ [])
    (hanc : ∀ q, q <+: path → q ≠ path → q ≠ [] → d.fs q = some .dir)
    (hdirs : ∀ p ∈ directoriesAt path n, p ≠ [] → d.fs p = none ∨ d.fs p = some .dir)
    (hfiles : ∀ f ∈ regularFilesAt path n, d.accepts f) :
    (walkDir (copyEntry env root) path n d).1 = none ∧
    (∀ q, ¬ path <+: q → (walkDir (copyEntry env root) path n d).2.fs q = d.fs q ∧
      (walkDir (copyEntry env root) path n d).2.modTime q = d.modTime q) ∧
    (∀ f ∈ regularFilesAt path n,
      (walkDir (copyEntry env root) path n d).2.fs f.path = some (.file f.content)) ∧
    (∀ p ∈ directoriesAt path n, p ≠ [] →
      (walkDir (copyEntry env root) path n d).2.fs p = some .dir) := by
  cases n with
  | file c m =>
    have hl : root.lookup path = some (.file c m) := by
      have := hsub []
      simpa [Node.lookup] using this
    have hpar : path.dropLast ≠ [] → d.fs path.dropLast = some .dir := by
      intro h
      apply hanc _ (List.dropLast_prefix path) _ h
      intro e
      have := congrArg List.length e
      have hlen : path.length ≠ 0 := by
        intro h0
        exact hne c m rfl (List.length_eq_zero.mp h0)
      simp at this
      omega
    obtain ⟨h1, h2, h3⟩ := copyEntry_file env root path c m d hl (hne c m rfl) hpar
      (hfiles ⟨path, c, m⟩ (by simp [regularFilesAt]))
    simp only [walkDir]
    refine ⟨h1, ?_, ?_, ?_⟩
    · intro q hq
      apply h2
      intro e
      exact hq (e ▸ List.prefix_refl _)
    · intro f hf
      simp only [regularFilesAt, List.mem_singleton] at hf
      subst hf
      exact h3
    · intro p hp
      simp [directoriesAt] at hp
  | dir children =>
    obtain ⟨h1, h2, h3, h4⟩ := copyEntry_dir env root path d hanc
      (fun h => hdirs path (by simp [directoriesAt]) h)
    simp only [Node.wellFormed] at hwf
    have under : ∀ (p : List String) (m : String) (s : List String), p = path ++ m :: s →
        p ≠ path := by
      intro p m s e e2
      have := congrArg List.length (e.symm.trans e2)
      simp at this
    have hlook : ∀ name child, (name, child) ∈ children →
        ∀ s, root.lookup (path ++ name :: s) = child.lookup s := by
      intro name child hmem s
      rw [hsub (name :: s)]
      simp [Node.lookup, lookup_of_mem_wellFormed children name child hwf hmem]
    have hanc1 : ∀ q, q <+: path → q ≠ [] →
        (copyEntry env root path true d).2.fs q = some .dir := by
      intro q hq hq0
      by_cases e : q = path
      · subst e
        exact h4 hq0
      · rw [h2 q e]
        exact hanc q hq e hq0
    have hdirs1 : ∀ p ∈ directoriesAt.directoriesIn path children,
        (copyEntry env root path true d).2.fs p = none ∨
          (copyEntry env root path true d).2.fs p = some .dir := by
      intro p hp
      obtain ⟨m, ch, s, _, hq, _⟩ := directoriesAt_path.go children path hwf p hp
      rw [h2 p (under p m s hq)]
      apply hdirs p (by simp [directoriesAt, hp])
      simp [hq]
    have hfiles1 : ∀ f ∈ regularFilesAt.regularFilesIn path children,
        (copyEntry env root path true d).2.accepts f := by
      intro f hf
      obtain ⟨m, ch, s, _, hq, _⟩ := regularFilesAt_path.go children path hwf f hf
      apply accepts_congr d _ f (h2 _ (under _ m s hq)) (by rw [h3])
      exact hfiles f (by simpa [regularFilesAt] using hf)
    obtain ⟨g1, g2, g3, g4⟩ := copy_walkChildren env root children path
      (copyEntry env root path true d).2 hwf hlook hanc1 hdirs1 hfiles1
    have hstep : walkDir (copyEntry env root) path (.dir children) d
        = walkDir.walkDirChildren (copyEntry env root) path children
          (copyEntry env root path true d).2 := by
      rw [walkDir]
      cases hr : copyEntry env root path true d with
      | mk e d1 =>
        rw [hr] at h1
        simp only at h1
        subst h1
        rfl
    rw [hstep]
    have houter : ∀ q, ¬ path <+: q → ∀ name ∈ children.map Prod.fst,
        ¬ (path ++ [name]) <+: q := by
      intro q hq name _ hp
      exact hq ((List.prefix_append path [name]).trans hp)
    refine ⟨g1, ?_, ?_, ?_⟩
    · intro q hq
      obtain ⟨a, b⟩ := g2 q (houter q hq)
      have e : q ≠ path := fun e => hq (e ▸ List.prefix_refl _)
      exact ⟨a.trans (h2 q e), b.trans (by rw [h3])⟩
    · intro f hf
      exact g3 f (by simpa [regularFilesAt] using hf)
    · intro p hp hp0
      simp only [directoriesAt, List.mem_cons] at hp
      rcases hp with hp | hp
      · subst hp
        rw [(g2 p (fun name _ => concat_not_initial p name p (List.prefix_refl _))).1]
        exact h4 hp0
      · exact g4 p hp
/-- The copy pass over the entries of one directory of the source. -/
theorem copy_walkChildren (env : Env) (root : Node) (cs : List (String × Node))
    (path : List String) (d : DstDir)
    (hwf : Node.wellFormed.wellFormedChildren cs = true)
    (hlook : ∀ name child, (name, child) ∈ cs →
      ∀ s, root.lookup (path ++ name :: s) = child.lookup s)
    (hanc : ∀ q, q <+: path → q ≠ [] → d.fs q = some .dir)
    (hdirs : ∀ p ∈ directoriesAt.directoriesIn path cs, d.fs p = none ∨ d.fs p = some .dir)
    (hfiles : ∀ f ∈ regularFilesAt.regularFilesIn path cs, d.accepts f) :
    (walkDir.walkDirChildren (copyEntry env root) path cs d).1 = none ∧
    (∀ q, (∀ name ∈ cs.map Prod.fst, ¬ (path ++ [name]) <+: q) →
      (walkDir.walkDirChildren (copyEntry env root) path cs d).2.fs q = d.fs q ∧
      (walkDir.walkDirChildren (copyEntry env root) path cs d).2.modTime q = d.modTime q) ∧
    (∀ f ∈ regularFilesAt.regularFilesIn path cs,
      (walkDir.walkDirChildren (copyEntry env root) path cs d).2.fs f.path
        = some (.file f.content)) ∧
    (∀ p ∈ directoriesAt.directoriesIn path cs,
      (walkDir.walkDirChildren (copyEntry env root) path cs d).2.fs p = some .dir) := by
  cases cs with
  | nil =>
    simp [walkDir.walkDirChildren, regularFilesAt.regularFilesIn, directoriesAt.directoriesIn]
  | cons hd rest =>
    obtain ⟨name, child⟩ := hd
    have hwf0 := hwf
    simp only [Node.wellFormed.wellFormedChildren, Bool.and_eq_true] at hwf
    obtain ⟨⟨⟨_, hfresh⟩, hchild⟩, hrest⟩ := hwf
    have hfresh1 : ∀ m ∈ rest.map Prod.fst, name ≠ m := by
      intro m hm e
      subst e
      simp at hfresh
      simp at hm
      obtain ⟨x, hx⟩ := hm
      exact hfresh x hx
    -- the first entry
    obtain ⟨h1, h2, h3, h4⟩ := copy_walk env root child (path ++ [name]) d hchild
      (fun s => by
        have := hlook name child (by simp) s
        simpa using this)
      (fun _ _ _ => by simp)
      (fun q hq hqe hq0 => by
        rcases prefix_concat_cases q path name hq with h | h
        · exact absurd h hqe
        · exact hanc q h hq0)
      (fun p hp _ => hdirs p (by simp [directoriesAt.directoriesIn, hp]))
      (fun f hf => hfiles f (by simp [regularFilesAt.regularFilesIn, hf]))
    have hstep : walkDir.walkDirChildren (copyEntry env root) path ((name, child) :: rest) d
        = walkDir.walkDirChildren (copyEntry env root) path rest
          (walkDir (copyEntry env root) (path ++ [name]) child d).2 := by
      rw [walkDir.walkDirChildren]
      cases hr : walkDir (copyEntry env root) (path ++ [name]) child d with
      | mk e d1 =>
        rw [hr] at h1
        simp only at h1
        subst h1
        rfl
    -- paths below later entries are not below the first
    have hlater : ∀ (m : String) (s : List String), m ∈ rest.map Prod.fst →
        ¬ (path ++ [name]) <+: (path ++ m :: s) := by
      intro m s hm
      exact not_prefix_of_ne_head path [] s name m (hfresh1 m hm)
    have hearlier : ∀ (s : List String), ∀ m ∈ rest.map Prod.fst,
        ¬ (path ++ [m]) <+: (path ++ [name] ++ s) := by
      intro s m hm
      rw [List.append_assoc, List.singleton_append]
      exact not_prefix_of_ne_head path [] s m name (Ne.symm (hfresh1 m hm))
    -- the remaining entries
    obtain ⟨g1, g2, g3, g4⟩ := copy_walkChildren env root rest path
      (walkDir (copyEntry env root) (path ++ [name]) child d).2 hrest
      (fun m ch hm s => hlook m ch (List.mem_cons_of_mem _ hm) s)
      (fun q hq hq0 => by
        rw [(h2 q (concat_not_initial path name q hq)).1]
        exact hanc q hq hq0)
      (fun p hp => by
        obtain ⟨m, ch, s, hm, hq, _⟩ := directoriesAt_path.go rest path hrest p hp
        rw [(h2 p (hq ▸ hlater m s (lookup_isSome_mem_keys rest m ch hm))).1]
        exact hdirs p (by simp [directoriesAt.directoriesIn, hp]))
      (fun f hf => by
        obtain ⟨m, ch, s, hm, hq, _⟩ := regularFilesAt_path.go rest path hrest f hf
        have hnp := hlater m s (lookup_isSome_mem_keys rest m ch hm)
        rw [← hq] at hnp
        exact accepts_congr d _ f (h2 _ hnp).1 (h2 _ hnp).2
          (hfiles f (by simp [regularFilesAt.regularFilesIn, hf])))
    rw [hstep]
    refine ⟨g1, ?_, ?_, ?_⟩
    · intro q hq
      obtain ⟨a, b⟩ := g2 q (fun m hm => hq m (by simp at hm ⊢; exact Or.inr hm))
      obtain ⟨a1, b1⟩ := h2 q (hq name (by simp))
      exact ⟨a.trans a1, b.trans b1⟩
    · intro f hf
      simp only [regularFilesAt.regularFilesIn, List.mem_append] at hf
      rcases hf with hf | hf
      · obtain ⟨s, hp, _, _⟩ := regularFilesAt_path child (path ++ [name]) hchild f hf
        rw [(g2 f.path (by rw [hp]; exact hearlier s)).1]
        exact h3 f hf
      · exact g3 f hf
    · intro p hp
      simp only [directoriesAt.directoriesIn, List.mem_append] at hp
      rcases hp with hp | hp
      · obtain ⟨s, hq, _⟩ := directoriesAt_path child (path ++ [name]) hchild p hp
        rw [(g2 p (by rw [hq]; exact hearlier s)).1]
        exact h4 p hp (by rw [hq]; simp)
      · exact g4 p hp
end

/-! ## The bytes of a string -/

set_option maxRecDepth 100000 in
theorem tagged_byte :
    ∀ y : UInt8, (y &&& 31 ||| 192).toNat = 192 + y.toNat % 32 ∧
      (y &&& 63 ||| 128).toNat = 128 + y.toNat % 64 ∧
      (y &&& 15 ||| 224).toNat = 224 + y.toNat % 16 ∧
      (y &&& 7 ||| 240).toNat = 240 + y.toNat % 8 := by
  rintro ⟨⟨n⟩⟩
  revert n
  decide

theorem shifted_byte (x : UInt32) :
    x.toUInt8.toNat = x.toNat % 256 ∧
    (x >>> 6).toUInt8.toNat = x.toNat / 64 % 256 ∧
    (x >>> 12).toUInt8.toNat = x.toNat / 4096 % 256 ∧
    (x >>> 18).toUInt8.toNat = x.toNat / 262144 % 256 := by
  have h6 : (x >>> 6).toNat = x.toNat / 64 := by
    show (x.toBitVec >>> (UInt32.mod 6 32).toBitVec).toNat = _
    simp [BitVec.toNat_ushiftRight, Nat.shiftRight_eq_div_pow]
    rfl
  have h12 : (x >>> 12).toNat = x.toNat / 4096 := by
    show (x.toBitVec >>> (UInt32.mod 12 32).toBitVec).toNat = _
    simp [BitVec.toNat_ushiftRight, Nat.shiftRight_eq_div_pow]
    rfl
  have h18 : (x >>> 18).toNat = x.toNat / 262144 := by
    show (x.toBitVec >>> (UInt32.mod 18 32).toBitVec).toNat = _
    simp [BitVec.toNat_ushiftRight, Nat.shiftRight_eq_div_pow]
    rfl
  have hc : ∀ y : UInt32, y.toUInt8.toNat = y.toNat % 256 := by
    intro y
    show (y.toNat.toUInt8).toNat = _
    simp [Nat.toUInt8, UInt8.ofNat, UInt8.toNat]
  exact ⟨hc x, by rw [hc, h6], by rw [hc, h12], by rw [hc, h18]⟩

/-- The encoder behind `stringBytes` writes, for every character, the bytes
that RFC 3629 prescribes for its code point. -/
theorem utf8EncodeChar_eq (c : Char) :
    (String.utf8EncodeChar c).map (fun b => b.toNat) = utf8Reference c.toNat := by
  have hn : c.val.toNat = c.toNat := rfl
  have hval : c.toNat < 0x110000 := by
    rw [← hn]
    rcases c.valid with h | h
    · exact lt_trans h (by decide)
    · exact h.2
  obtain ⟨s0, s6, s12, s18⟩ := shifted_byte c.val
  rw [hn] at s0 s6 s12 s18
  generalize c.toNat = v at hn hval s0 s6 s12 s18
  have e0 : v % 256 % 64 = v % 64 := by omega
  have e6 : v / 64 % 256 % 64 = v / 64 % 64 := by omega
  have e12 : v / 4096 % 256 % 64 = v / 4096 % 64 := by omega
  simp only [String.utf8EncodeChar, utf8Reference]
  by_cases h1 : v ≤ 127
  · have c1 : c.val ≤ 127 := by show c.val.toNat ≤ 127; omega
    simp only [c1, if_true, List.map, s0]
    rw [if_pos (by omega)]
    have : v % 256 = v := by omega
    rw [this]
  · have n1 : ¬ c.val ≤ 127 := by show ¬ c.val.toNat ≤ 127; omega
    by_cases h2 : v ≤ 2047
    · have c2 : c.val ≤ 2047 := by show c.val.toNat ≤ 2047; omega
      simp only [n1, c2, if_true, if_false, List.map, (tagged_byte _).1, (tagged_byte _).2.1,
        s0, s6, e0]
      rw [if_neg (by omega), if_pos (by omega)]
      have : v / 64 % 256 % 32 = v / 64 := by omega
      rw [this]
    · have n2 : ¬ c.val ≤ 2047 := by show ¬ c.val.toNat ≤ 2047; omega
      by_cases h3 : v ≤ 65535
      · have c3 : c.val ≤ 65535 := by show c.val.toNat ≤ 65535; omega
        simp only [n1, n2, c3, if_true, if_false, List.map, (tagged_byte _).2.1,
          (tagged_byte _).2.2.1, s0, s6, s12, e0, e6]
        rw [if_neg (by omega), if_neg (by omega), if_pos (by omega)]
        have : v / 4096 % 256 % 16 = v / 4096 := by omega
        rw [this]
      · have n3 : ¬ c.val ≤ 65535 := by show ¬ c.val.toNat ≤ 65535; omega
        simp only [n1, n2, n3, if_false, List.map, (tagged_byte _).2.1,
          (tagged_byte _).2.2.2, s0, s6, s12, s18, e0, e6, e12]
        rw [if_neg (by omega), if_neg (by omega), if_neg (by omega)]
        have : v / 262144 % 256 % 8 = v / 262144 := by omega
        rw [this]

theorem stringBytes_eq (s : String) :
    stringBytes s = s.data.flatMap (fun c => utf8Reference c.toNat) := by
  simp only [stringBytes, utf8EncodeChar_eq]

/-! ## The claims -/

theorem list_builtArchive (env : Env) (root : Node) (rest : ZipArchive)
    (hjson : env.jsonDecode (env.jsonEncode (expectedIndex env root))
      = .ok (expectedIndex env root)) :
    ListEncryptedFilesFromIndex env (some (expectedIndexEntry env root :: rest))
      = .ok ((regularFiles root).map expectedEntry) := by
  simp only [ListEncryptedFilesFromIndex, zipOpenReader, expectedIndexEntry, List.find?_cons,
    decide_True, hjson]
  rfl

theorem filter_selected (files : List SourceFile) (selectedMap : String → Bool) :
    (files.map expectedEntry).filter (fun file => selectedMap file.RelativePath)
      = (files.filter (fun f => selectedMap (relSlash f.path))).map expectedEntry := by
  induction files with
  | nil => rfl
  | cons f rest ih =>
    by_cases h : selectedMap (relSlash f.path) = true
    · simp [List.filter_cons, h, expectedEntry] at ih ⊢
      exact ih
    · simp [List.filter_cons, h, expectedEntry] at ih ⊢
      exact ih

/-- C1, counterexample.  A source directory holds `b.txt` and a file whose name
starts with the byte 0xFF.  The build returns no error and stores the entry
under the name as it is, the index, written by `encoding/json`, holds the name
with U+FFFD in place of the byte, and decrypting every listed entry with the
same key reports "file not found in archive" for it: the file is not written. -/
theorem roundtrip_loses_raw_name :
    rawTree.wellFormed = true ∧
    regularFiles rawTree = [⟨["b.txt"], [119], 6⟩, ⟨[rawName], [104, 105], 5⟩] ∧
    (CreateEncryptedArchiveWithIndex coercingEnv (some rawTree) .outside
      (Sum256 coercingEnv (stringBytes "pw"))).err = none ∧
    (CreateEncryptedArchiveWithIndex coercingEnv (some rawTree) .outside
      (Sum256 coercingEnv (stringBytes "pw"))).archive.map (fun z => z.map (fun f => f.Name))
      = some ["index.json", "b.txt.enc", rawName ++ ".enc"] ∧
    ListEncryptedFilesFromIndex coercingEnv
      (CreateEncryptedArchiveWithIndex coercingEnv (some rawTree) .outside
        (Sum256 coercingEnv (stringBytes "pw"))).archive
      = .ok [⟨"b.txt", 1, 6, "b.txt.enc"⟩, ⟨coercedName, 2, 5, coercedName ++ ".enc"⟩] ∧
    (DecryptSelectedFilesFromArchive coercingEnv
      (CreateEncryptedArchiveWithIndex coercingEnv (some rawTree) .outside
        (Sum256 coercingEnv (stringBytes "pw"))).archive
      [⟨"b.txt", 1, 6, "b.txt.enc"⟩, ⟨coercedName, 2, 5, coercedName ++ ".enc"⟩]
      (fun _ => true) (Sum256 coercingEnv (stringBytes "pw")) freshState).2.stdout
      = [.decrypted "b.txt", .failed coercedName .fileNotFound] ∧
    (DecryptSelectedFilesFromArchive coercingEnv
      (CreateEncryptedArchiveWithIndex coercingEnv (some rawTree) .outside
        (Sum256 coercingEnv (stringBytes "pw"))).archive
      [⟨"b.txt", 1, 6, "b.txt.enc"⟩, ⟨coercedName, 2, 5, coercedName ++ ".enc"⟩]
      (fun _ => true) (Sum256 coercingEnv (stringBytes "pw")) freshState).2.fs [rawName]
      = none ∧
    (DecryptSelectedFilesFromArchive coercingEnv
      (CreateEncryptedArchiveWithIndex coercingEnv (some rawTree) .outside
        (Sum256 coercingEnv (stringBytes "pw"))).archive
      [⟨"b.txt", 1, 6, "b.txt.enc"⟩, ⟨coercedName, 2, 5, coercedName ++ ".enc"⟩]
      (fun _ => true) (Sum256 coercingEnv (stringBytes "pw")) freshState).2.fs [coercedName]
      = none := by
  decide

/-- C1, amended.  Round trip.  For a directory tree (every entry properly named, names
unique per directory) whose index survives the JSON codec, an archive path
outside the tree, a password and a working directory that admits the output
paths: building with the key SHA-256(password) succeeds, the index is listed,
and decrypting a selection that holds every listed entry returns no error and
leaves, at the path of every regular file, a file with exactly the original
bytes, whatever their number.  At stream level, for any block function, random
stream and key of AES length, `decryptFromReaderWithKey` applied to the bytes
that `encryptFileToWriter` wrote (the IV, then the CFB ciphertext) returns the
plaintext. -/
theorem roundtrip_build_decrypt (env : Env) :
    (∀ (children : List (String × Node)) (password : String) (selectedMap : String → Bool)
        (st : DecState),
      (Node.dir children).wellFormed = true →
      env.jsonDecode (env.jsonEncode (expectedIndex env (.dir children)))
        = .ok (expectedIndex env (.dir children)) →
      (∀ f ∈ regularFiles (.dir children), st.fs.admits f.path) →
      (∀ f ∈ regularFiles (.dir children), selectedMap (relSlash f.path) = true) →
      (CreateEncryptedArchiveWithIndex env (some (.dir children)) .outside
          (Sum256 env (stringBytes password))).err = none ∧
      ∃ files, ListEncryptedFilesFromIndex env
          (CreateEncryptedArchiveWithIndex env (some (.dir children)) .outside
            (Sum256 env (stringBytes password))).archive = .ok files ∧
        (DecryptSelectedFilesFromArchive env
          (CreateEncryptedArchiveWithIndex env (some (.dir children)) .outside
            (Sum256 env (stringBytes password))).archive
          files selectedMap (Sum256 env (stringBytes password)) st).1 = none ∧
        ∀ f ∈ regularFiles (.dir children),
          (DecryptSelectedFilesFromArchive env
            (CreateEncryptedArchiveWithIndex env (some (.dir children)) .outside
              (Sum256 env (stringBytes password))).archive
            files selectedMap (Sum256 env (stringBytes password)) st).2.fs f.path
            = some (.file f.content)) ∧
    (∀ (src : Node) (inputPath : Option (List String)) (content : Bytes) (modTime : Time)
        (key : Bytes) (pos : Nat),
      validKey key → inputPath.bind src.lookup = some (.file content modTime) →
      (encryptFileToWriter env src inputPath [] key pos).1 = none ∧
      decryptFromReaderWithKey env (encryptFileToWriter env src inputPath [] key pos).2.1
        none key = (none, content)) := by
  refine ⟨?_, ?_⟩
  · intro children password selectedMap st hwf hjson hadm hsel
    have hk := validKey_Sum256 env (stringBytes password)
    rw [build_outside env (.dir children) _ hwf hk]
    refine ⟨rfl, (regularFiles (.dir children)).map expectedEntry,
      list_builtArchive env _ _ hjson, rfl, ?_⟩
    intro f hf
    have hall : (regularFiles (Node.dir children)).filter
        (fun f => selectedMap (relSlash f.path)) = regularFiles (Node.dir children) :=
      List.filter_eq_self.mpr hsel
    simp only [DecryptSelectedFilesFromArchive, zipOpenReader, filter_selected, hall]
    have hfold := decrypt_fold env (builtArchive env (.dir children) (Sum256 env (stringBytes password)))
      (Sum256 env (stringBytes password)) (regularFiles (.dir children)) st
      (regularFilesAt_apart _ [] hwf)
      (fun g hg => ⟨regularFiles_dir_ne_nil children hwf g hg, regularFiles_valid _ hwf g hg⟩)
      hadm ?_
    · exact hfold.1 f hf _ (outcome_builtArchive env _ _ hwf hk f hf)
    · intro g hg e he
      obtain ⟨pos, h⟩ := find_builtArchive env _ (Sum256 env (stringBytes password)) hwf g hg
      rw [h] at he
      cases he
      rfl
  · intro src inputPath content modTime key pos hk hin
    rw [encryptFileToWriter_ok env src inputPath [] key pos content modTime hk hin]
    exact ⟨rfl, by simpa using decrypt_expectedPayload env key pos content hk⟩

theorem admits_emptyFS (p : List String) : emptyFS.admits p := by
  simp [FS.admits, emptyFS]

/-- Witness for C1: the example tree (files of 0, 1, 2, 5 and 17 bytes) in an
empty working directory, and the stream round trip of its 17-byte file. -/
theorem roundtrip_build_decrypt_witness :
    (sampleTree.wellFormed = true ∧
      sampleEnv.jsonDecode (sampleEnv.jsonEncode (expectedIndex sampleEnv sampleTree))
        = .ok (expectedIndex sampleEnv sampleTree) ∧
      (∀ f ∈ regularFiles sampleTree, freshState.fs.admits f.path) ∧
      (∀ f ∈ regularFiles sampleTree, (fun _ => true) (relSlash f.path) = true) ∧
      ((CreateEncryptedArchiveWithIndex sampleEnv (some sampleTree) .outside
          (Sum256 sampleEnv (stringBytes "pw"))).err = none ∧
        ∃ files, ListEncryptedFilesFromIndex sampleEnv
            (CreateEncryptedArchiveWithIndex sampleEnv (some sampleTree) .outside
              (Sum256 sampleEnv (stringBytes "pw"))).archive = .ok files ∧
          (DecryptSelectedFilesFromArchive sampleEnv
            (CreateEncryptedArchiveWithIndex sampleEnv (some sampleTree) .outside
              (Sum256 sampleEnv (stringBytes "pw"))).archive
            files (fun _ => true) (Sum256 sampleEnv (stringBytes "pw")) freshState).1 = none ∧
          ∀ f ∈ regularFiles sampleTree,
            (DecryptSelectedFilesFromArchive sampleEnv
              (CreateEncryptedArchiveWithIndex sampleEnv (some sampleTree) .outside
                (Sum256 sampleEnv (stringBytes "pw"))).archive
              files (fun _ => true) (Sum256 sampleEnv (stringBytes "pw")) freshState).2.fs f.path
              = some (.file f.content))) ∧
    (validKey (List.replicate 32 0) ∧
      (some ["sub", "long"]).bind sampleTree.lookup
        = some (.file [1, 2, 3, 4, 5, 6, 7, 8, 9, 10, 11, 12, 13, 14, 15, 16, 17] 9) ∧
      (encryptFileToWriter sampleEnv sampleTree (some ["sub", "long"]) []
          (List.replicate 32 0) 0).1 = none ∧
      decryptFromReaderWithKey sampleEnv
        (encryptFileToWriter sampleEnv sampleTree (some ["sub", "long"]) []
          (List.replicate 32 0) 0).2.1 none (List.replicate 32 0)
        = (none, [1, 2, 3, 4, 5, 6, 7, 8, 9, 10, 11, 12, 13, 14, 15, 16, 17])) :=
  ⟨⟨by decide, by decide, fun f _ => admits_emptyFS f.path, fun _ _ => rfl,
      (roundtrip_build_decrypt sampleEnv).1 sampleChildren "pw" (fun _ => true) freshState
        (by decide) (by decide) (fun f _ => admits_emptyFS f.path) (fun _ _ => rfl)⟩,
    ⟨by decide, rfl,
      (roundtrip_build_decrypt sampleEnv).2 sampleTree (some ["sub", "long"])
        [1, 2, 3, 4, 5, 6, 7, 8, 9, 10, 11, 12, 13, 14, 15, 16, 17] 9 (List.replicate 32 0) 0
        (by decide) rfl⟩⟩

theorem encryptEntries_extends (env : Env) (src : Node) (key : Bytes) :
    ∀ (entries : List FileIndexEntry) (zipWriter : ZipArchive) (pos : Nat),
      ∃ extra, (encryptEntries env src key entries zipWriter pos).2 = zipWriter ++ extra := by
  intro entries
  induction entries with
  | nil => intro zw pos; exact ⟨[], by simp [encryptEntries]⟩
  | cons e rest ih =>
    intro zw pos
    simp only [encryptEntries, addEncryptedFileToArchive]
    split
    · exact ⟨_, rfl⟩
    · obtain ⟨extra, h⟩ := ih (zw ++ [⟨e.ZipName,
          (encryptFileToWriter env src (joinElems e.RelativePath) [] key pos).2.1.length, none,
          (encryptFileToWriter env src (joinElems e.RelativePath) [] key pos).2.1, none⟩])
        (encryptFileToWriter env src (joinElems e.RelativePath) [] key pos).2.2
      exact ⟨_, by rw [h, List.append_assoc]⟩

theorem build_head (env : Env) (srcDir : Option Node) (archivePath : ArchiveLoc) (root : Node)
    (key : Bytes) (hcreate : createArchiveFile env srcDir archivePath = .ok (some root)) :
    ∃ rest, (CreateEncryptedArchiveWithIndex env srcDir archivePath key).archive
      = some (expectedIndexEntry env root :: rest) := by
  obtain ⟨total, hwalk⟩ := walk_collect root [] ([], 0)
  simp only [List.nil_append] at hwalk
  obtain ⟨extra, h⟩ := encryptEntries_extends env root key
    ((regularFiles root).map expectedEntry) [expectedIndexEntry env root] 0
  refine ⟨extra, ?_⟩
  simp only [CreateEncryptedArchiveWithIndex, hcreate, Walk, hwalk, addIndexToArchive,
    List.nil_append]
  simp only [regularFiles, expectedIndexEntry, expectedIndex] at h ⊢
  rw [h]
  rfl

theorem relPaths_nodup (root : Node) (hwf : root.wellFormed = true) :
    ((regularFiles root).map (fun f => relSlash f.path)).Nodup := by
  have hap := regularFilesAt_apart root [] hwf
  have hval := regularFiles_valid root hwf
  rw [List.Nodup, List.pairwise_map]
  refine List.Pairwise.imp_of_mem ?_ hap
  intro f g hf hg hfg e
  exact apart_ne_path hfg (relSlash_injective (hval f hf) (hval g hg) e)

/-- C2, counterexample.  For the source directory that holds `b.txt` and a file
whose name starts with the byte 0xFF the build returns no error, yet the
listing does not return the relative path of that file: the index, written by
`encoding/json`, holds U+FFFD in place of the byte, in `RelativePath` and in
`ZipName`. -/
theorem index_coerces_raw_name :
    rawTree.wellFormed = true ∧
    (regularFiles rawTree).map (fun f => relSlash f.path) = ["b.txt", rawName] ∧
    (CreateEncryptedArchiveWithIndex coercingEnv (some rawTree) .outside
      (List.replicate 32 0)).err = none ∧
    ListEncryptedFilesFromIndex coercingEnv
      (CreateEncryptedArchiveWithIndex coercingEnv (some rawTree) .outside
        (List.replicate 32 0)).archive
      = .ok [⟨"b.txt", 1, 6, "b.txt.enc"⟩, ⟨coercedName, 2, 5, coercedName ++ ".enc"⟩] ∧
    ListEncryptedFilesFromIndex coercingEnv
      (CreateEncryptedArchiveWithIndex coercingEnv (some rawTree) .outside
        (List.replicate 32 0)).archive
      ≠ .ok ((regularFiles rawTree).map (fun f =>
          ⟨relSlash f.path, f.content.length, f.modTime, relSlash f.path ++ ".enc"⟩)) := by
  decide

/-- C2, amended.  Index fidelity.  For a source tree of directories and regular
files, an archive path outside the tree and an index that the JSON decoder
reads back as it was written: `ListEncryptedFilesFromIndex` on the container
that `CreateEncryptedArchiveWithIndex` wrote returns one entry per regular file
of the tree and none for directories, in walk order: `RelativePath` is the
slash separated path below the root, `OriginalSize` the byte length, `ModTime`
the modification time and `ZipName` the relative path followed by `.enc`.  The
first entry of the container is `index.json` and stores an index of version
`"1.0"` with these entries.  In a well formed tree the enumerated records are
exactly the regular files (a record is listed if and only if the tree holds
that file at that path), no relative path is listed twice, and with a key of
AES length the build returns no error. -/
theorem index_fidelity (env : Env) (root : Node) (key : Bytes)
    (hjson : env.jsonDecode (env.jsonEncode (expectedIndex env root))
      = .ok (expectedIndex env root)) :
    ListEncryptedFilesFromIndex env
        (CreateEncryptedArchiveWithIndex env (some root) .outside key).archive
      = .ok ((regularFiles root).map (fun f =>
          ⟨relSlash f.path, f.content.length, f.modTime, relSlash f.path ++ ".enc"⟩)) ∧
    (∃ (indexFile : ZipFile) (rest : ZipArchive) (index : ArchiveIndex),
      (CreateEncryptedArchiveWithIndex env (some root) .outside key).archive
        = some (indexFile :: rest) ∧
      indexFile.Name = "index.json" ∧ indexFile.data = env.jsonEncode index ∧
      index.Version = "1.0" ∧
      index.Files = (regularFiles root).map (fun f =>
          ⟨relSlash f.path, f.content.length, f.modTime, relSlash f.path ++ ".enc"⟩)) ∧
    (root.wellFormed = true →
      (∀ f : SourceFile, f ∈ regularFiles root ↔
        root.lookup f.path = some (.file f.content f.modTime)) ∧
      ((regularFiles root).map (fun f => relSlash f.path)).Nodup ∧
      (validKey key →
        (CreateEncryptedArchiveWithIndex env (some root) .outside key).err = none)) := by
  obtain ⟨rest, h⟩ := build_head env (some root) .outside root key rfl
  rw [h]
  refine ⟨list_builtArchive env root rest hjson,
    ⟨expectedIndexEntry env root, rest, expectedIndex env root, rfl, rfl, rfl, rfl, rfl⟩,
    fun hwf => ⟨mem_regularFiles_iff root hwf, relPaths_nodup root hwf, fun hk => ?_⟩⟩
  rw [build_outside env root key hwf hk]

/-- Witness for C2, amended: the example tree. -/
theorem index_fidelity_witness :
    sampleEnv.jsonDecode (sampleEnv.jsonEncode (expectedIndex sampleEnv sampleTree))
        = .ok (expectedIndex sampleEnv sampleTree) ∧
    sampleTree.wellFormed = true ∧
    validKey (List.replicate 32 0) ∧
    ListEncryptedFilesFromIndex sampleEnv
        (CreateEncryptedArchiveWithIndex sampleEnv (some sampleTree) .outside
          (List.replicate 32 0)).archive
      = .ok [⟨"a.txt", 2, 5, "a.txt.enc"⟩, ⟨"empty", 0, 6, "empty.enc"⟩,
          ⟨"one", 1, 7, "one.enc"⟩, ⟨"sub/b.txt", 5, 8, "sub/b.txt.enc"⟩,
          ⟨"sub/long", 17, 9, "sub/long.enc"⟩] ∧
    ((regularFiles sampleTree).map (fun f => relSlash f.path)).Nodup ∧
    (CreateEncryptedArchiveWithIndex sampleEnv (some sampleTree) .outside
      (List.replicate 32 0)).err = none :=
  ⟨by decide, by decide, by decide,
    (index_fidelity sampleEnv sampleTree (List.replicate 32 0) (by decide)).1.trans (by decide),
    ((index_fidelity sampleEnv sampleTree (List.replicate 32 0) (by decide)).2.2
      (by decide)).2.1,
    ((index_fidelity sampleEnv sampleTree (List.replicate 32 0) (by decide)).2.2
      (by decide)).2.2 (by decide)⟩

/-- C4. Payload layout.  For every plaintext file of `n` bytes and key of AES
length, the payload that `encryptFileToWriter` writes is `16 + n` bytes long:
its first 16 bytes are the IV drawn from the random stream, and the remaining
`n` bytes are what the CFB encrypter initialised with the AES block function of
the key and that same IV produces from the plaintext, which is the textbook
CFB ciphertext (each block is the plaintext block XOR the encryption of the
previous ciphertext block, the IV first); nothing is padded. -/
theorem payload_layout (env : Env) (src : Node) (inputPath : Option (List String))
    (content : Bytes) (modTime : Time) (key : Bytes) (pos : Nat) (hk : validKey key)
    (hin : inputPath.bind src.lookup = some (.file content modTime)) :
    (encryptFileToWriter env src inputPath [] key pos).1 = none ∧
    (encryptFileToWriter env src inputPath [] key pos).2.1.length = 16 + content.length ∧
    (encryptFileToWriter env src inputPath [] key pos).2.1.take 16 = randomIV env pos ∧
    (randomIV env pos).length = 16 ∧
    (encryptFileToWriter env src inputPath [] key pos).2.1.drop 16
      = ((NewCFBEncrypter (aesBlock env key) (randomIV env pos)).XORKeyStream content).2 ∧
    (encryptFileToWriter env src inputPath [] key pos).2.1.drop 16
      = cfbReference (aesBlock env key) content.length (randomIV env pos) content ∧
    ((encryptFileToWriter env src inputPath [] key pos).2.1.drop 16).length = content.length := by
  rw [encryptFileToWriter_ok env src inputPath [] key pos content modTime hk hin]
  have hiv : (randomIV env pos).length = 16 := randomIV_length env pos
  have hlen := expectedPayload_length env key pos content
  simp only [BlockSize] at hlen
  have href := cfbEncrypt_eq_reference (aesBlock env key)
    (fun x => fitBytes_length BlockSize _) (randomIV env pos) content (randomIV_length env pos)
  refine ⟨rfl, by simpa using hlen, ?_, hiv, ?_, ?_, ?_⟩
  · simp [expectedPayload, List.take_append_of_le_length, hiv]
  · simp [expectedPayload, List.drop_append_of_le_length, hiv, cfbEncrypt]
  · rw [← href]
    simp [expectedPayload, List.drop_append_of_le_length, hiv]
  · simp [expectedPayload, List.drop_append_of_le_length, hiv, cfbEncrypt, XORKeyStream_length]

/-- Witness for C4: the 17-byte file of the example tree. -/
theorem payload_layout_witness :
    validKey (List.replicate 32 0) ∧
    (some ["sub", "long"]).bind sampleTree.lookup
      = some (.file [1, 2, 3, 4, 5, 6, 7, 8, 9, 10, 11, 12, 13, 14, 15, 16, 17] 9) ∧
    (encryptFileToWriter sampleEnv sampleTree (some ["sub", "long"]) []
      (List.replicate 32 0) 0).2.1.length = 16 + 17 ∧
    (encryptFileToWriter sampleEnv sampleTree (some ["sub", "long"]) []
      (List.replicate 32 0) 0).2.1.take 16 = randomIV sampleEnv 0 :=
  ⟨by decide, rfl,
    (payload_layout sampleEnv sampleTree (some ["sub", "long"])
      [1, 2, 3, 4, 5, 6, 7, 8, 9, 10, 11, 12, 13, 14, 15, 16, 17] 9 (List.replicate 32 0) 0
      (by decide) rfl).2.1,
    (payload_layout sampleEnv sampleTree (some ["sub", "long"])
      [1, 2, 3, 4, 5, 6, 7, 8, 9, 10, 11, 12, 13, 14, 15, 16, 17] 9 (List.replicate 32 0) 0
      (by decide) rfl).2.2.1⟩

/-- C5, counterexample.  A container without `index.json` fails with "no index
file found", a container whose `index.json` cannot be decoded fails with the
decoder's error, which is a different error, and a file that cannot be opened as
a zip archive fails with the I/O error of `zip.OpenReader`. -/
theorem index_errors_differ :
    ListEncryptedFilesFromIndex sampleEnv (some []) = .error .noIndexFile ∧
    ListEncryptedFilesFromIndex sampleEnv (some [⟨"index.json", 1, none, [0], none⟩])
      = .error (.json "unexpected end of JSON input") ∧
    ListEncryptedFilesFromIndex sampleEnv (some [⟨"index.json", 1, none, [0], none⟩])
      ≠ ListEncryptedFilesFromIndex sampleEnv (some []) ∧
    ListEncryptedFilesFromIndex sampleEnv none
      = .error (.os "zip.OpenReader" "cannot open archive") := by
  decide

/-- C5, amended.  `ListEncryptedFilesFromIndex` fails in both cases, with two
different errors: "no index file found" when no entry is named exactly
`index.json`, the decoder's own error when the content of the first such entry
cannot be decoded.  It passes on the error of `zip.OpenReader` and of opening
the entry, and it succeeds exactly when the entry is found, opens and decodes. -/
theorem index_listing_errors (env : Env) (reader : ZipArchive) :
    (reader.find? (fun f => f.Name = "index.json") = none →
      ListEncryptedFilesFromIndex env (some reader) = .error .noIndexFile) ∧
    (∀ indexFile msg, reader.find? (fun f => f.Name = "index.json") = some indexFile →
      indexFile.openErr = none → env.jsonDecode indexFile.data = .error msg →
      ListEncryptedFilesFromIndex env (some reader) = .error (.json msg)) ∧
    (∀ msg, Error.json msg ≠ Error.noIndexFile) ∧
    (∀ indexFile e, reader.find? (fun f => f.Name = "index.json") = some indexFile →
      indexFile.openErr = some e → ListEncryptedFilesFromIndex env (some reader) = .error e) ∧
    (∃ e, ListEncryptedFilesFromIndex env none = .error e) ∧
    (∀ files, ListEncryptedFilesFromIndex env (some reader) = .ok files ↔
      ∃ indexFile index, reader.find? (fun f => f.Name = "index.json") = some indexFile ∧
        indexFile.openErr = none ∧ env.jsonDecode indexFile.data = .ok index ∧
        index.Files = files) := by
  refine ⟨?_, ?_, ?_, ?_, ?_, ?_⟩
  · intro h; simp [ListEncryptedFilesFromIndex, zipOpenReader, h]
  · intro z msg h ho hd; simp [ListEncryptedFilesFromIndex, zipOpenReader, h, ho, hd]
  · intro msg h; cases h
  · intro z e h ho; simp [ListEncryptedFilesFromIndex, zipOpenReader, h, ho]
  · exact ⟨_, rfl⟩
  · intro files
    simp only [ListEncryptedFilesFromIndex, zipOpenReader]
    cases hfind : reader.find? (fun f => f.Name = "index.json") with
    | none => simp
    | some z =>
      cases ho : z.openErr with
      | some e => simp [ho]
      | none =>
        cases hd : env.jsonDecode z.data with
        | error msg => simp [ho, hd]
        | ok index => simp [ho, hd]

/-- Witness for C5, amended: an empty container and a container with an
undecodable `index.json`. -/
theorem index_listing_errors_witness :
    (([] : ZipArchive).find? (fun f => f.Name = "index.json") = none ∧
      ListEncryptedFilesFromIndex sampleEnv (some []) = .error .noIndexFile) ∧
    (([⟨"index.json", 1, none, [0], none⟩] : ZipArchive).find? (fun f => f.Name = "index.json")
        = some ⟨"index.json", 1, none, [0], none⟩ ∧
      sampleEnv.jsonDecode [0] = .error "unexpected end of JSON input" ∧
      ListEncryptedFilesFromIndex sampleEnv (some [⟨"index.json", 1, none, [0], none⟩])
        = .error (.json "unexpected end of JSON input")) :=
  ⟨⟨rfl, (index_listing_errors sampleEnv []).1 rfl⟩,
    ⟨rfl, by decide,
      (index_listing_errors sampleEnv [⟨"index.json", 1, none, [0], none⟩]).2.1
        ⟨"index.json", 1, none, [0], none⟩ "unexpected end of JSON input" rfl rfl (by decide)⟩⟩

theorem apart_irrefl (f : SourceFile) : ¬ apart f f :=
  fun h => h.1 (List.prefix_refl _)

theorem nodup_of_apart {L : List SourceFile} (h : L.Pairwise apart) : L.Nodup := by
  refine List.Pairwise.imp ?_ h
  intro f g hfg e
  exact apart_irrefl f (e ▸ hfg)

theorem filter_failures_single (g : SourceFile → Report) (d : SourceFile) :
    ∀ (L : List SourceFile), L.Nodup → d ∈ L → (g d).isFailure = true →
      (∀ f ∈ L, f ≠ d → (g f).isFailure = false) →
      (L.map g).filter Report.isFailure = [g d] := by
  intro L
  induction L with
  | nil => intro _ hd; cases hd
  | cons x rest ih =>
    intro hnd hd hfail hother
    rw [List.nodup_cons] at hnd
    by_cases hx : x = d
    · subst hx
      have hrest : (rest.map g).filter Report.isFailure = [] := by
        rw [List.filter_eq_nil_iff]
        intro r hr
        obtain ⟨f, hf, hfr⟩ := List.mem_map.mp hr
        have hne : f ≠ x := fun e => hnd.1 (e ▸ hf)
        rw [← hfr, hother f (List.mem_cons_of_mem _ hf) hne]
        simp
      simp [List.filter_cons, hfail, hrest]
    · have hdr : d ∈ rest := by
        rcases List.mem_cons.mp hd with h | h
        · exact absurd h.symm hx
        · exact h
      have := ih hnd.2 hdr hfail (fun f hf => hother f (List.mem_cons_of_mem _ hf))
      simp [List.filter_cons, hother x (by simp) hx, this]

/-- C7, counterexample.  Build the container of the source directory that holds
`b.txt` and a file whose name starts with the byte 0xFF, delete the entry
`b.txt.enc`, list the index and decrypt every listed entry: two failures are
reported, not one.  The deleted entry is not found, and the other entry is not
found either, because the index holds U+FFFD where the container name has the
byte. -/
theorem two_failures_raw_name :
    rawTree.wellFormed = true ∧
    (CreateEncryptedArchiveWithIndex coercingEnv (some rawTree) .outside
      (List.replicate 32 0)).err = none ∧
    ((CreateEncryptedArchiveWithIndex coercingEnv (some rawTree) .outside
      (List.replicate 32 0)).archive.map
        (fun z => z.filter (fun f => f.Name ≠ "b.txt.enc"))).map (fun z => z.map (fun f => f.Name))
      = some ["index.json", rawName ++ ".enc"] ∧
    ListEncryptedFilesFromIndex coercingEnv
      ((CreateEncryptedArchiveWithIndex coercingEnv (some rawTree) .outside
        (List.replicate 32 0)).archive.map (fun z => z.filter (fun f => f.Name ≠ "b.txt.enc")))
      = .ok [⟨"b.txt", 1, 6, "b.txt.enc"⟩, ⟨coercedName, 2, 5, coercedName ++ ".enc"⟩] ∧
    (DecryptSelectedFilesFromArchive coercingEnv
      ((CreateEncryptedArchiveWithIndex coercingEnv (some rawTree) .outside
        (List.replicate 32 0)).archive.map (fun z => z.filter (fun f => f.Name ≠ "b.txt.enc")))
      [⟨"b.txt", 1, 6, "b.txt.enc"⟩, ⟨coercedName, 2, 5, coercedName ++ ".enc"⟩]
      (fun _ => true) (List.replicate 32 0) freshState).1 = none ∧
    (DecryptSelectedFilesFromArchive coercingEnv
      ((CreateEncryptedArchiveWithIndex coercingEnv (some rawTree) .outside
        (List.replicate 32 0)).archive.map (fun z => z.filter (fun f => f.Name ≠ "b.txt.enc")))
      [⟨"b.txt", 1, 6, "b.txt.enc"⟩, ⟨coercedName, 2, 5, coercedName ++ ".enc"⟩]
      (fun _ => true) (List.replicate 32 0) freshState).2.stdout
      = [.failed "b.txt" .fileNotFound, .failed coercedName .fileNotFound] := by
  decide

/-- C7, amended.  Partial-failure tolerance.  Take the container built, outside the
tree, with a key of AES length, from a well formed directory tree whose index
the JSON decoder reads back as it was written, delete the `.enc` entry of one file
`d`, and decrypt, with the index listed from the damaged container, any
selection that includes `d` into a working directory that admits the output
paths.  The call returns no error;
the loop prints one line per selected entry in index order, a failure "file not
found in archive" for `d` and a success for every other entry, so exactly one
failure is reported; every other selected file ends with its original bytes and
nothing is written at the path of `d`. -/
theorem one_missing_entry (env : Env) (children : List (String × Node)) (key : Bytes)
    (d : SourceFile) (selectedMap : String → Bool) (st : DecState)
    (hwf : (Node.dir children).wellFormed = true) (hk : validKey key)
    (hjson : env.jsonDecode (env.jsonEncode (expectedIndex env (.dir children)))
      = .ok (expectedIndex env (.dir children)))
    (hd : d ∈ regularFiles (.dir children)) (hsel : selectedMap (relSlash d.path) = true)
    (hadm : ∀ f ∈ regularFiles (.dir children), st.fs.admits f.path) :
    ∃ (built : ZipArchive) (files : List FileIndexEntry),
      (CreateEncryptedArchiveWithIndex env (some (.dir children)) .outside key).archive
        = some built ∧
      (∃ z ∈ built, z.Name = relSlash d.path ++ ".enc") ∧
      ListEncryptedFilesFromIndex env
        (some (built.filter (fun z => z.Name ≠ relSlash d.path ++ ".enc"))) = .ok files ∧
      (DecryptSelectedFilesFromArchive env
        (some (built.filter (fun z => z.Name ≠ relSlash d.path ++ ".enc")))
        files selectedMap key st).1 = none ∧
      (DecryptSelectedFilesFromArchive env
        (some (built.filter (fun z => z.Name ≠ relSlash d.path ++ ".enc")))
        files selectedMap key st).2.stdout
        = st.stdout ++ ((regularFiles (.dir children)).filter
            (fun f => selectedMap (relSlash f.path))).map
          (fun f => if f = d then Report.failed (relSlash f.path) .fileNotFound
            else Report.decrypted (relSlash f.path)) ∧
      (((regularFiles (.dir children)).filter (fun f => selectedMap (relSlash f.path))).map
          (fun f => if f = d then Report.failed (relSlash f.path) .fileNotFound
            else Report.decrypted (relSlash f.path))).filter Report.isFailure
        = [Report.failed (relSlash d.path) .fileNotFound] ∧
      (∀ f ∈ regularFiles (.dir children), selectedMap (relSlash f.path) = true → f ≠ d →
        (DecryptSelectedFilesFromArchive env
          (some (built.filter (fun z => z.Name ≠ relSlash d.path ++ ".enc")))
          files selectedMap key st).2.fs f.path = some (.file f.content)) ∧
      (DecryptSelectedFilesFromArchive env
        (some (built.filter (fun z => z.Name ≠ relSlash d.path ++ ".enc")))
        files selectedMap key st).2.fs d.path = st.fs d.path := by
  have hap := regularFilesAt_apart (.dir children) [] hwf
  have hval := regularFiles_valid (.dir children) hwf
  have hne0 := regularFiles_dir_ne_nil children hwf
  rw [build_outside env (.dir children) key hwf hk]
  -- the damaged container keeps the index and every other entry
  have hnameD : (expectedEntry d).ZipName = relSlash d.path ++ ".enc" := rfl
  have hdamaged : (expectedIndexEntry env (.dir children)
        :: expectedZipEntries env key 0 (regularFiles (.dir children))).filter
          (fun z => z.Name ≠ relSlash d.path ++ ".enc")
      = expectedIndexEntry env (.dir children)
        :: (expectedZipEntries env key 0 (regularFiles (.dir children))).filter
          (fun z => z.Name ≠ relSlash d.path ++ ".enc") := by
    have : (expectedIndexEntry env (.dir children)).Name ≠ relSlash d.path ++ ".enc" :=
      fun e => index_json_ne_enc _ e.symm
    simp [List.filter_cons, this]
  have hpath_ne : ∀ f ∈ regularFiles (.dir children), f ≠ d →
      (expectedEntry f).ZipName ≠ relSlash d.path ++ ".enc" := by
    intro f hf hfd e
    have hp := zipName_injective (hval f hf) (hval d hd) e
    exact apart_ne_path (hap.forall (fun _ _ hab => ⟨hab.2, hab.1⟩) hf hd hfd) hp
  have hout : ∀ f ∈ regularFiles (.dir children),
      outcomeIn env ((builtArchive env (.dir children) key).filter
          (fun z => z.Name ≠ relSlash d.path ++ ".enc")) key (expectedEntry f).ZipName
        = if f = d then none else some (none, f.content) := by
    intro f hf
    by_cases hfd : f = d
    · subst hfd
      simp only [outcomeIn, find_filter_ne, hnameD, if_true]
    · have h1 := outcome_builtArchive env (.dir children) key hwf hk f hf
      simp only [outcomeIn, find_filter_ne, hpath_ne f hf hfd, if_false, hfd] at h1 ⊢
      exact h1
  set L := (regularFiles (.dir children)).filter (fun f => selectedMap (relSlash f.path))
    with hL
  have hLsub : ∀ f ∈ L, f ∈ regularFiles (.dir children) := fun f hf => (List.mem_filter.mp hf).1
  have hfold := decrypt_fold env ((builtArchive env (.dir children) key).filter
      (fun z => z.Name ≠ relSlash d.path ++ ".enc")) key L st
    (hap.sublist (List.filter_sublist _))
    (fun g hg => ⟨hne0 g (hLsub g hg), hval g (hLsub g hg)⟩)
    (fun g hg => hadm g (hLsub g hg)) ?_
  swap
  · intro g hg e he
    rw [find_filter_ne] at he
    split at he
    · cases he
    · obtain ⟨pos, h⟩ := find_builtArchive env _ key hwf g (hLsub g hg)
      rw [h] at he
      cases he
      rfl
  obtain ⟨h1, h2, _, _, h4⟩ := hfold
  have hdL : d ∈ L := List.mem_filter.mpr ⟨hd, by simpa using hsel⟩
  have hreports : L.map (fun f => reportOf f (outcomeIn env
        ((builtArchive env (.dir children) key).filter
          (fun z => z.Name ≠ relSlash d.path ++ ".enc")) key (expectedEntry f).ZipName))
      = L.map (fun f => if f = d then Report.failed (relSlash f.path) .fileNotFound
          else Report.decrypted (relSlash f.path)) := by
    apply List.map_congr_left
    intro f hf
    rw [hout f (hLsub f hf)]
    by_cases hfd : f = d
    · simp [hfd, reportOf]
    · simp [hfd, reportOf]
  refine ⟨_, (regularFiles (.dir children)).map expectedEntry, rfl, ?_, ?_, rfl, ?_, ?_, ?_, ?_⟩
  · obtain ⟨pos, h⟩ := find_builtArchive env _ key hwf d hd
    exact ⟨_, List.mem_of_find?_eq_some h, rfl⟩
  · rw [hdamaged]; exact list_builtArchive env _ _ hjson
  · simp only [DecryptSelectedFilesFromArchive, zipOpenReader, filter_selected]
    rw [← hreports]
    exact h4
  · have := filter_failures_single
      (fun f => if f = d then Report.failed (relSlash f.path) .fileNotFound
          else Report.decrypted (relSlash f.path)) d L
      (nodup_of_apart (hap.sublist (List.filter_sublist _))) hdL (by simp [Report.isFailure])
      (fun f _ hfd => by simp [hfd, Report.isFailure])
    simpa using this
  · intro f hf hfsel hfd
    simp only [DecryptSelectedFilesFromArchive, zipOpenReader, filter_selected]
    have hfL : f ∈ L := List.mem_filter.mpr ⟨hf, by simpa using hfsel⟩
    exact h1 f hfL (none, f.content) (by rw [hout f hf]; simp [hfd])
  · simp only [DecryptSelectedFilesFromArchive, zipOpenReader, filter_selected]
    apply h2
    right
    intro f hf hfound hpre
    have hfd : f ≠ d := by
      intro e
      rw [hout f (hLsub f hf)] at hfound
      simp [e] at hfound
    exact (hap.forall (fun _ _ hab => ⟨hab.2, hab.1⟩) hd (hLsub f hf) (Ne.symm hfd)).1 hpre

/-- Witness for C7: the example tree with the entry of `one` deleted, everything selected. -/
theorem one_missing_entry_witness :
    sampleTree.wellFormed = true ∧ validKey (List.replicate 32 0) ∧
    sampleEnv.jsonDecode (sampleEnv.jsonEncode (expectedIndex sampleEnv sampleTree))
      = .ok (expectedIndex sampleEnv sampleTree) ∧
    (⟨["one"], [7], 7⟩ : SourceFile) ∈ regularFiles sampleTree ∧
    (∀ f ∈ regularFiles sampleTree, freshState.fs.admits f.path) ∧
    ∃ (built : ZipArchive) (files : List FileIndexEntry),
      (CreateEncryptedArchiveWithIndex sampleEnv (some sampleTree) .outside
        (List.replicate 32 0)).archive = some built ∧
      ListEncryptedFilesFromIndex sampleEnv
        (some (built.filter (fun z => z.Name ≠ "one.enc"))) = .ok files ∧
      (DecryptSelectedFilesFromArchive sampleEnv
        (some (built.filter (fun z => z.Name ≠ "one.enc")))
        files (fun _ => true) (List.replicate 32 0) freshState).1 = none ∧
      (DecryptSelectedFilesFromArchive sampleEnv
        (some (built.filter (fun z => z.Name ≠ "one.enc")))
        files (fun _ => true) (List.replicate 32 0) freshState).2.fs ["one"] = none :=
  ⟨by decide, by decide, by decide, by decide, fun f _ => admits_emptyFS f.path,
    match one_missing_entry sampleEnv sampleChildren (List.replicate 32 0) ⟨["one"], [7], 7⟩
      (fun _ => true) freshState (by decide) (by decide) (by decide) (by decide) rfl
      (fun f _ => admits_emptyFS f.path) with
    | ⟨built, files, h1, _, h3, h4, _, _, _, h8⟩ => ⟨built, files, h1, h3, h4, h8⟩⟩

/-- C8, counterexample.  When the container cannot be opened, the call returns
the error of `zip.OpenReader` for the whole batch. -/
theorem decrypt_unopenable_fails :
    (DecryptSelectedFilesFromArchive sampleEnv none [] (fun _ => false)
      (List.replicate 32 0) freshState).1
      = some (.os "zip.OpenReader" "cannot open archive") := by
  decide

/-- C8, amended.  Once the container is open, `DecryptSelectedFilesFromArchive`
returns no error for the whole batch, whatever the index, the selection and the
key; failures are reported per entry.  With a selection that holds no entry of
the index the state is unchanged: no file is written, no path is registered,
nothing is printed.  When the container cannot be opened the call returns that
error and leaves the state unchanged. -/
theorem decrypt_batch_result (env : Env) (reader : ZipArchive) (files : List FileIndexEntry)
    (selectedMap : String → Bool) (key : Bytes) (st : DecState) :
    (DecryptSelectedFilesFromArchive env (some reader) files selectedMap key st).1 = none ∧
    ((∀ file ∈ files, selectedMap file.RelativePath = false) →
      (DecryptSelectedFilesFromArchive env (some reader) files selectedMap key st).2 = st) ∧
    (DecryptSelectedFilesFromArchive env (some reader) files (fun _ => false) key st).2 = st ∧
    (∃ e, DecryptSelectedFilesFromArchive env none files selectedMap key st = (some e, st)) := by
  refine ⟨rfl, ?_, ?_, ⟨_, rfl⟩⟩
  · intro h
    have : files.filter (fun file => selectedMap file.RelativePath) = [] := by
      rw [List.filter_eq_nil_iff]
      intro f hf
      simp [h f hf]
    simp [DecryptSelectedFilesFromArchive, zipOpenReader, this]
  · simp [DecryptSelectedFilesFromArchive, zipOpenReader]

/-- Witness for C8, amended: the built example container and a selection that
names a path outside the index. -/
theorem decrypt_batch_result_witness :
    (∀ file ∈ (regularFiles sampleTree).map expectedEntry,
      (fun p => decide (p = "absent")) file.RelativePath = false) ∧
    (DecryptSelectedFilesFromArchive sampleEnv (some (builtArchive sampleEnv sampleTree
      (List.replicate 32 0))) ((regularFiles sampleTree).map expectedEntry)
      (fun p => decide (p = "absent")) (List.replicate 32 0) freshState).2 = freshState :=
  ⟨by decide,
    (decrypt_batch_result sampleEnv (builtArchive sampleEnv sampleTree (List.replicate 32 0))
      ((regularFiles sampleTree).map expectedEntry) (fun p => decide (p = "absent"))
      (List.replicate 32 0) freshState).2.1 (by decide)⟩

theorem decrypt_short (env : Env) (data : Bytes) (readErr : Option Error) (key : Bytes)
    (hk : validKey key) (hlen : data.length < 16) :
    decryptFromReaderWithKey env data readErr key = (some .readIV, []) := by
  simp [decryptFromReaderWithKey, NewCipher_ok env key hk, BlockSize, hlen]

/-- C11. Short payloads are the only failure.  For every 32-byte key and every
payload read to its end without a read error, `decryptFromReaderWithKey` fails
if and only if the payload has fewer than 16 bytes, and then with the error
"failed to read IV: likely corrupted file or wrong password" and nothing
written; the batch still returns no error.  A payload of 16 + n bytes succeeds
under every 32-byte key and writes exactly n bytes; in particular a payload
encrypted under one key decrypts without error under any other 32-byte key, so
a wrong password is not detected. -/
theorem decrypt_fails_iff_short (env : Env) (key data : Bytes) (hk : key.length = 32) :
    ((decryptFromReaderWithKey env data none key).1 ≠ none ↔ data.length < 16) ∧
    (data.length < 16 → decryptFromReaderWithKey env data none key = (some .readIV, [])) ∧
    (16 ≤ data.length →
      (decryptFromReaderWithKey env data none key).1 = none ∧
      (decryptFromReaderWithKey env data none key).2.length = data.length - 16) ∧
    (∀ n : Nat, data.length = 16 + n →
      (decryptFromReaderWithKey env data none key).1 = none ∧
      (decryptFromReaderWithKey env data none key).2.length = n) ∧
    (∀ (otherKey content : Bytes) (pos : Nat), validKey otherKey →
      (decryptFromReaderWithKey env (expectedPayload env otherKey pos content) none key).1
        = none ∧
      (decryptFromReaderWithKey env (expectedPayload env otherKey pos content) none key).2.length
        = content.length) ∧
    (∀ (reader : ZipArchive) (files : List FileIndexEntry) (selectedMap : String → Bool)
        (st : DecState),
      (DecryptSelectedFilesFromArchive env (some reader) files selectedMap key st).1 = none) := by
  have hvk : validKey key := Or.inr (Or.inr hk)
  have hlong : ∀ d : Bytes, 16 ≤ d.length →
      (decryptFromReaderWithKey env d none key).1 = none ∧
      (decryptFromReaderWithKey env d none key).2.length = d.length - 16 := by
    intro d hd
    have hnl : ¬ d.length < 16 := by omega
    simp [decryptFromReaderWithKey, NewCipher_ok env key hvk, hnl, ioCopyStream_eq,
      XORKeyStream_length, BlockSize]
  refine ⟨?_, decrypt_short env data none key hvk, hlong data, ?_, ?_, fun _ _ _ _ => rfl⟩
  · constructor
    · intro h
      by_contra hn
      exact h (hlong data (by omega)).1
    · intro h
      rw [decrypt_short env data none key hvk h]
      simp
  · intro n hn
    have h1 := hlong data (by omega)
    exact ⟨h1.1, by rw [h1.2]; omega⟩
  · intro otherKey content pos _
    have hlen := expectedPayload_length env otherKey pos content
    have h1 := hlong (expectedPayload env otherKey pos content)
      (by rw [hlen]; unfold BlockSize; omega)
    exact ⟨h1.1, by rw [h1.2, hlen]; unfold BlockSize; omega⟩

/-- Witness for C11: a 3-byte payload fails, and the 17-byte example file
encrypted under the zero key decrypts without error under a key of ones. -/
theorem decrypt_fails_iff_short_witness :
    (List.replicate 32 1 : Bytes).length = 32 ∧
    decryptFromReaderWithKey sampleEnv [1, 2, 3] none (List.replicate 32 1)
      = (some .readIV, []) ∧
    validKey (List.replicate 32 0) ∧
    (decryptFromReaderWithKey sampleEnv (expectedPayload sampleEnv (List.replicate 32 0) 0
      [1, 2, 3, 4, 5, 6, 7, 8, 9, 10, 11, 12, 13, 14, 15, 16, 17]) none
      (List.replicate 32 1)).1 = none :=
  ⟨by decide,
    (decrypt_fails_iff_short sampleEnv (List.replicate 32 1) [1, 2, 3] (by decide)).2.1
      (by decide),
    by decide,
    ((decrypt_fails_iff_short sampleEnv (List.replicate 32 1) [] (by decide)).2.2.2.2.1
      (List.replicate 32 0) [1, 2, 3, 4, 5, 6, 7, 8, 9, 10, 11, 12, 13, 14, 15, 16, 17] 0
      (by decide)).1⟩

theorem sum256_length (env : Env) (data : Bytes) : (Sum256 env data).length = 32 := by
  simp [Sum256, fitBytes_length]

/-- C12. Key derivation.  For every password string the bytes that are hashed
are the UTF-8 encoding of the password: for each character in turn the bytes
that RFC 3629 prescribes for its code point, one for ASCII and two to four
beyond, and none for the empty string.  The derived key is 32 bytes long, and
it is the digest that SHA-256 returns for these bytes whenever that digest has
its 32 bytes.  `RunEncrypt`, `RunDecryptInteractive` and `decryptFromReader`
all pass on this same key, and with it `aes.NewCipher` succeeds, so neither
`encryptFileToWriter` nor `decryptFromReaderWithKey` returns the key-size
error. -/
theorem key_derivation (env : Env) (password : String) :
    stringBytes password = password.data.flatMap (fun c => utf8Reference c.toNat) ∧
    (Sum256 env (stringBytes password)).length = 32 ∧
    ((env.sha256 (stringBytes password)).length = 32 →
      Sum256 env (stringBytes password) = env.sha256 (stringBytes password)) ∧
    (∀ (src : Option Node) (dst : ArchiveLoc),
      RunEncrypt env src dst password
        = CreateEncryptedArchiveWithIndex env src dst (Sum256 env (stringBytes password))) ∧
    (∀ (data : Bytes) (readErr : Option Error),
      decryptFromReader env data readErr password
        = decryptFromReaderWithKey env data readErr (Sum256 env (stringBytes password))) ∧
    (∀ (encFile : Option ZipArchive) (prompt : List String → List String) (st : DecState)
        (files : List FileIndexEntry) (options : List String),
      listArchive env encFile = .ok files → files ≠ [] →
      displayOptions files = some options → prompt options ≠ [] →
      RunDecryptInteractive env encFile password prompt st
        = (DecryptSelectedFilesFromArchive env encFile files (selectedMapOf (prompt options))
            (Sum256 env (stringBytes password)) st).2) ∧
    NewCipher env (Sum256 env (stringBytes password))
      = .ok (aesBlock env (Sum256 env (stringBytes password))) ∧
    (∀ (src : Node) (inputPath : Option (List String)) (writer : Bytes) (pos n : Nat),
      (encryptFileToWriter env src inputPath writer (Sum256 env (stringBytes password)) pos).1
        ≠ some (.keySize n)) ∧
    (∀ (data : Bytes) (readErr : Option Error) (n : Nat),
      (decryptFromReaderWithKey env data readErr (Sum256 env (stringBytes password))).1
        ≠ some (.keySize n)) := by
  have hk := validKey_Sum256 env (stringBytes password)
  have hc := NewCipher_ok env _ hk
  refine ⟨stringBytes_eq password, sum256_length env _, ?_, fun _ _ => rfl, fun _ _ => rfl,
    ?_, hc, ?_, ?_⟩
  · intro h
    exact fitBytes_of_length h
  · intro encFile prompt st files options hlist hne hopt hsel
    have h1 : ¬ files.length = 0 := fun e => hne (List.length_eq_zero.mp e)
    have h2 : ¬ (prompt options).length = 0 := fun e => hsel (List.length_eq_zero.mp e)
    simp only [RunDecryptInteractive, hlist, h1, if_false, hopt, h2]
  · intro src inputPath writer pos n
    simp only [encryptFileToWriter, hc]
    cases inputPath.bind src.lookup with
    | none => simp
    | some node => cases node <;> simp
  · intro data readErr n
    simp only [decryptFromReaderWithKey, hc]
    split
    · simp
    · cases readErr <;> simp

/-- Witness for C12: the empty password and passwords outside ASCII (two, three
and four bytes per character), with the example digest function, and an
interactive run on the built example container in which the user picks the
first option. -/
theorem key_derivation_witness :
    stringBytes "" = [] ∧
    stringBytes "pässwörd" = [112, 195, 164, 115, 115, 119, 195, 182, 114, 100] ∧
    stringBytes "€🔐" = [226, 130, 172, 240, 159, 148, 144] ∧
    (sampleEnv.sha256 (stringBytes "")).length = 32 ∧
    Sum256 sampleEnv (stringBytes "") = sampleEnv.sha256 (stringBytes "") ∧
    (sampleEnv.sha256 (stringBytes "pässwörd")).length = 32 ∧
    Sum256 sampleEnv (stringBytes "pässwörd") = sampleEnv.sha256 (stringBytes "pässwörd") ∧
    Sum256 sampleEnv (stringBytes "pässwörd") ≠ Sum256 sampleEnv (stringBytes "password") ∧
    listArchive sampleEnv (some (builtArchive sampleEnv sampleTree
        (Sum256 sampleEnv (stringBytes "pw"))))
      = .ok ((regularFiles sampleTree).map expectedEntry) ∧
    displayOptions ((regularFiles sampleTree).map expectedEntry)
      = some ["a.txt (2 B)", "empty (0 B)", "one (1 B)", "sub/b.txt (5 B)", "sub/long (17 B)"] ∧
    RunDecryptInteractive sampleEnv (some (builtArchive sampleEnv sampleTree
        (Sum256 sampleEnv (stringBytes "pw")))) "pw" (fun options => options.take 1) freshState
      = (DecryptSelectedFilesFromArchive sampleEnv (some (builtArchive sampleEnv sampleTree
          (Sum256 sampleEnv (stringBytes "pw")))) ((regularFiles sampleTree).map expectedEntry)
          (selectedMapOf ["a.txt (2 B)"]) (Sum256 sampleEnv (stringBytes "pw")) freshState).2 :=
  ⟨(key_derivation sampleEnv "").1.trans (by decide),
    (key_derivation sampleEnv "pässwörd").1.trans (by decide),
    (key_derivation sampleEnv "€🔐").1.trans (by decide),
    by decide, (key_derivation sampleEnv "").2.2.1 (by decide),
    by decide, (key_derivation sampleEnv "pässwörd").2.2.1 (by decide),
    by decide, by decide, by decide,
    (key_derivation sampleEnv "pw").2.2.2.2.2.1 _ (fun options => options.take 1) freshState
      ((regularFiles sampleTree).map expectedEntry)
      ["a.txt (2 B)", "empty (0 B)", "one (1 B)", "sub/b.txt (5 B)", "sub/long (17 B)"]
      (by decide) (by decide) (by decide) (by decide)⟩

/-- C13, the failing input.  With an empty source directory and the output file
`empty.enc` inside it, as in `TestEncryptEmptyFolder`, the build returns no
error, but the walk finds the archive file that `os.Create` has just made: the
index lists `empty.enc` with size 0 and the container holds two entries,
`index.json` and `empty.enc.enc`.  With the output outside the directory the
container holds `index.json` alone and the index lists no files. -/
theorem empty_folder_inside :
    (CreateEncryptedArchiveWithIndex sampleEnv (some (.dir [])) (.inside ["empty.enc"])
      (List.replicate 32 0)).err = none ∧
    (CreateEncryptedArchiveWithIndex sampleEnv (some (.dir [])) (.inside ["empty.enc"])
      (List.replicate 32 0)).archive.map (fun z => z.map (fun f => f.Name))
      = some ["index.json", "empty.enc.enc"] ∧
    ListEncryptedFilesFromIndex sampleEnv
      (CreateEncryptedArchiveWithIndex sampleEnv (some (.dir [])) (.inside ["empty.enc"])
        (List.replicate 32 0)).archive
      = .ok [⟨"empty.enc", 0, 1000, "empty.enc.enc"⟩] ∧
    (CreateEncryptedArchiveWithIndex sampleEnv (some (.dir [])) .outside
      (List.replicate 32 0)).err = none ∧
    (CreateEncryptedArchiveWithIndex sampleEnv (some (.dir [])) .outside
      (List.replicate 32 0)).archive.map (fun z => z.map (fun f => f.Name))
      = some ["index.json"] ∧
    ListEncryptedFilesFromIndex sampleEnv
      (CreateEncryptedArchiveWithIndex sampleEnv (some (.dir [])) .outside
        (List.replicate 32 0)).archive = .ok [] := by
  decide

/-- C15, counterexample.  A destination file of the size of the source file and
not older than it keeps its own bytes: the source has `a` with the bytes `xy`
modified at time 5, the destination has `a` with the bytes `zz` written at time 9,
and after the backup the destination still holds `zz`.  A directory of the
destination at the path of a source file ends the copy pass: the file `b` next
to it is not copied. -/
theorem backup_keeps_stale_file :
    staleSrc.wellFormed = true ∧
    regularFiles staleSrc = [⟨["a"], [120, 121], 5⟩] ∧
    staleDst.fs ["a"] = some (.file [122, 122]) ∧
    (RunBackup sampleEnv staleSrc staleDst).fs ["a"] = some (.file [122, 122]) ∧
    (RunBackup sampleEnv staleSrc staleDst).fs ["a"] ≠ some (.file [120, 121]) ∧
    twoFiles.wellFormed = true ∧
    ⟨["b"], [1], 5⟩ ∈ regularFiles twoFiles ∧
    (RunBackup sampleEnv twoFiles blockedDst).fs ["b"] = none := by
  decide

/-- C15, amended.  Backup mirrors a source directory into a destination that has
no regular file where the source has a directory, no directory where the source
has a file, and in which a file at the path of a source file differs from it
in size, or is older than it, or holds its bytes already: after
`RunBackup` every regular file of the source lies at the same relative path
with the source bytes, and every directory of the source is a directory of the
destination. -/
theorem backup_mirrors (env : Env) (children : List (String × Node)) (dst : DstDir)
    (hwf : (Node.dir children).wellFormed = true)
    (hdirs : ∀ p ∈ directories (.dir children), p ≠ [] →
      dst.fs p = none ∨ dst.fs p = some .dir)
    (hfiles : ∀ f ∈ regularFiles (.dir children), dst.accepts f) :
    (∀ f ∈ regularFiles (.dir children),
      (RunBackup env (.dir children) dst).fs f.path = some (.file f.content)) ∧
    (∀ p ∈ directories (.dir children), p ≠ [] →
      (RunBackup env (.dir children) dst).fs p = some .dir) := by
  obtain ⟨_, _, h3, h4⟩ := copy_walk env (.dir children) (.dir children) [] dst hwf
    (fun s => by simp) (fun c m h => by simp at h)
    (fun q hq hqe _ => absurd (List.prefix_nil.mp hq) hqe) hdirs hfiles
  refine ⟨?_, ?_⟩
  · intro f hf
    have hl := (mem_regularFiles_iff _ hwf f).mp hf
    simp only [RunBackup, cleanupPass, srcMissing_of_lookup _ _ _ hl]
    exact h3 f hf
  · intro p hp hp0
    obtain ⟨s, hs, cs, hl⟩ := directoriesAt_path _ [] hwf p hp
    rw [List.nil_append] at hs
    subst hs
    simp only [RunBackup, cleanupPass, srcMissing_of_lookup _ _ _ hl]
    exact h4 p hp hp0

/-- C15, witness: a first backup of the example directory into an empty
destination, then a second backup after the source was edited. -/
theorem backup_mirrors_witness :
    (Node.dir editedChildren).wellFormed = true ∧
    (∀ p ∈ directories (.dir editedChildren), p ≠ [] →
      (RunBackup sampleEnv sampleTree emptyDst).fs p = none ∨
      (RunBackup sampleEnv sampleTree emptyDst).fs p = some .dir) ∧
    (∀ f ∈ regularFiles (.dir editedChildren),
      (RunBackup sampleEnv sampleTree emptyDst).accepts f) ∧
    (RunBackup sampleEnv sampleTree emptyDst).fs ["a.txt"] = some (.file [104, 105]) ∧
    (RunBackup sampleEnv (.dir editedChildren)
      (RunBackup sampleEnv sampleTree emptyDst)).fs ["a.txt"] = some (.file [104, 111]) ∧
    (RunBackup sampleEnv (.dir editedChildren)
      (RunBackup sampleEnv sampleTree emptyDst)).fs ["sub", "deep"] = some .dir :=
  ⟨by decide, by decide, by decide, by decide,
    (backup_mirrors sampleEnv editedChildren (RunBackup sampleEnv sampleTree emptyDst)
      (by decide) (by decide) (by decide)).1 ⟨["a.txt"], [104, 111], 2000⟩ (by decide),
    (backup_mirrors sampleEnv editedChildren (RunBackup sampleEnv sampleTree emptyDst)
      (by decide) (by decide) (by decide)).2 ["sub", "deep"] (by decide) (by decide)⟩

theorem unitLoop_succ (fuel : Nat) (n div : Int) (exp : Nat) :
    unitLoop (fuel + 1) n div exp
      = if n ≥ 1024 then unitLoop fuel (Int.tdiv n 1024) (wrapInt64 (div * 1024)) (exp + 1)
        else some (div, exp) := rfl

/-- The unit loop on an `int64` size of at least 1024: it stops after at most
five rounds, the products never leave the 64-bit range, and the unit brackets the size. -/
theorem unitLoop_int64 (size : Int) (hlo : 1024 ≤ size) (hhi : size < 2 ^ 63) :
    ∃ exp : Nat, exp ≤ 5 ∧
      unitLoop 64 (Int.tdiv size 1024) 1024 0 = some (1024 ^ (exp + 1), exp) ∧
      (1024 : Int) ^ (exp + 1) < 2 ^ 63 ∧
      (1024 : Int) ^ (exp + 1) ≤ size ∧ size < 1024 ^ (exp + 2) := by
  have hdiv : ∀ a : Int, 0 ≤ a → Int.tdiv a 1024 = a / 1024 :=
    fun a ha => Int.tdiv_eq_ediv ha (by decide)
  have w2 : wrapInt64 (1024 * 1024) = 1024 ^ 2 := by decide
  have w3 : wrapInt64 (1024 ^ 2 * 1024) = 1024 ^ 3 := by decide
  have w4 : wrapInt64 (1024 ^ 3 * 1024) = 1024 ^ 4 := by decide
  have w5 : wrapInt64 (1024 ^ 4 * 1024) = 1024 ^ 5 := by decide
  have w6 : wrapInt64 (1024 ^ 5 * 1024) = 1024 ^ 6 := by decide
  rw [hdiv size (by omega)]
  norm_num at hhi
  by_cases h0 : size / 1024 < 1024
  · refine ⟨0, by omega, ?_, by norm_num, by norm_num; omega, by norm_num; omega⟩
    rw [unitLoop_succ, if_neg (by omega)]
    norm_num
  rw [unitLoop_succ, if_pos (by omega), hdiv _ (by omega), w2]
  by_cases h1 : size / 1024 / 1024 < 1024
  · refine ⟨1, by omega, ?_, by norm_num, by norm_num; omega, by norm_num; omega⟩
    rw [unitLoop_succ, if_neg (by omega)]
  rw [unitLoop_succ, if_pos (by omega), hdiv _ (by omega), w3]
  by_cases h2 : size / 1024 / 1024 / 1024 < 1024
  · refine ⟨2, by omega, ?_, by norm_num, by norm_num; omega, by norm_num; omega⟩
    rw [unitLoop_succ, if_neg (by omega)]
  rw [unitLoop_succ, if_pos (by omega), hdiv _ (by omega), w4]
  by_cases h3 : size / 1024 / 1024 / 1024 / 1024 < 1024
  · refine ⟨3, by omega, ?_, by norm_num, by norm_num; omega, by norm_num; omega⟩
    rw [unitLoop_succ, if_neg (by omega)]
  rw [unitLoop_succ, if_pos (by omega), hdiv _ (by omega), w5]
  by_cases h4 : size / 1024 / 1024 / 1024 / 1024 / 1024 < 1024
  · refine ⟨4, by omega, ?_, by norm_num, by norm_num; omega, by norm_num; omega⟩
    rw [unitLoop_succ, if_neg (by omega)]
  rw [unitLoop_succ, if_pos (by omega), hdiv _ (by omega), w6]
  refine ⟨5, by omega, ?_, by norm_num, by norm_num; omega, by norm_num; omega⟩
  rw [unitLoop_succ, if_neg (by omega)]


theorem unitChar_some (exp : Nat) (h : exp ≤ 5) :
    ∃ c, unitChar exp = some c ∧ c ∈ ['K', 'M', 'G', 'T', 'P', 'E'] := by
  interval_cases exp <;> exact ⟨_, rfl, by decide⟩

/-- On every `int64` size `formatFileSize` returns. -/
theorem formatFileSize_returns (size : Int) (hlo : -2 ^ 63 ≤ size) (hhi : size < 2 ^ 63) :
    ∃ s, formatFileSize size = some s := by
  have _ := hlo
  by_cases h : size < 1024
  · exact ⟨formatInt size ++ " B", by simp only [formatFileSize, h, if_true]⟩
  · obtain ⟨exp, he, hloop, _, _, _⟩ := unitLoop_int64 size (by omega) hhi
    obtain ⟨c, hc, _⟩ := unitChar_some exp he
    exact ⟨formatTenths (float64OfNat size.toNat)
        (float64OfNat ((1024 : Int) ^ (exp + 1)).toNat) ++ " " ++ String.singleton c ++ "B",
      by simp only [formatFileSize, h, if_false, hloop, hc]⟩

/-- C17. `formatFileSize` is total on `int64`.  For every size in the 64-bit
range the function returns.  Below 1024, negative sizes included, the result is
the decimal size followed by `" B"`.  From 1024 on, the loop ends, within the
fuel, with an exponent `exp` of at most 5, so `"KMGTPE"[exp]` is in range; the
divisor is `1024 ^ (exp + 1)`, computed without leaving the 64-bit range; and
`1024 ^ (exp + 1) ≤ size < 1024 ^ (exp + 2)`. -/
theorem formatFileSize_total (size : Int) (hlo : -2 ^ 63 ≤ size) (hhi : size < 2 ^ 63) :
    (∃ s, formatFileSize size = some s) ∧
    (size < 1024 → formatFileSize size = some (formatInt size ++ " B")) ∧
    (1024 ≤ size → ∃ (exp : Nat) (c : Char), exp ≤ 5 ∧
      unitLoop 64 (Int.tdiv size 1024) 1024 0 = some (1024 ^ (exp + 1), exp) ∧
      unitChar exp = some c ∧
      (1024 : Int) ^ (exp + 1) < 2 ^ 63 ∧
      (1024 : Int) ^ (exp + 1) ≤ size ∧ size < 1024 ^ (exp + 2) ∧
      formatFileSize size = some (formatTenths (float64OfNat size.toNat)
        (float64OfNat ((1024 : Int) ^ (exp + 1)).toNat) ++ " " ++ String.singleton c ++ "B")) := by
  have hbig : 1024 ≤ size → ∃ (exp : Nat) (c : Char), exp ≤ 5 ∧
      unitLoop 64 (Int.tdiv size 1024) 1024 0 = some (1024 ^ (exp + 1), exp) ∧
      unitChar exp = some c ∧
      (1024 : Int) ^ (exp + 1) < 2 ^ 63 ∧
      (1024 : Int) ^ (exp + 1) ≤ size ∧ size < 1024 ^ (exp + 2) ∧
      formatFileSize size = some (formatTenths (float64OfNat size.toNat)
        (float64OfNat ((1024 : Int) ^ (exp + 1)).toNat) ++ " " ++ String.singleton c ++ "B") := by
    intro h
    obtain ⟨exp, he, hloop, hno, h1, h2⟩ := unitLoop_int64 size h hhi
    obtain ⟨c, hc, _⟩ := unitChar_some exp he
    refine ⟨exp, c, he, hloop, hc, hno, h1, h2, ?_⟩
    have hn : ¬ size < 1024 := by omega
    simp only [formatFileSize, hn, if_false, hloop, hc]
  have hsmall : size < 1024 → formatFileSize size = some (formatInt size ++ " B") := by
    intro h
    simp only [formatFileSize, h, if_true]
  refine ⟨?_, hsmall, hbig⟩
  by_cases h : size < 1024
  · exact ⟨_, hsmall h⟩
  · obtain ⟨exp, c, _, _, _, _, _, _, hf⟩ := hbig (by omega)
    exact ⟨_, hf⟩

/-- Witness for C17: the largest `int64`, a negative size and a size of 1.5 KiB. -/
theorem formatFileSize_total_witness :
    (-2 ^ 63 ≤ (2 ^ 63 - 1 : Int) ∧ (2 ^ 63 - 1 : Int) < 2 ^ 63 ∧
      formatFileSize (2 ^ 63 - 1) = some "8.0 EB") ∧
    (-2 ^ 63 ≤ (-5 : Int) ∧ (-5 : Int) < 2 ^ 63 ∧ (-5 : Int) < 1024 ∧
      formatFileSize (-5) = some "-5 B") ∧
    (-2 ^ 63 ≤ (1536 : Int) ∧ (1536 : Int) < 2 ^ 63 ∧ (1024 : Int) ≤ 1536 ∧
      ∃ (exp : Nat) (c : Char), exp ≤ 5 ∧ unitChar exp = some c ∧
        (1024 : Int) ^ (exp + 1) ≤ 1536 ∧ (1536 : Int) < 1024 ^ (exp + 2)) :=
  ⟨⟨by decide, by decide,
      by decide⟩,
    ⟨by decide, by decide, by decide,
      ((formatFileSize_total (-5) (by decide) (by decide)).2.1 (by decide)).trans (by decide)⟩,
    ⟨by decide, by decide, by decide,
      match (formatFileSize_total 1536 (by decide) (by decide)).2.2 (by decide) with
      | ⟨exp, c, h1, _, h3, _, h5, h6, _⟩ => ⟨exp, c, h1, h3, h5, h6⟩⟩⟩

theorem digitChar_ne_paren (d : Nat) : digitChar d ≠ '(' := by
  unfold digitChar
  split <;> decide

theorem decimalDigits_no_paren : ∀ (fuel n : Nat), '(' ∉ decimalDigits fuel n := by
  intro fuel
  induction fuel with
  | zero => intro n; simp [decimalDigits]
  | succ f ih =>
    intro n
    unfold decimalDigits
    split
    · simp only [List.mem_singleton]
      exact fun e => digitChar_ne_paren n e.symm
    · simp only [List.mem_append, List.mem_singleton, not_or]
      exact ⟨ih _, fun e => digitChar_ne_paren _ e.symm⟩

theorem decimal_no_paren (n : Nat) : '(' ∉ (decimal n).data :=
  decimalDigits_no_paren _ _

theorem formatInt_no_paren (i : Int) : '(' ∉ (formatInt i).data := by
  unfold formatInt
  split
  · simp only [String.data_append, List.mem_append, not_or]
    exact ⟨by decide, decimal_no_paren _⟩
  · exact decimal_no_paren _

theorem formatTenths_no_paren (num den : Nat) : '(' ∉ (formatTenths num den).data := by
  simp only [formatTenths, String.data_append, List.mem_append, not_or]
  exact ⟨⟨decimal_no_paren _, by decide⟩, decimal_no_paren _⟩

/-- Whatever `formatFileSize` returns holds no opening parenthesis. -/
theorem formatFileSize_no_paren (size : Int) (s : String) (h : formatFileSize size = some s) :
    '(' ∉ s.data := by
  unfold formatFileSize at h
  split at h
  · cases h
    simp only [String.data_append, List.mem_append, not_or]
    exact ⟨formatInt_no_paren _, by decide⟩
  · split at h
    · cases h
    · split at h
      · cases h
      · next div exp c hc =>
        cases h
        have hmem : c ∈ "KMGTPE".data := List.get?_mem hc
        have hcne : c ≠ '(' := by
          intro e
          rw [e] at hmem
          exact absurd hmem (by decide)
        simp only [String.data_append, List.mem_append, not_or]
        refine ⟨⟨⟨formatTenths_no_paren _ _, by decide⟩, ?_⟩, by decide⟩
        simp only [String.singleton, String.push, List.nil_append, List.mem_singleton]
        exact fun e => hcne e.symm

theorem lastIndex_none_of_no_paren (t : List Char) (h : '(' ∉ t.tail) :
    lastIndex [' ', '('] t = none := by
  induction t with
  | nil => simp [lastIndex]
  | cons c cs ih =>
    simp only [List.tail_cons] at h
    have hcs : '(' ∉ cs.tail := fun hm => h (List.mem_of_mem_tail hm)
    simp only [lastIndex, ih hcs]
    cases cs with
    | nil => simp [List.isPrefixOf]
    | cons d ds =>
      have hd : d ≠ '(' := by
        intro e
        exact h (by simp [e])
      have hd1 : ¬ '(' = d := fun e => hd e.symm
      simp [List.isPrefixOf, hd1]

/-- Cutting at the last `" ("` gives back what stood before it when nothing
after it holds an opening parenthesis. -/
theorem lastIndex_append (p t : List Char) (h : '(' ∉ t) :
    lastIndex [' ', '('] (p ++ ' ' :: '(' :: t) = some p.length := by
  induction p with
  | nil =>
    have h1 : lastIndex [' ', '('] ('(' :: t) = none :=
      lastIndex_none_of_no_paren _ (by simpa using h)
    have h2 : lastIndex [' ', '('] ([] ++ ' ' :: '(' :: t)
        = match lastIndex [' ', '('] ('(' :: t) with
          | some i => some (i + 1)
          | none => if [' ', '('].isPrefixOf (' ' :: '(' :: t) then some 0 else none := rfl
    rw [h2, h1]
    simp [List.isPrefixOf]
  | cons c cs ih => simp [lastIndex, ih]

theorem selectionKey_displayOption (p sizeStr : String) (h : '(' ∉ sizeStr.data) :
    selectionKey (displayOption p sizeStr) = p := by
  have hdata : (displayOption p sizeStr).data = p.data ++ ' ' :: '(' :: (sizeStr.data ++ [')']) := by
    simp [displayOption, String.data_append]
  have hno : '(' ∉ sizeStr.data ++ [')'] := by
    simp only [List.mem_append, List.mem_singleton, not_or]
    exact ⟨h, by decide⟩
  have hsub : " (".data = [' ', '('] := rfl
  simp only [selectionKey, hsub, hdata, lastIndex_append _ _ hno]
  apply String.ext
  simp


theorem displayOptions_keys : ∀ (chosen : List FileIndexEntry),
    (∀ file ∈ chosen, -2 ^ 63 ≤ file.OriginalSize ∧ file.OriginalSize < 2 ^ 63) →
    ∃ selected, displayOptions chosen = some selected ∧
      selected.map selectionKey = chosen.map (fun file => file.RelativePath) := by
  intro chosen
  induction chosen with
  | nil => intro _; exact ⟨[], rfl, rfl⟩
  | cons file rest ih =>
    intro h
    obtain ⟨selected, h1, h2⟩ := ih (fun f hf => h f (List.mem_cons_of_mem _ hf))
    obtain ⟨sizeStr, hs⟩ := formatFileSize_returns file.OriginalSize (h file (by simp)).1
      (h file (by simp)).2
    refine ⟨displayOption file.RelativePath sizeStr :: selected, ?_, ?_⟩
    · simp only [displayOptions, hs, h1]
    · simp only [List.map_cons, h2,
        selectionKey_displayOption _ _ (formatFileSize_no_paren _ _ hs)]

/-- C16. Selection round trip.  For every relative path `p`, whatever it
contains, and every `int64` size, `formatFileSize` returns a string without an
opening parenthesis, the last `" ("` of the display option
`p + " (" + formatFileSize(size) + ")"` stands right after `p`, and cutting
there gives back `p`.  Hence for the entries a user chose, the keys of
`selectedMap` are exactly their `RelativePath` values. -/
theorem selection_roundtrip (p : String) (size : Int) :
    (-2 ^ 63 ≤ size → size < 2 ^ 63 →
      ∃ sizeStr, formatFileSize size = some sizeStr ∧ '(' ∉ sizeStr.data ∧
        lastIndex " (".data (displayOption p sizeStr).data = some p.data.length ∧
        selectionKey (displayOption p sizeStr) = p) ∧
    (∀ chosen : List FileIndexEntry,
      (∀ file ∈ chosen, -2 ^ 63 ≤ file.OriginalSize ∧ file.OriginalSize < 2 ^ 63) →
      ∃ selected, displayOptions chosen = some selected ∧
        selected.map selectionKey = chosen.map (fun file => file.RelativePath) ∧
        ∀ q, selectedMapOf selected q = true ↔ q ∈ chosen.map (fun file => file.RelativePath)) := by
  refine ⟨?_, ?_⟩
  · intro hlo hhi
    obtain ⟨sizeStr, hs⟩ := formatFileSize_returns size hlo hhi
    have hno := formatFileSize_no_paren _ _ hs
    refine ⟨sizeStr, hs, hno, ?_, selectionKey_displayOption p sizeStr hno⟩
    have hdata : (displayOption p sizeStr).data
        = p.data ++ ' ' :: '(' :: (sizeStr.data ++ [')']) := by
      simp [displayOption, String.data_append]
    have hno1 : '(' ∉ sizeStr.data ++ [')'] := by
      simp only [List.mem_append, List.mem_singleton, not_or]
      exact ⟨hno, by decide⟩
    have hsub : " (".data = [' ', '('] := rfl
    rw [hsub, hdata, lastIndex_append _ _ hno1]
  · intro chosen h
    obtain ⟨selected, h1, h2⟩ := displayOptions_keys chosen h
    refine ⟨selected, h1, h2, ?_⟩
    intro q
    rw [← h2]
    simp [selectedMapOf]

/-- Witness for C16: a path that itself holds `" ("`, with a size of 1.5 KiB. -/
theorem selection_roundtrip_witness :
    -2 ^ 63 ≤ (1536 : Int) ∧ (1536 : Int) < 2 ^ 63 ∧
    formatFileSize 1536 = some "1.5 KB" ∧
    displayOption "notes (old).txt" "1.5 KB" = "notes (old).txt (1.5 KB)" ∧
    ∃ sizeStr, formatFileSize 1536 = some sizeStr ∧
      selectionKey (displayOption "notes (old).txt" sizeStr) = "notes (old).txt" :=
  ⟨by decide, by decide, by decide, by decide,
    match (selection_roundtrip "notes (old).txt" 1536).1 (by decide) (by decide) with
    | ⟨sizeStr, h1, _, _, h4⟩ => ⟨sizeStr, h1, h4⟩⟩

end Filetool
